import Mathlib

/-!
Verification development for `python-dynamodb-geo`.

The Python sources are shallowly embedded as follows:

* Python `str` values (geohashes, cell ids) become `GStr := List Char`;
  slicing `s[0:p]` becomes `List.take p`, membership and comparison are
  the lexicographic order on code points, exactly as in Python.
* DynamoDB items are association lists.  The secondary geohash index of
  the source table is modelled by the list of stored items held in index
  order (partition attribute `_geohash_prefix`, range attribute
  `_geohash`, disambiguated by the primary key), and a partition query
  with `Limit`/`ExclusiveStartKey`/`LastEvaluatedKey` is the evident
  filter/take on that ordered list.
* The statistics counter table is an association list from cell id to
  `item_count`; DynamoDB `ADD` creates absent rows, `transact_write_items`
  with a `ClientRequestToken` is a no-op when the token was seen before,
  and a conditional delete removes the row only when its condition
  `item_count <= 0` holds, otherwise the state is unchanged (the raised
  `ConditionalCheckFailedException` is modelled by the `none` branch).
* Fallible Python code (raised exceptions) returns `Except`.
* The external geohash/geometry capabilities (`libgeohash`, `shapely`)
  are abstract parameters (`GeoLib`), per the spec's interface boundary.
-/

namespace DynamodbGeo

/-! ## Python strings and their lexicographic order -/

/-- Python strings, as lists of characters. -/
abbrev GStr := List Char

/-- Python's `<` on strings: lexicographic order on code points. -/
def gLt : GStr → GStr → Bool
  | [], [] => false
  | [], _ :: _ => true
  | _ :: _, [] => false
  | a :: as, b :: bs => if a < b then true else if b < a then false else gLt as bs

theorem gLt_irrefl (a : GStr) : gLt a a = false := by
  induction a with
  | nil => rfl
  | cons c cs ih => simp [gLt, ih]

theorem gLt_asymm {a b : GStr} (h : gLt a b = true) : gLt b a = false := by
  induction a generalizing b with
  | nil =>
    cases b with
    | nil => simp [gLt] at h
    | cons y ys => simp [gLt]
  | cons x xs ih =>
    cases b with
    | nil => simp [gLt] at h
    | cons y ys =>
      by_cases hxy : x < y
      · have hyx : ¬ y < x := lt_asymm hxy
        simp [gLt, hxy, hyx]
      · by_cases hyx : y < x
        · simp [gLt, hxy, hyx] at h
        · simp [gLt, hxy, hyx] at h ⊢
          exact ih h

theorem gLt_trans {a b c : GStr} (hab : gLt a b = true) (hbc : gLt b c = true) :
    gLt a c = true := by
  induction a generalizing b c with
  | nil =>
    cases b with
    | nil => simp [gLt] at hab
    | cons y ys =>
      cases c with
      | nil => simp [gLt] at hbc
      | cons z zs => simp [gLt]
  | cons x xs ih =>
    cases b with
    | nil => simp [gLt] at hab
    | cons y ys =>
      cases c with
      | nil => simp [gLt] at hbc
      | cons z zs =>
        by_cases hxy : x < y
        · by_cases hyz : y < z
          · simp [gLt, lt_trans hxy hyz]
          · by_cases hzy : z < y
            · simp [gLt, hyz, hzy] at hbc
            · have hyz' : y = z := le_antisymm (not_lt.mp hzy) (not_lt.mp hyz)
              subst hyz'
              simp [gLt, hxy]
        · by_cases hyx : y < x
          · simp [gLt, hxy, hyx] at hab
          · have hxy' : x = y := le_antisymm (not_lt.mp hyx) (not_lt.mp hxy)
            subst hxy'
            simp [gLt, hxy] at hab
            by_cases hyz : x < z
            · simp [gLt, hyz]
            · by_cases hzy : z < x
              · simp [gLt, hyz, hzy] at hbc
              · simp [gLt, hyz, hzy] at hbc ⊢
                exact ih hab hbc

theorem gLt_connex {a b : GStr} (hab : gLt a b = false) (hba : gLt b a = false) : a = b := by
  induction a generalizing b with
  | nil =>
    cases b with
    | nil => rfl
    | cons y ys => simp [gLt] at hab
  | cons x xs ih =>
    cases b with
    | nil => simp [gLt] at hba
    | cons y ys =>
      by_cases hxy : x < y
      · simp [gLt, hxy] at hab
      · by_cases hyx : y < x
        · simp [gLt, hyx, lt_asymm hyx] at hba
        · have hxy' : x = y := le_antisymm (not_lt.mp hyx) (not_lt.mp hxy)
          subst hxy'
          simp [gLt, hxy] at hab hba
          rw [ih hab hba]

/-- Two strings that agree on equal-length strictly ordered prefixes are
ordered the same way, whatever their suffixes. -/
theorem gLt_append {c d x y : GStr} (hlen : c.length = d.length)
    (h : gLt c d = true) : gLt (c ++ x) (d ++ y) = true := by
  induction c generalizing d with
  | nil =>
    cases d with
    | nil => simp [gLt] at h
    | cons z zs => simp at hlen
  | cons a as ih =>
    cases d with
    | nil => simp [gLt] at h
    | cons b bs =>
      simp at hlen
      by_cases hab : a < b
      · simp [gLt, hab]
      · by_cases hba : b < a
        · simp [gLt, hab, hba] at h
        · simp [gLt, hab, hba] at h ⊢
          exact ih hlen h

/-- Python's `sorted` on a list of strings (any correct comparison sort). -/
def pySorted (l : List GStr) : List GStr :=
  l.mergeSort (fun a b => !gLt b a)

theorem pySorted_perm (l : List GStr) : (pySorted l).Perm l :=
  List.mergeSort_perm l _

theorem gLe_trans {a b c : GStr} (hab : gLt b a = false) (hbc : gLt c b = false) :
    gLt c a = false := by
  by_contra hca
  simp only [Bool.not_eq_false] at hca
  rcases Bool.eq_false_or_eq_true (gLt a b) with h1 | h1
  · exact absurd (gLt_trans hca h1) (by simp [hbc])
  · have hab' : a = b := gLt_connex h1 hab
    subst hab'
    exact absurd hca (by simp [hbc])

theorem pySorted_pairwise (l : List GStr) :
    (pySorted l).Pairwise (fun a b => gLt b a = false) := by
  have h := @List.sorted_mergeSort GStr (fun a b : GStr => !gLt b a)
    (fun a b c hab hbc => by
      simp only [Bool.not_eq_true'] at hab hbc ⊢
      exact gLe_trans hab hbc)
    (fun a b => by
      rcases Bool.eq_false_or_eq_true (gLt b a) with h1 | h1
      · simp [gLt_asymm h1]
      · simp [h1])
    l
  exact h.imp (fun hab => by simpa using hab)

/-! ## Statistics aggregator (`statistics.py`, `StatisticsStreamHandler`)

The handler consumes DynamoDB stream records.  Only the geohash field of
the before/after images matters to it, so images are modelled as
association lists from attribute name to string value.  The counter
table is an association list from cell id to `item_count`. -/

/-- `StatisticsConfiguration` from `configuration.py`. -/
structure StatisticsConfiguration where
  precisionSteps : List Nat

/-- The DynamoDB stream event types. -/
inductive StreamEventName
  | insert
  | modify
  | remove
deriving DecidableEq, Repr

/-- A DynamoDB stream record.  `oldImage` is only consulted for
`modify`/`remove`, `newImage` only for `insert`/`modify`, matching the
dictionary accesses the Python code performs. -/
structure StreamRecord where
  eventName : StreamEventName
  eventId : String
  oldImage : List (String × GStr)
  newImage : List (String × GStr)

/-- `StatisticsStreamHandler._get_geohash`: returns the deserialized
geohash field of an image if the field is present, else Python `None`. -/
def getGeohash (geohashField : String) (img : List (String × GStr)) : Option GStr :=
  img.lookup geohashField

/-- Python truthiness of an optional string (`if old_geohash and ...`):
`None` and the empty string are falsy.  Returns the value when truthy. -/
def pyTruthy : Option GStr → Option GStr
  | some g => if g.isEmpty then none else some g
  | none => none

/-- The geohash values extracted from a stream record, per event type
(`_handle_dynamodb_stream_record`, lines 158-164): `(old, new)`. -/
def recordGeohashes (geohashField : String) (r : StreamRecord) : Option GStr × Option GStr :=
  match r.eventName with
  | .insert => (none, getGeohash geohashField r.newImage)
  | .modify => (getGeohash geohashField r.oldImage, getGeohash geohashField r.newImage)
  | .remove => (getGeohash geohashField r.oldImage, none)

/-- The only exception raised by the handler's own code: the
`ValueError` of `_get_key` for a too-short geohash. -/
inductive StatsErr
  | valueError
deriving DecidableEq, Repr

/-- `StatisticsStreamHandler._get_key`: the counter-row key
`geohash[0:precision]`, raising `ValueError` when the geohash is shorter
than the precision. -/
def getKey (g : GStr) (p : Nat) : Except StatsErr GStr :=
  if g.length < p then .error .valueError else .ok (g.take p)

/-- `StatisticsStreamHandler._get_change_item`, reduced to the data that
determines the counter mutation: the row key and the `ADD` increment. -/
def getChangeItem (g : GStr) (p : Nat) (inc : Int) : Except StatsErr (GStr × Int) := do
  let k ← getKey g p
  .ok (k, inc)

/-- `StatisticsStreamHandler._get_conditional_delete`, reduced to the row
key it targets (the condition is always `item_count <= 0`). -/
def getConditionalDelete (g : GStr) (p : Nat) : Except StatsErr GStr :=
  getKey g p

/-- The body of the `for precision in ...precision_steps` loop of
`_handle_dynamodb_stream_record`: the updates and conditional deletes one
tier contributes.  Branching mirrors the Python truthiness tests
(`if old_geohash and new_geohash / elif new_geohash / elif old_geohash`)
and the evaluation order of the `append` calls. -/
def tierChanges (old new : Option GStr) (p : Nat) :
    Except StatsErr (List (GStr × Int) × List GStr) :=
  match pyTruthy old, pyTruthy new with
  | some og, some ng =>
    if og.take p ≠ ng.take p then do
      let u1 ← getChangeItem og p (-1)
      let u2 ← getChangeItem ng p 1
      let d1 ← getConditionalDelete og p
      .ok ([u1, u2], [d1])
    else .ok ([], [])
  | none, some ng => do
    let u1 ← getChangeItem ng p 1
    .ok ([u1], [])
  | some og, none => do
    let u1 ← getChangeItem og p (-1)
    let d1 ← getConditionalDelete og p
    .ok ([u1], [d1])
  | none, none => .ok ([], [])

/-- The whole precision loop of `_handle_dynamodb_stream_record`:
updates and conditional deletes accumulated over all tiers in step
order; a `ValueError` anywhere aborts the handler. -/
def buildChanges (old new : Option GStr) : List Nat →
    Except StatsErr (List (GStr × Int) × List GStr)
  | [] => .ok ([], [])
  | p :: rest => do
    let (u, d) ← tierChanges old new p
    let (us, ds) ← buildChanges old new rest
    .ok (u ++ us, d ++ ds)

/-- State of the statistics DynamoDB table together with the idempotency
tokens the store has already accepted. -/
structure StatisticsState where
  rows : List (GStr × Int)
  tokens : List String
deriving DecidableEq, Repr

/-- The `item_count` DynamoDB would report for a cell (0 if the row is
absent, which is how `ADD` treats missing rows). -/
def rowVal (rows : List (GStr × Int)) (c : GStr) : Int :=
  (rows.lookup c).getD 0

/-- One `ADD item_count :inc` update: upserts the row. -/
def applyAdd (rows : List (GStr × Int)) (u : GStr × Int) : List (GStr × Int) :=
  if (rows.lookup u.1).isSome then
    rows.map (fun r => if r.1 == u.1 then (r.1, r.2 + u.2) else r)
  else rows ++ [u]

/-- All updates of one transaction, in order. -/
def applyUpdates (rows : List (GStr × Int)) (us : List (GStr × Int)) : List (GStr × Int) :=
  us.foldl applyAdd rows

/-- `transact_write_items` with a `ClientRequestToken`: atomic, and a
no-op when the token has been seen before (the store's idempotency
guarantee the spec assumes, §5/§6). -/
def transactWriteItems (token : String) (us : List (GStr × Int)) (s : StatisticsState) :
    StatisticsState :=
  if token ∈ s.tokens then s
  else { rows := applyUpdates s.rows us, tokens := token :: s.tokens }

/-- A conditional `delete_item` guarded by `item_count <= :zero`.
`some rows'` is a successful delete; `none` is the
`ConditionalCheckFailedException` outcome (row absent, or count
positive), which leaves the table unchanged. -/
def deleteIfDrained (c : GStr) (rows : List (GStr × Int)) : Option (List (GStr × Int)) :=
  match rows.lookup c with
  | some v => if v ≤ 0 then some (rows.filter (fun r => !(r.1 == c))) else none
  | none => none

/-- One iteration of the `for delete in conditional_deletes` loop: the
delete is attempted and a failed precondition is swallowed
(`except ... ConditionalCheckFailedException: logging.debug(...)`). -/
def condDeleteStep (c : GStr) (s : StatisticsState) : StatisticsState :=
  match deleteIfDrained c s.rows with
  | some rows => { s with rows := rows }
  | none => s

/-- The whole `for delete in conditional_deletes` loop. -/
def applyConditionalDeletes : List GStr → StatisticsState → StatisticsState
  | [], s => s
  | c :: ds, s => applyConditionalDeletes ds (condDeleteStep c s)

/-- `StatisticsStreamHandler._handle_dynamodb_stream_record`: build the
per-tier changes, submit all updates as one transaction tagged with the
event-id token, then attempt the conditional deletes. -/
def handleStreamRecord (geohashField : String) (cfg : StatisticsConfiguration)
    (r : StreamRecord) (s : StatisticsState) : Except StatsErr StatisticsState :=
  match buildChanges (recordGeohashes geohashField r).1
      (recordGeohashes geohashField r).2 cfg.precisionSteps with
  | .error e => .error e
  | .ok (updates, deletes) =>
    .ok (applyConditionalDeletes deletes
      (if updates.isEmpty then s
       else transactWriteItems ("event_id=" ++ r.eventId) updates s))

/-! ### Idempotency of replay (claim C4) -/

theorem lookup_filter_beq (rows : List (GStr × Int)) (c d : GStr) :
    (rows.filter (fun r => !(r.1 == c))).lookup d
      = if d = c then none else rows.lookup d := by
  induction rows with
  | nil => simp
  | cons r rs ih =>
    rcases r with ⟨k, v⟩
    by_cases hkc : k = c
    · subst hkc
      simp only [List.filter_cons, beq_self_eq_true, Bool.not_true]
      by_cases hdc : d = k
      · subst hdc
        simp only [Bool.false_eq_true, if_false, ih]
        simp
      · have hb : (d == k) = false := by simp [hdc]
        simp [List.lookup_cons, hb, hdc, ih]
    · have hfb : (!(k == c)) = true := by simp [hkc]
      simp only [List.filter_cons, hfb, if_pos]
      by_cases hdk : d = k
      · subst hdk
        have hdc : ¬ d = c := hkc
        simp [List.lookup_cons, hdc]
      · have hb : (d == k) = false := by simp [hdk]
        simp [List.lookup_cons, hb, ih]

theorem lookup_deleteIfDrained_self {c : GStr} {rows rows' : List (GStr × Int)}
    (h : deleteIfDrained c rows = some rows') : rows'.lookup c = none := by
  unfold deleteIfDrained at h
  rcases hl : rows.lookup c with _ | v
  · simp [hl] at h
  · simp only [hl] at h
    by_cases hv : v ≤ 0
    · simp only [hv, if_pos] at h
      cases h
      simp [lookup_filter_beq]
    · simp [hv] at h

theorem lookup_deleteIfDrained_other {c : GStr} {rows rows' : List (GStr × Int)}
    (h : deleteIfDrained c rows = some rows') (d : GStr) (hne : d ≠ c) :
    rows'.lookup d = rows.lookup d := by
  unfold deleteIfDrained at h
  rcases hl : rows.lookup c with _ | v
  · simp [hl] at h
  · simp only [hl] at h
    by_cases hv : v ≤ 0
    · simp only [hv, if_pos] at h
      cases h
      simp [lookup_filter_beq, hne]
    · simp [hv] at h

/-- A cell the conditional delete can never touch again: absent, or held
at a strictly positive count. -/
def cellStable (c : GStr) (rows : List (GStr × Int)) : Prop :=
  rows.lookup c = none ∨ ∃ v, rows.lookup c = some v ∧ 0 < v

theorem condDeleteStep_of_stable {c : GStr} {s : StatisticsState}
    (h : cellStable c s.rows) : condDeleteStep c s = s := by
  rcases h with h | ⟨v, hv, hpos⟩
  · simp [condDeleteStep, deleteIfDrained, h]
  · simp [condDeleteStep, deleteIfDrained, hv, not_le.mpr hpos]

theorem cellStable_self (c : GStr) (s : StatisticsState) :
    cellStable c (condDeleteStep c s).rows := by
  unfold condDeleteStep
  rcases hd : deleteIfDrained c s.rows with _ | rows'
  · unfold deleteIfDrained at hd
    rcases hl : s.rows.lookup c with _ | v
    · exact Or.inl hl
    · simp only [hl] at hd
      by_cases hv : v ≤ 0
      · simp [hv] at hd
      · exact Or.inr ⟨v, hl, not_le.mp hv⟩
  · exact Or.inl (lookup_deleteIfDrained_self hd)

theorem cellStable_condDeleteStep {c : GStr} (c' : GStr) {s : StatisticsState}
    (h : cellStable c s.rows) : cellStable c (condDeleteStep c' s).rows := by
  unfold condDeleteStep
  rcases hd : deleteIfDrained c' s.rows with _ | rows'
  · exact h
  · by_cases hcc : c = c'
    · subst hcc
      exact Or.inl (lookup_deleteIfDrained_self hd)
    · rcases h with h | ⟨v, hv, hpos⟩
      · exact Or.inl ((lookup_deleteIfDrained_other hd c hcc).trans h)
      · exact Or.inr ⟨v, (lookup_deleteIfDrained_other hd c hcc).trans hv, hpos⟩

theorem cellStable_applyConditionalDeletes {c : GStr} (ds : List GStr)
    {s : StatisticsState} (h : cellStable c s.rows) :
    cellStable c (applyConditionalDeletes ds s).rows := by
  induction ds generalizing s with
  | nil => exact h
  | cons d ds ih => exact ih (cellStable_condDeleteStep d h)

theorem applyConditionalDeletes_tokens (ds : List GStr) (s : StatisticsState) :
    (applyConditionalDeletes ds s).tokens = s.tokens := by
  induction ds generalizing s with
  | nil => rfl
  | cons d ds ih =>
    rw [applyConditionalDeletes, ih]
    unfold condDeleteStep
    rcases deleteIfDrained d s.rows with _ | rows' <;> rfl

theorem applyConditionalDeletes_idem (ds : List GStr) (s : StatisticsState) :
    applyConditionalDeletes ds (applyConditionalDeletes ds s)
      = applyConditionalDeletes ds s := by
  induction ds generalizing s with
  | nil => rfl
  | cons c ds ih =>
    rw [applyConditionalDeletes, applyConditionalDeletes]
    have hst : cellStable c (applyConditionalDeletes ds (condDeleteStep c s)).rows :=
      cellStable_applyConditionalDeletes ds (cellStable_self c s)
    rw [condDeleteStep_of_stable hst]
    exact ih (condDeleteStep c s)

theorem mem_tokens_transactWriteItems (t : String) (us : List (GStr × Int))
    (s : StatisticsState) : t ∈ (transactWriteItems t us s).tokens := by
  unfold transactWriteItems
  by_cases h : t ∈ s.tokens
  · simp only [if_pos h]
    exact h
  · simp [h]

theorem transactWriteItems_of_mem {t : String} (us : List (GStr × Int))
    {s : StatisticsState} (h : t ∈ s.tokens) : transactWriteItems t us s = s := by
  simp [transactWriteItems, h]

/-- C4: all counter mutations of one event go through a single
transaction tagged with the token derived from the event id, so running
the handler a second time on the same record leaves the state produced
by the first run unchanged. -/
theorem handleStreamRecord_replay_idempotent (geohashField : String)
    (cfg : StatisticsConfiguration) (r : StreamRecord) (s : StatisticsState) :
    (handleStreamRecord geohashField cfg r s).bind (handleStreamRecord geohashField cfg r)
      = handleStreamRecord geohashField cfg r s := by
  rcases hb : buildChanges (recordGeohashes geohashField r).1
      (recordGeohashes geohashField r).2 cfg.precisionSteps with e | ⟨us, ds⟩
  · simp [handleStreamRecord, hb, Except.bind]
  · by_cases hus : us.isEmpty
    · simp [handleStreamRecord, hb, hus, Except.bind, applyConditionalDeletes_idem]
    · have htok : ("event_id=" ++ r.eventId) ∈
          (applyConditionalDeletes ds
            (transactWriteItems ("event_id=" ++ r.eventId) us s)).tokens := by
        rw [applyConditionalDeletes_tokens]
        exact mem_tokens_transactWriteItems _ us s
      simp [handleStreamRecord, hb, hus, Except.bind,
        transactWriteItems_of_mem us htok, applyConditionalDeletes_idem]

/-! ### Per-tier mutation table (claim C3) -/

/-- The per-tier effect table, written following the spec's words (§4.3):
Insert adds +1 at cell `new[:p]`; Delete adds −1 at `old[:p]` and
schedules a conditional delete of that cell; an Update with equal
truncations is a no-op, with different truncations it adds −1 at
`old[:p]` (plus conditional delete) and +1 at `new[:p]`; an absent
geohash contributes nothing on its side. -/
def specTierChanges (old new : Option GStr) (p : Nat) :
    List (GStr × Int) × List GStr :=
  match old, new with
  | some og, some ng =>
    if og.take p = ng.take p then ([], [])
    else ([(og.take p, -1), (ng.take p, 1)], [og.take p])
  | none, some ng => ([(ng.take p, 1)], [])
  | some og, none => ([(og.take p, -1)], [og.take p])
  | none, none => ([], [])

theorem pyTruthy_eq_self {o : Option GStr} (h : ∀ g, o = some g → g ≠ []) :
    pyTruthy o = o := by
  rcases o with _ | g
  · rfl
  · have hg : g ≠ [] := h g rfl
    simp [pyTruthy, List.isEmpty_iff, hg]

theorem getKey_of_le {g : GStr} {p : Nat} (h : p ≤ g.length) :
    getKey g p = .ok (g.take p) := by
  simp [getKey, not_lt.mpr h]

theorem getChangeItem_of_le {g : GStr} {p : Nat} (h : p ≤ g.length) (inc : Int) :
    getChangeItem g p inc = .ok (g.take p, inc) := by
  unfold getChangeItem
  rw [getKey_of_le h]
  rfl

theorem getConditionalDelete_of_le {g : GStr} {p : Nat} (h : p ≤ g.length) :
    getConditionalDelete g p = .ok (g.take p) :=
  getKey_of_le h

theorem tierChanges_eq {old new : Option GStr} {p : Nat}
    (hold : ∀ g, old = some g → g ≠ [] ∧ p ≤ g.length)
    (hnew : ∀ g, new = some g → g ≠ [] ∧ p ≤ g.length) :
    tierChanges old new p = .ok (specTierChanges old new p) := by
  have ho : pyTruthy old = old := pyTruthy_eq_self (fun g hg => (hold g hg).1)
  have hn : pyTruthy new = new := pyTruthy_eq_self (fun g hg => (hnew g hg).1)
  unfold tierChanges
  rw [ho, hn]
  rcases old with _ | og <;> rcases new with _ | ng
  · rfl
  · have h1 := (hnew ng rfl).2
    show (do
      let u1 ← getChangeItem ng p 1
      Except.ok ([u1], ([] : List GStr))) = _
    rw [getChangeItem_of_le h1]
    rfl
  · have h1 := (hold og rfl).2
    show (do
      let u1 ← getChangeItem og p (-1)
      let d1 ← getConditionalDelete og p
      Except.ok ([u1], [d1])) = _
    rw [getChangeItem_of_le h1, getConditionalDelete_of_le h1]
    rfl
  · have h1 := (hold og rfl).2
    have h2 := (hnew ng rfl).2
    by_cases heq : og.take p = ng.take p
    · simp [specTierChanges, heq]
    · show (if og.take p ≠ ng.take p then do
          let u1 ← getChangeItem og p (-1)
          let u2 ← getChangeItem ng p 1
          let d1 ← getConditionalDelete og p
          Except.ok ([u1, u2], [d1])
        else Except.ok ([], [])) = _
      rw [if_pos heq, getChangeItem_of_le h1, getChangeItem_of_le h2,
        getConditionalDelete_of_le h1]
      simp [specTierChanges, heq]
      rfl

theorem buildChanges_eq {old new : Option GStr} (steps : List Nat)
    (hold : ∀ g, old = some g → g ≠ [] ∧ ∀ p ∈ steps, p ≤ g.length)
    (hnew : ∀ g, new = some g → g ≠ [] ∧ ∀ p ∈ steps, p ≤ g.length) :
    buildChanges old new steps
      = .ok (steps.flatMap (fun p => (specTierChanges old new p).1),
             steps.flatMap (fun p => (specTierChanges old new p).2)) := by
  induction steps with
  | nil => rfl
  | cons p rest ih =>
    have h1 : tierChanges old new p = .ok (specTierChanges old new p) :=
      tierChanges_eq
        (fun g hg => ⟨(hold g hg).1, (hold g hg).2 p (by simp)⟩)
        (fun g hg => ⟨(hnew g hg).1, (hnew g hg).2 p (by simp)⟩)
    have h2 := ih
      (fun g hg => ⟨(hold g hg).1, fun q hq => (hold g hg).2 q (by simp [hq])⟩)
      (fun g hg => ⟨(hnew g hg).1, fun q hq => (hnew g hg).2 q (by simp [hq])⟩)
    show (do
      let ud ← tierChanges old new p
      let usds ← buildChanges old new rest
      Except.ok (ud.1 ++ usds.1, ud.2 ++ usds.2)) = _
    rw [h1, h2]
    rfl

/-- C3: for a single change event the counter mutations the handler
emits per configured tier are exactly those of the spec's event-effect
table (`specTierChanges`), with an absent geohash contributing no
mutation on its side, provided every present geohash is nonempty and at
least as long as every configured tier. -/
theorem handleStreamRecord_mutations (geohashField : String)
    (cfg : StatisticsConfiguration) (r : StreamRecord)
    (hold : ∀ g, (recordGeohashes geohashField r).1 = some g →
      g ≠ [] ∧ ∀ p ∈ cfg.precisionSteps, p ≤ g.length)
    (hnew : ∀ g, (recordGeohashes geohashField r).2 = some g →
      g ≠ [] ∧ ∀ p ∈ cfg.precisionSteps, p ≤ g.length) :
    buildChanges (recordGeohashes geohashField r).1 (recordGeohashes geohashField r).2
        cfg.precisionSteps
      = .ok (cfg.precisionSteps.flatMap (fun p =>
               (specTierChanges (recordGeohashes geohashField r).1
                 (recordGeohashes geohashField r).2 p).1),
             cfg.precisionSteps.flatMap (fun p =>
               (specTierChanges (recordGeohashes geohashField r).1
                 (recordGeohashes geohashField r).2 p).2)) :=
  buildChanges_eq cfg.precisionSteps hold hnew

/-- Witness for C3: a concrete `MODIFY` record moving an item from
geohash `aaX` to `abX` under tiers (1, 2): tier 1 keeps cell `a`
(no-op), tier 2 moves the count from `aa` to `ab`. -/
theorem handleStreamRecord_mutations_witness :
    buildChanges
        (recordGeohashes "_geohash"
          ⟨.modify, "e1", [("_geohash", ['a', 'a', 'X'])], [("_geohash", ['a', 'b', 'X'])]⟩).1
        (recordGeohashes "_geohash"
          ⟨.modify, "e1", [("_geohash", ['a', 'a', 'X'])], [("_geohash", ['a', 'b', 'X'])]⟩).2
        (StatisticsConfiguration.mk [1, 2]).precisionSteps
      = .ok ([(['a', 'a'], -1), (['a', 'b'], 1)], [['a', 'a']]) := by
  rw [handleStreamRecord_mutations "_geohash" (StatisticsConfiguration.mk [1, 2])
    ⟨.modify, "e1", [("_geohash", ['a', 'a', 'X'])], [("_geohash", ['a', 'b', 'X'])]⟩
    (by
      intro g hg
      have hg' : some (['a', 'a', 'X'] : GStr) = some g := hg
      cases Option.some.inj hg'
      decide)
    (by
      intro g hg
      have hg' : some (['a', 'b', 'X'] : GStr) = some g := hg
      cases Option.some.inj hg'
      decide)]
  rfl

/-! ### Conditional-delete guard and swallowing (claim C8) -/

/-- C8: a conditional delete succeeds exactly when the cell currently
holds a count at most zero (first conjunct); a failed precondition
leaves the state untouched (second conjunct); and whenever the change
build step succeeds, the handler returns successfully — conditional
check failures are swallowed, never surfaced (third conjunct). -/
theorem conditionalDelete_guard_and_swallow (geohashField : String)
    (cfg : StatisticsConfiguration) (r : StreamRecord) (s : StatisticsState)
    (hbuild : ∃ ud, buildChanges (recordGeohashes geohashField r).1
      (recordGeohashes geohashField r).2 cfg.precisionSteps = .ok ud) :
    (∀ (c : GStr) (rows : List (GStr × Int)),
        (∃ rows', deleteIfDrained c rows = some rows')
          ↔ ∃ v, rows.lookup c = some v ∧ v ≤ 0)
    ∧ (∀ (c : GStr) (s0 : StatisticsState),
        deleteIfDrained c s0.rows = none → condDeleteStep c s0 = s0)
    ∧ ∃ s', handleStreamRecord geohashField cfg r s = .ok s' := by
  refine ⟨?_, ?_, ?_⟩
  · intro c rows
    constructor
    · rintro ⟨rows', h⟩
      unfold deleteIfDrained at h
      rcases hl : rows.lookup c with _ | v
      · rw [hl] at h
        simp at h
      · rw [hl] at h
        by_cases hv : v ≤ 0
        · exact ⟨v, rfl, hv⟩
        · simp [hv] at h
    · rintro ⟨v, hl, hv⟩
      refine ⟨rows.filter (fun r => !(r.1 == c)), ?_⟩
      unfold deleteIfDrained
      rw [hl]
      simp [hv]
  · intro c s0 h
    simp [condDeleteStep, h]
  · rcases hbuild with ⟨ud, hud⟩
    rcases ud with ⟨us, ds⟩
    refine ⟨applyConditionalDeletes ds
      (if us.isEmpty then s else transactWriteItems ("event_id=" ++ r.eventId) us s), ?_⟩
    unfold handleStreamRecord
    rw [hud]

/-- Witness for C8: a concrete `REMOVE` record under tier list (1), on a
state whose only row is drained to 0. -/
theorem conditionalDelete_guard_and_swallow_witness :
    (∃ ud, buildChanges
        (recordGeohashes "_geohash" ⟨.remove, "e9", [("_geohash", ['a', 'z'])], []⟩).1
        (recordGeohashes "_geohash" ⟨.remove, "e9", [("_geohash", ['a', 'z'])], []⟩).2
        (StatisticsConfiguration.mk [1]).precisionSteps = .ok ud)
    ∧ ∃ s', handleStreamRecord "_geohash" (StatisticsConfiguration.mk [1])
        ⟨.remove, "e9", [("_geohash", ['a', 'z'])], []⟩
        ⟨[(['a'], 1)], []⟩ = .ok s' := by
  have h : ∃ ud, buildChanges
      (recordGeohashes "_geohash" ⟨.remove, "e9", [("_geohash", ['a', 'z'])], []⟩).1
      (recordGeohashes "_geohash" ⟨.remove, "e9", [("_geohash", ['a', 'z'])], []⟩).2
      (StatisticsConfiguration.mk [1]).precisionSteps = .ok ud :=
    ⟨([(['a'], -1)], [['a']]), rfl⟩
  exact ⟨h, (conditionalDelete_guard_and_swallow "_geohash"
    (StatisticsConfiguration.mk [1]) ⟨.remove, "e9", [("_geohash", ['a', 'z'])], []⟩
    ⟨[(['a'], 1)], []⟩ h).2.2⟩

/-! ### Short geohashes raise (claim C10)

The claim says every event carrying a geohash shorter than some tier
makes `handle_event` raise.  That is false: a `MODIFY` whose old and new
truncations agree at every tier builds no change item, so `_get_key` is
never called and nothing is raised.  The amended statement characterises
exactly when the handler raises. -/

/-- Whether processing tier `p` reaches `_get_key` with a geohash
shorter than `p` (the condition under which that tier raises). -/
def tierRaises (old new : Option GStr) (p : Nat) : Bool :=
  match pyTruthy old, pyTruthy new with
  | some og, some ng =>
    decide (og.take p ≠ ng.take p) && (decide (og.length < p) || decide (ng.length < p))
  | none, some ng => decide (ng.length < p)
  | some og, none => decide (og.length < p)
  | none, none => false

theorem getKey_error_of_lt {g : GStr} {p : Nat} (h : g.length < p) :
    getKey g p = .error .valueError := by
  simp [getKey, h]

theorem getChangeItem_error_of_lt {g : GStr} {p : Nat} (h : g.length < p) (inc : Int) :
    getChangeItem g p inc = .error .valueError := by
  unfold getChangeItem
  rw [getKey_error_of_lt h]
  rfl

theorem tierChanges_error_iff (old new : Option GStr) (p : Nat) :
    tierChanges old new p = .error .valueError ↔ tierRaises old new p = true := by
  unfold tierChanges tierRaises
  rcases pyTruthy old with _ | og <;> rcases pyTruthy new with _ | ng
  · simp
  · show (do
        let u1 ← getChangeItem ng p 1
        Except.ok ([u1], ([] : List GStr))) = Except.error StatsErr.valueError
      ↔ decide (ng.length < p) = true
    by_cases h : ng.length < p
    · rw [getChangeItem_error_of_lt h]
      constructor
      · intro _
        simp [h]
      · intro _
        rfl
    · rw [getChangeItem_of_le (not_lt.mp h)]
      constructor
      · intro hcontra
        exact Except.noConfusion hcontra
      · intro hra
        simp at hra
        exact absurd hra h
  · show (do
        let u1 ← getChangeItem og p (-1)
        let d1 ← getConditionalDelete og p
        Except.ok ([u1], [d1])) = Except.error StatsErr.valueError
      ↔ decide (og.length < p) = true
    by_cases h : og.length < p
    · rw [getChangeItem_error_of_lt h]
      constructor
      · intro _
        simp [h]
      · intro _
        rfl
    · rw [getChangeItem_of_le (not_lt.mp h),
        getConditionalDelete_of_le (not_lt.mp h)]
      constructor
      · intro hcontra
        exact Except.noConfusion hcontra
      · intro hra
        simp at hra
        exact absurd hra h
  · show (if og.take p ≠ ng.take p then do
          let u1 ← getChangeItem og p (-1)
          let u2 ← getChangeItem ng p 1
          let d1 ← getConditionalDelete og p
          Except.ok ([u1, u2], [d1])
        else Except.ok ([], [])) = Except.error StatsErr.valueError
      ↔ (decide (og.take p ≠ ng.take p)
          && (decide (og.length < p) || decide (ng.length < p))) = true
    by_cases heq : og.take p = ng.take p
    · simp [heq]
    · rw [if_pos (by exact heq)]
      by_cases h1 : og.length < p
      · rw [getChangeItem_error_of_lt h1]
        constructor
        · intro _
          simp [heq, h1]
        · intro _
          rfl
      · rw [getChangeItem_of_le (not_lt.mp h1)]
        by_cases h2 : ng.length < p
        · rw [getChangeItem_error_of_lt h2]
          constructor
          · intro _
            simp [heq, h2]
          · intro _
            rfl
        · rw [getChangeItem_of_le (not_lt.mp h2),
            getConditionalDelete_of_le (not_lt.mp h1)]
          constructor
          · intro hcontra
            exact Except.noConfusion hcontra
          · intro hra
            simp at hra
            rcases hra.2 with hx | hx
            · exact absurd hx h1
            · exact absurd hx h2

theorem buildChanges_error_iff (old new : Option GStr) (steps : List Nat) :
    buildChanges old new steps = .error .valueError
      ↔ ∃ p ∈ steps, tierRaises old new p = true := by
  induction steps with
  | nil => simp [buildChanges]
  | cons p rest ih =>
    rcases htc : tierChanges old new p with e | ud
    · cases e
      have hr : tierRaises old new p = true := (tierChanges_error_iff old new p).mp htc
      constructor
      · intro _
        exact ⟨p, by simp, hr⟩
      · intro _
        show (do
          let ud ← tierChanges old new p
          let usds ← buildChanges old new rest
          Except.ok (ud.1 ++ usds.1, ud.2 ++ usds.2)) = _
        rw [htc]
        rfl
    · have hr : tierRaises old new p = false := by
        rcases Bool.eq_false_or_eq_true (tierRaises old new p) with h | h
        · exact absurd ((tierChanges_error_iff old new p).mpr h) (by simp [htc])
        · exact h
      have hstep : buildChanges old new (p :: rest) = .error .valueError
          ↔ buildChanges old new rest = .error .valueError := by
        rcases hb : buildChanges old new rest with e | usds
        · cases e
          constructor
          · intro _
            rfl
          · intro _
            show (do
              let ud ← tierChanges old new p
              let usds ← buildChanges old new rest
              Except.ok (ud.1 ++ usds.1, ud.2 ++ usds.2)) = _
            rw [htc, hb]
            rfl
        · constructor
          · intro h
            have : (do
                let ud1 ← tierChanges old new p
                let usds ← buildChanges old new rest
                Except.ok (ud1.1 ++ usds.1, ud1.2 ++ usds.2))
                  = (.error .valueError : Except StatsErr _) := h
            rw [htc, hb] at this
            exact absurd this (fun hc => Except.noConfusion hc)
          · intro h
            exact Except.noConfusion h
      rw [hstep, ih]
      constructor
      · rintro ⟨q, hq, hrq⟩
        exact ⟨q, by simp [hq], hrq⟩
      · rintro ⟨q, hq, hrq⟩
        rcases List.mem_cons.mp hq with hq | hq
        · subst hq
          exact absurd hrq (by simp [hr])
        · exact ⟨q, hq, hrq⟩

/-- C10 (amended): the handler raises `ValueError` exactly when some
configured tier actually builds a counter mutation from a geohash
shorter than that tier — inserts and removes always build one, a modify
only when the truncated old and new cells differ at that tier. -/
theorem handleStreamRecord_error_iff (geohashField : String)
    (cfg : StatisticsConfiguration) (r : StreamRecord) (s : StatisticsState) :
    handleStreamRecord geohashField cfg r s = .error .valueError
      ↔ ∃ p ∈ cfg.precisionSteps,
          tierRaises (recordGeohashes geohashField r).1
            (recordGeohashes geohashField r).2 p = true := by
  rw [← buildChanges_error_iff]
  unfold handleStreamRecord
  rcases hb : buildChanges (recordGeohashes geohashField r).1
      (recordGeohashes geohashField r).2 cfg.precisionSteps with e | ud
  · cases e
    simp [hb]
  · rcases ud with ⟨us, ds⟩
    simp [hb]

/-- Counterexample to C10 as stated: a `MODIFY` record whose old and new
images carry the same geohash `ab`, of length 2, under the single
configured tier 3.  The geohash is shorter than the tier, yet the
handler succeeds instead of raising. -/
theorem handleStreamRecord_short_geohash_no_raise :
    (getGeohash "_geohash" [("_geohash", ['a', 'b'])] = some ['a', 'b']
      ∧ (['a', 'b'] : GStr).length < 3 ∧ 3 ∈ [3])
    ∧ handleStreamRecord "_geohash" (StatisticsConfiguration.mk [3])
        ⟨.modify, "e2", [("_geohash", ['a', 'b'])], [("_geohash", ['a', 'b'])]⟩
        ⟨[], []⟩ = .ok ⟨[], []⟩ :=
  ⟨⟨rfl, by decide, by decide⟩, rfl⟩

/-! ### Conservation of counts (claim C2)

The source table is an association list from primary key to item image;
a change event is generated from a table write exactly as the DynamoDB
stream would deliver it (`recordOfOp`), and fed to the handler. -/

theorem lookup_mem {α β : Type} [BEq α] [LawfulBEq α] {l : List (α × β)} {k : α} {v : β}
    (h : l.lookup k = some v) : (k, v) ∈ l := by
  induction l with
  | nil => simp [List.lookup] at h
  | cons e es ih =>
    rcases e with ⟨k', v'⟩
    rw [List.lookup_cons] at h
    rcases hb : k == k' with _ | _
    · rw [hb] at h
      exact List.mem_cons_of_mem _ (ih h)
    · rw [hb] at h
      cases h
      have : k = k' := by simpa using hb
      subst this
      exact List.mem_cons_self _ _

theorem lookup_eq_none_iff {α β : Type} [BEq α] [LawfulBEq α] {l : List (α × β)} {k : α} :
    l.lookup k = none ↔ k ∉ l.map Prod.fst := by
  induction l with
  | nil => simp [List.lookup]
  | cons e es ih =>
    rcases e with ⟨k', v'⟩
    rw [List.lookup_cons]
    rcases hb : k == k' with _ | _
    · have hne : k ≠ k' := by simpa using hb
      simp [hne, ih]
    · have heq : k = k' := by simpa using hb
      subst heq
      simp

theorem lookup_of_mem_nodup {α β : Type} [BEq α] [LawfulBEq α] {l : List (α × β)}
    {k : α} {v : β} (hnd : (l.map Prod.fst).Nodup) (hm : (k, v) ∈ l) :
    l.lookup k = some v := by
  induction l with
  | nil => simp at hm
  | cons e es ih =>
    rcases e with ⟨k', v'⟩
    simp only [List.map_cons, List.nodup_cons] at hnd
    rcases List.mem_cons.mp hm with he | he
    · cases he
      simp [List.lookup_cons]
    · have hk : k ≠ k' := by
        intro hkk
        subst hkk
        exact hnd.1 (List.mem_map.mpr ⟨(k, v), he, rfl⟩)
      have hb : (k == k') = false := by simpa using hk
      rw [List.lookup_cons, hb]
      exact ih hnd.2 he

/-- A source-table write, tagged with the unique event id its stream
record will carry. -/
inductive TableOp
  | insertOp (eid : String) (key : String) (img : List (String × GStr))
  | modifyOp (eid : String) (key : String) (img : List (String × GStr))
  | removeOp (eid : String) (key : String)

/-- The state of the source table after a write. -/
def applySourceOp (src : List (String × List (String × GStr))) :
    TableOp → List (String × List (String × GStr))
  | .insertOp _ k img => src ++ [(k, img)]
  | .modifyOp _ k img => src.map (fun e => if e.1 == k then (e.1, img) else e)
  | .removeOp _ k => src.filter (fun e => !(e.1 == k))

/-- The stream record a write produces: the old image is the table's
current image, the new image is the written one. -/
def recordOfOp (src : List (String × List (String × GStr))) : TableOp → StreamRecord
  | .insertOp eid _ img => ⟨.insert, eid, [], img⟩
  | .modifyOp eid k img => ⟨.modify, eid, (src.lookup k).getD [], img⟩
  | .removeOp eid k => ⟨.remove, eid, (src.lookup k).getD [], []⟩

/-- Validity of one write against the table: inserts create fresh keys,
modifies and removes target existing keys. -/
def validOp (src : List (String × List (String × GStr))) : TableOp → Bool
  | .insertOp _ k _ => (src.lookup k).isNone
  | .modifyOp _ k _ => (src.lookup k).isSome
  | .removeOp _ k => (src.lookup k).isSome

/-- Validity of a write sequence against the table. -/
def validOps (src : List (String × List (String × GStr))) : List TableOp → Bool
  | [] => true
  | op :: ops => validOp src op && validOps (applySourceOp src op) ops

/-- Well-formedness of an image for the configured tiers: an absent
geohash is fine; a present one is nonempty and long enough for every
tier. -/
def wfImage (geohashField : String) (steps : List Nat) (img : List (String × GStr)) : Bool :=
  match getGeohash geohashField img with
  | none => true
  | some g => !g.isEmpty && steps.all (fun p => decide (p ≤ g.length))

/-- Well-formedness of the image a write introduces. -/
def wfOp (geohashField : String) (steps : List Nat) : TableOp → Bool
  | .insertOp _ _ img => wfImage geohashField steps img
  | .modifyOp _ _ img => wfImage geohashField steps img
  | .removeOp _ _ => true

/-- The idempotency token the op's stream record will produce. -/
def opToken : TableOp → String
  | .insertOp eid _ _ => "event_id=" ++ eid
  | .modifyOp eid _ _ => "event_id=" ++ eid
  | .removeOp eid _ => "event_id=" ++ eid

/-- Feed a write sequence through the stream handler, evolving the
source table alongside. -/
def runOps (geohashField : String) (cfg : StatisticsConfiguration) :
    List TableOp → List (String × List (String × GStr)) → StatisticsState →
    Except StatsErr (List (String × List (String × GStr)) × StatisticsState)
  | [], src, stats => .ok (src, stats)
  | op :: ops, src, stats =>
    match handleStreamRecord geohashField cfg (recordOfOp src op) stats with
    | .error e => .error e
    | .ok stats' => runOps geohashField cfg ops (applySourceOp src op) stats'

/-- Does a source-table entry carry a geohash value? -/
def hasGeo (geohashField : String) (e : String × List (String × GStr)) : Bool :=
  (getGeohash geohashField e.2).isSome

/-- The number of currently existing items that carry a geohash value. -/
def countGeo (geohashField : String) (src : List (String × List (String × GStr))) : Nat :=
  src.countP (hasGeo geohashField)

/-- The number of existing items whose geohash truncates to cell `c` at
precision `p`. -/
def cellCount (geohashField : String) (p : Nat) (c : GStr)
    (src : List (String × List (String × GStr))) : Nat :=
  src.countP (fun e =>
    match getGeohash geohashField e.2 with
    | some g => g.take p == c
    | none => false)

/-- The sum of `item_count` over all counter rows of one tier. -/
def tierSum (p : Nat) (rows : List (GStr × Int)) : Int :=
  ((rows.filter (fun r => r.1.length == p)).map (fun r => r.2)).sum

/-- The net increment a list of `ADD` updates applies to one cell. -/
def incSum (us : List (GStr × Int)) (c : GStr) : Int :=
  ((us.filter (fun u => u.1 == c)).map (fun u => u.2)).sum

/-- Does an optional geohash land in cell `c` when truncated to `c`'s
length?  (As an integer indicator, for counting.) -/
def sideInd (o : Option GStr) (c : GStr) : Int :=
  match o with
  | some g => if g.take c.length == c then 1 else 0
  | none => 0

theorem lookup_append {α β : Type} [BEq α] (l1 l2 : List (α × β)) (c : α) :
    (l1 ++ l2).lookup c = ((l1.lookup c).map some).getD (l2.lookup c) := by
  induction l1 with
  | nil => simp [List.lookup]
  | cons e es ih =>
    rcases e with ⟨k, v⟩
    rcases hb : c == k with _ | _ <;>
      simp [List.cons_append, List.lookup_cons, hb, ih]

theorem incSum_nil (c : GStr) : incSum [] c = 0 := rfl

theorem incSum_append (a b : List (GStr × Int)) (c : GStr) :
    incSum (a ++ b) c = incSum a c + incSum b c := by
  simp [incSum, List.filter_append]

theorem incSum_cons (u : GStr × Int) (us : List (GStr × Int)) (c : GStr) :
    incSum (u :: us) c = (if u.1 = c then u.2 else 0) + incSum us c := by
  by_cases h : u.1 = c
  · have hb : (u.1 == c) = true := by simpa using h
    simp [incSum, List.filter_cons, hb, h]
  · have hb : (u.1 == c) = false := by simpa using h
    simp [incSum, List.filter_cons, hb, h]

theorem lookup_map_adjust (rows : List (GStr × Int)) (u1 : GStr) (inc : Int) (c : GStr) :
    (rows.map (fun r => if r.1 == u1 then (r.1, r.2 + inc) else r)).lookup c
      = (rows.lookup c).map (fun v => if c = u1 then v + inc else v) := by
  induction rows with
  | nil => simp [List.lookup]
  | cons r rs ih =>
    rcases r with ⟨k, v⟩
    simp only [beq_iff_eq] at ih ⊢
    by_cases hk : k = u1 <;> by_cases hc : c = k
    · subst hk
      subst hc
      simp [List.lookup_cons]
    · subst hk
      have hb : (c == k) = false := by simpa using hc
      simp [List.lookup_cons, hb, ih]
    · subst hc
      simp [List.lookup_cons, hk]
    · have hb : (c == k) = false := by simpa using hc
      simp [List.lookup_cons, hb, ih, hk]

theorem rowVal_applyAdd (rows : List (GStr × Int)) (u : GStr × Int) (c : GStr) :
    rowVal (applyAdd rows u) c = rowVal rows c + (if u.1 = c then u.2 else 0) := by
  rcases u with ⟨u1, inc⟩
  unfold applyAdd rowVal
  by_cases hp : (rows.lookup u1).isSome
  · rw [if_pos hp, lookup_map_adjust]
    rcases hc : rows.lookup c with _ | v
    · have hcu : ¬ u1 = c := by
        intro h
        subst h
        rw [hc] at hp
        simp at hp
      simp [hc, hcu]
    · by_cases hcu : u1 = c
      · subst hcu
        simp [hc]
      · have hcu' : ¬ c = u1 := fun h => hcu h.symm
        simp [hc, hcu, hcu']
  · rw [if_neg hp, lookup_append]
    have hu1 : rows.lookup u1 = none := by
      rcases h : rows.lookup u1 with _ | w
      · rfl
      · rw [h] at hp
        simp at hp
    rcases hc : rows.lookup c with _ | v
    · by_cases hcu : u1 = c
      · subst hcu
        simp [hc, List.lookup_cons]
      · have hb : (c == u1) = false := by
          simp only [beq_eq_false_iff_ne, ne_eq]
          exact fun h => hcu h.symm
        simp [hc, List.lookup_cons, hb, hcu]
    · by_cases hcu : u1 = c
      · subst hcu
        rw [hc] at hu1
        simp at hu1
      · simp [hc, hcu]

theorem rowVal_applyUpdates (rows : List (GStr × Int)) (us : List (GStr × Int)) (c : GStr) :
    rowVal (applyUpdates rows us) c = rowVal rows c + incSum us c := by
  induction us generalizing rows with
  | nil => simp [applyUpdates, incSum_nil]
  | cons u us ih =>
    show rowVal (applyUpdates (applyAdd rows u) us) c = _
    rw [ih, rowVal_applyAdd, incSum_cons]
    ring

theorem keys_map_adjust (rows : List (GStr × Int)) (u1 : GStr) (inc : Int) :
    (rows.map (fun r => if r.1 == u1 then (r.1, r.2 + inc) else r)).map Prod.fst
      = rows.map Prod.fst := by
  rw [List.map_map]
  apply List.map_congr_left
  intro r _
  show (if r.1 == u1 then (r.1, r.2 + inc) else r).1 = r.1
  split <;> rfl

theorem nodup_keys_applyAdd {rows : List (GStr × Int)} (u : GStr × Int)
    (hnd : (rows.map Prod.fst).Nodup) : ((applyAdd rows u).map Prod.fst).Nodup := by
  unfold applyAdd
  by_cases hp : (rows.lookup u.1).isSome
  · rw [if_pos hp, keys_map_adjust]
    exact hnd
  · rw [if_neg hp]
    have hm : u.1 ∉ rows.map Prod.fst := by
      intro hmem
      rcases List.mem_map.mp hmem with ⟨r, hr, hru⟩
      have hl : rows.lookup u.1 = some r.2 := by
        rcases r with ⟨k, v⟩
        cases hru
        exact lookup_of_mem_nodup hnd hr
      rw [hl] at hp
      simp at hp
    rw [List.map_append]
    refine List.Nodup.append hnd (List.nodup_singleton _) ?_
    intro a ha hb
    have : a = u.1 := by simpa using hb
    exact hm (this ▸ ha)

theorem mem_applyAdd {rows : List (GStr × Int)} {u : GStr × Int} {r : GStr × Int}
    (h : r ∈ applyAdd rows u) : r.1 ∈ rows.map Prod.fst ∨ r.1 = u.1 := by
  unfold applyAdd at h
  by_cases hp : (rows.lookup u.1).isSome
  · rw [if_pos hp] at h
    rcases List.mem_map.mp h with ⟨r0, hr0, hr⟩
    left
    have hfst : r.1 = r0.1 := by
      rw [← hr]
      show (if r0.1 == u.1 then (r0.1, r0.2 + u.2) else r0).1 = r0.1
      split <;> rfl
    rw [hfst]
    exact List.mem_map.mpr ⟨r0, hr0, rfl⟩
  · rw [if_neg hp] at h
    rcases List.mem_append.mp h with h | h
    · exact Or.inl (List.mem_map.mpr ⟨r, h, rfl⟩)
    · right
      have : r = u := by simpa using h
      rw [this]

theorem length_take_of_le {g : GStr} {p : Nat} (h : p ≤ g.length) :
    (g.take p).length = p := by
  simp [List.length_take, min_eq_left h]

theorem incSum_tier {old new : Option GStr} {p : Nat}
    (hold : ∀ g, old = some g → p ≤ g.length)
    (hnew : ∀ g, new = some g → p ≤ g.length) (c : GStr) :
    incSum (specTierChanges old new p).1 c
      = if p = c.length then sideInd new c - sideInd old c else 0 := by
  rcases old with _ | og <;> rcases new with _ | ng
  · simp [specTierChanges, incSum_nil, sideInd]
  · have hng := hnew ng rfl
    by_cases hpc : p = c.length
    · subst hpc
      simp only [specTierChanges, incSum_cons, incSum_nil, sideInd, if_pos rfl]
      by_cases h : ng.take c.length = c <;> simp [h]
    · have hne : ¬ (ng.take p = c) := by
        intro h
        apply hpc
        have hcl : c.length = p := by
          rw [← h]
          exact length_take_of_le hng
        exact hcl.symm
      simp [specTierChanges, incSum_cons, incSum_nil, hne, hpc]
  · have hog := hold og rfl
    by_cases hpc : p = c.length
    · subst hpc
      simp only [specTierChanges, incSum_cons, incSum_nil, sideInd, if_pos rfl]
      by_cases h : og.take c.length = c <;> simp [h]
    · have hne : ¬ (og.take p = c) := by
        intro h
        apply hpc
        have hcl : c.length = p := by
          rw [← h]
          exact length_take_of_le hog
        exact hcl.symm
      simp [specTierChanges, incSum_cons, incSum_nil, hne, hpc]
  · have hog := hold og rfl
    have hng := hnew ng rfl
    by_cases heq : og.take p = ng.take p
    · simp only [specTierChanges, heq, if_pos, incSum_nil]
      by_cases hpc : p = c.length
      · subst hpc
        simp [sideInd, heq]
      · simp [hpc]
    · simp only [specTierChanges, heq, if_neg, not_false_iff, incSum_cons, incSum_nil]
      by_cases hpc : p = c.length
      · subst hpc
        simp only [sideInd]
        by_cases h1 : og.take c.length = c <;> by_cases h2 : ng.take c.length = c
        · exact absurd (h1.trans h2.symm) heq
        · simp [h1, h2]
        · simp [h1, h2]
        · simp [h1, h2]
      · have hne1 : ¬ (og.take p = c) := by
          intro h
          apply hpc
          have hcl : c.length = p := by
            rw [← h]
            exact length_take_of_le hog
          exact hcl.symm
        have hne2 : ¬ (ng.take p = c) := by
          intro h
          apply hpc
          have hcl : c.length = p := by
            rw [← h]
            exact length_take_of_le hng
          exact hcl.symm
        simp [hne1, hne2, hpc]

theorem incSum_flatMap {old new : Option GStr} {steps : List Nat} (hnd : steps.Nodup)
    (hold : ∀ g, old = some g → ∀ p ∈ steps, p ≤ g.length)
    (hnew : ∀ g, new = some g → ∀ p ∈ steps, p ≤ g.length) (c : GStr) :
    incSum (steps.flatMap fun p => (specTierChanges old new p).1) c
      = if c.length ∈ steps then sideInd new c - sideInd old c else 0 := by
  induction steps with
  | nil => simp [incSum_nil]
  | cons p rest ih =>
    rcases List.nodup_cons.mp hnd with ⟨hp, hrest⟩
    rw [List.flatMap_cons, incSum_append]
    rw [incSum_tier (fun g hg => hold g hg p (by simp)) (fun g hg => hnew g hg p (by simp)) c]
    rw [ih hrest (fun g hg q hq => hold g hg q (by simp [hq]))
      (fun g hg q hq => hnew g hg q (by simp [hq]))]
    by_cases hpc : p = c.length
    · have hcr : c.length ∉ rest := hpc ▸ hp
      simp [hpc, hcr]
    · have : (c.length ∈ p :: rest) ↔ (c.length ∈ rest) := by
        simp [List.mem_cons]
        intro h
        exact absurd h.symm hpc
      by_cases hcr : c.length ∈ rest
      · simp [hpc, hcr, this]
      · simp [hpc, hcr, this]

theorem keys_applyAdd (rows : List (GStr × Int)) (u : GStr × Int) :
    (applyAdd rows u).map Prod.fst = rows.map Prod.fst
      ∨ (applyAdd rows u).map Prod.fst = rows.map Prod.fst ++ [u.1] := by
  unfold applyAdd
  by_cases hp : (rows.lookup u.1).isSome
  · rw [if_pos hp, keys_map_adjust]
    exact Or.inl rfl
  · rw [if_neg hp, List.map_append]
    exact Or.inr rfl

theorem len_applyAdd {steps : List Nat} {rows : List (GStr × Int)} {u : GStr × Int}
    (hlen : ∀ r ∈ rows, r.1.length ∈ steps) (hu : u.1.length ∈ steps) :
    ∀ r ∈ applyAdd rows u, r.1.length ∈ steps := by
  intro r hr
  rcases mem_applyAdd hr with h | h
  · rcases List.mem_map.mp h with ⟨r0, hr0, he⟩
    rw [← he]
    exact hlen r0 hr0
  · rw [h]
    exact hu

theorem applyUpdates_invariants {steps : List Nat} (us : List (GStr × Int))
    {rows : List (GStr × Int)}
    (hnd : (rows.map Prod.fst).Nodup)
    (hlen : ∀ r ∈ rows, r.1.length ∈ steps)
    (hus : ∀ u ∈ us, u.1.length ∈ steps) :
    ((applyUpdates rows us).map Prod.fst).Nodup
      ∧ ∀ r ∈ applyUpdates rows us, r.1.length ∈ steps := by
  induction us generalizing rows with
  | nil => exact ⟨hnd, hlen⟩
  | cons u us ih =>
    have h1 : ((applyAdd rows u).map Prod.fst).Nodup := nodup_keys_applyAdd u hnd
    have h2 : ∀ r ∈ applyAdd rows u, r.1.length ∈ steps :=
      len_applyAdd hlen (hus u (by simp))
    exact ih h1 h2 (fun v hv => hus v (by simp [hv]))

theorem condDeleteStep_eq_some {d : GStr} {s : StatisticsState} {rows' : List (GStr × Int)}
    (hd : deleteIfDrained d s.rows = some rows') :
    condDeleteStep d s = ⟨rows', s.tokens⟩ := by
  unfold condDeleteStep
  rw [hd]

theorem condDeleteStep_eq_none {d : GStr} {s : StatisticsState}
    (hd : deleteIfDrained d s.rows = none) : condDeleteStep d s = s := by
  unfold condDeleteStep
  rw [hd]

theorem condDeleteStep_preserves {steps : List Nat} {F : GStr → Nat} (d : GStr)
    {s : StatisticsState}
    (hnd : (s.rows.map Prod.fst).Nodup)
    (hlen : ∀ r ∈ s.rows, r.1.length ∈ steps)
    (hval : ∀ c : GStr, c.length ∈ steps → rowVal s.rows c = (F c : Int)) :
    (((condDeleteStep d s).rows.map Prod.fst).Nodup
      ∧ ∀ r ∈ (condDeleteStep d s).rows, r.1.length ∈ steps)
      ∧ ∀ c : GStr, c.length ∈ steps → rowVal (condDeleteStep d s).rows c = (F c : Int) := by
  rcases hd : deleteIfDrained d s.rows with _ | rows'
  · rw [condDeleteStep_eq_none hd]
    exact ⟨⟨hnd, hlen⟩, hval⟩
  · rw [condDeleteStep_eq_some hd]
    unfold deleteIfDrained at hd
    rcases hl : s.rows.lookup d with _ | v
    · rw [hl] at hd
      exact Option.noConfusion hd
    · have hd' : (if v ≤ 0 then some (s.rows.filter (fun r => !(r.1 == d))) else none)
          = some rows' := by
        rw [hl] at hd
        exact hd
      by_cases hv : v ≤ 0
      · rw [if_pos hv] at hd'
        have hrows' : rows' = s.rows.filter (fun r => !(r.1 == d)) :=
          (Option.some.inj hd').symm
        subst hrows'
        have hdm : (d, v) ∈ s.rows := lookup_mem hl
        have hdl : d.length ∈ steps := hlen (d, v) hdm
        have hvF : (F d : Int) = v := by
          rw [← hval d hdl, rowVal, hl]
          rfl
        have hv0 : v = 0 := le_antisymm hv (hvF ▸ Int.natCast_nonneg (F d))
        refine ⟨⟨?_, ?_⟩, ?_⟩
        · exact ((List.filter_sublist _).map Prod.fst).nodup hnd
        · intro r hr
          exact hlen r (List.mem_of_mem_filter hr)
        · intro c hc
          show rowVal (s.rows.filter (fun r => !(r.1 == d))) c = (F c : Int)
          rw [rowVal, lookup_filter_beq]
          by_cases hcd : c = d
          · subst hcd
            rw [if_pos rfl]
            have hF0 : (F c : Int) = 0 := by
              rw [hvF, hv0]
            rw [hF0]
            rfl
          · rw [if_neg hcd]
            exact hval c hc
      · rw [if_neg hv] at hd'
        exact Option.noConfusion hd'

theorem applyConditionalDeletes_preserves {steps : List Nat} {F : GStr → Nat}
    (ds : List GStr) {s : StatisticsState}
    (hnd : (s.rows.map Prod.fst).Nodup)
    (hlen : ∀ r ∈ s.rows, r.1.length ∈ steps)
    (hval : ∀ c : GStr, c.length ∈ steps → rowVal s.rows c = (F c : Int)) :
    (((applyConditionalDeletes ds s).rows.map Prod.fst).Nodup
      ∧ ∀ r ∈ (applyConditionalDeletes ds s).rows, r.1.length ∈ steps)
      ∧ ∀ c : GStr, c.length ∈ steps →
          rowVal (applyConditionalDeletes ds s).rows c = (F c : Int) := by
  induction ds generalizing s with
  | nil => exact ⟨⟨hnd, hlen⟩, hval⟩
  | cons d ds ih =>
    rcases condDeleteStep_preserves d hnd hlen hval with ⟨⟨h1, h2⟩, h3⟩
    exact ih h1 h2 h3

theorem updates_key_length {old new : Option GStr} {steps : List Nat}
    (hold : ∀ g, old = some g → ∀ p ∈ steps, p ≤ g.length)
    (hnew : ∀ g, new = some g → ∀ p ∈ steps, p ≤ g.length) :
    ∀ u ∈ (steps.flatMap fun p => (specTierChanges old new p).1), u.1.length ∈ steps := by
  intro u hu
  rcases List.mem_flatMap.mp hu with ⟨p, hp, hu⟩
  have hlen : ∀ g : GStr, (∀ q ∈ steps, q ≤ g.length) → (g.take p).length ∈ steps := by
    intro g hg
    rw [length_take_of_le (hg p hp)]
    exact hp
  rcases old with _ | og <;> rcases new with _ | ng
  · simp [specTierChanges] at hu
  · simp [specTierChanges] at hu
    rw [hu]
    exact hlen ng (hnew ng rfl)
  · simp [specTierChanges] at hu
    rw [hu]
    exact hlen og (hold og rfl)
  · by_cases heq : og.take p = ng.take p
    · simp [specTierChanges, heq] at hu
    · simp [specTierChanges, heq] at hu
      rcases hu with hu | hu <;> rw [hu]
      · exact hlen og (hold og rfl)
      · exact hlen ng (hnew ng rfl)

/-- The net effect, on the counter table, of one event's transaction
followed by its conditional deletes: every tier-level cell moves from
the old per-cell item count `G` to the new one `G'`. -/
theorem statsUpdate {steps : List Nat} (hnds : steps.Nodup) {old new : Option GStr}
    (hold : ∀ g, old = some g → ∀ p ∈ steps, p ≤ g.length)
    (hnew : ∀ g, new = some g → ∀ p ∈ steps, p ≤ g.length)
    (tok : String) (s : StatisticsState)
    {G G' : GStr → Nat}
    (hG : ∀ c : GStr, c.length ∈ steps → rowVal s.rows c = (G c : Int))
    (hdelta : ∀ c : GStr, c.length ∈ steps →
        (G' c : Int) = G c + (sideInd new c - sideInd old c))
    (hnd : (s.rows.map Prod.fst).Nodup)
    (hlen : ∀ r ∈ s.rows, r.1.length ∈ steps)
    (htok : tok ∉ s.tokens) :
    (((applyConditionalDeletes (steps.flatMap fun p => (specTierChanges old new p).2)
        (if (steps.flatMap fun p => (specTierChanges old new p).1).isEmpty then s
         else transactWriteItems tok (steps.flatMap fun p => (specTierChanges old new p).1) s)).rows.map
        Prod.fst).Nodup
      ∧ ∀ r ∈ (applyConditionalDeletes (steps.flatMap fun p => (specTierChanges old new p).2)
          (if (steps.flatMap fun p => (specTierChanges old new p).1).isEmpty then s
           else transactWriteItems tok (steps.flatMap fun p => (specTierChanges old new p).1) s)).rows,
          r.1.length ∈ steps)
    ∧ (∀ c : GStr, c.length ∈ steps →
        rowVal (applyConditionalDeletes (steps.flatMap fun p => (specTierChanges old new p).2)
          (if (steps.flatMap fun p => (specTierChanges old new p).1).isEmpty then s
           else transactWriteItems tok (steps.flatMap fun p => (specTierChanges old new p).1) s)).rows c
          = (G' c : Int))
    ∧ ∀ t ∈ (applyConditionalDeletes (steps.flatMap fun p => (specTierChanges old new p).2)
        (if (steps.flatMap fun p => (specTierChanges old new p).1).isEmpty then s
         else transactWriteItems tok (steps.flatMap fun p => (specTierChanges old new p).1) s)).tokens,
        t = tok ∨ t ∈ s.tokens := by
  set updates := steps.flatMap fun p => (specTierChanges old new p).1 with hupdates
  set deletes := steps.flatMap fun p => (specTierChanges old new p).2 with hdeletes
  set s1 := if updates.isEmpty then s else transactWriteItems tok updates s with hs1
  have hukey : ∀ u ∈ updates, u.1.length ∈ steps := updates_key_length hold hnew
  have hs1rows : s1.rows = if updates.isEmpty then s.rows else applyUpdates s.rows updates := by
    rw [hs1]
    by_cases he : updates.isEmpty
    · rw [if_pos he, if_pos he]
    · rw [if_neg he, if_neg he, transactWriteItems, if_neg htok]
  have hs1tok : s1.tokens = if updates.isEmpty then s.tokens else tok :: s.tokens := by
    rw [hs1]
    by_cases he : updates.isEmpty
    · rw [if_pos he, if_pos he]
    · rw [if_neg he, if_neg he, transactWriteItems, if_neg htok]
  have hs1nd : (s1.rows.map Prod.fst).Nodup := by
    rw [hs1rows]
    by_cases he : updates.isEmpty
    · rw [if_pos he]
      exact hnd
    · rw [if_neg he]
      exact (applyUpdates_invariants updates hnd hlen hukey).1
  have hs1len : ∀ r ∈ s1.rows, r.1.length ∈ steps := by
    rw [hs1rows]
    by_cases he : updates.isEmpty
    · rw [if_pos he]
      exact hlen
    · rw [if_neg he]
      exact (applyUpdates_invariants updates hnd hlen hukey).2
  have hs1val : ∀ c : GStr, c.length ∈ steps → rowVal s1.rows c = (G' c : Int) := by
    intro c hc
    have hinc : incSum updates c = sideInd new c - sideInd old c := by
      rw [hupdates, incSum_flatMap hnds hold hnew c, if_pos hc]
    rw [hs1rows]
    by_cases he : updates.isEmpty
    · rw [if_pos he]
      have hze : updates = [] := List.isEmpty_iff.mp he
      rw [hze, incSum_nil] at hinc
      rw [hG c hc, hdelta c hc, ← hinc]
      ring
    · rw [if_neg he, rowVal_applyUpdates, hG c hc, hinc, hdelta c hc]
  rcases applyConditionalDeletes_preserves deletes hs1nd hs1len hs1val with ⟨⟨h1, h2⟩, h3⟩
  refine ⟨⟨h1, h2⟩, h3, ?_⟩
  intro t ht
  rw [applyConditionalDeletes_tokens, hs1tok] at ht
  by_cases he : updates.isEmpty
  · rw [if_pos he] at ht
    exact Or.inr ht
  · rw [if_neg he] at ht
    rcases List.mem_cons.mp ht with ht | ht
    · exact Or.inl ht
    · exact Or.inr ht

/-- Indicator form of one image's contribution to a cell count. -/
theorem entryInd_sideInd (geohashField : String) (c : GStr)
    (img : List (String × GStr)) :
    ((if (match getGeohash geohashField img with
          | some g => g.take c.length == c
          | none => false) then (1 : Int) else 0))
      = sideInd (getGeohash geohashField img) c := by
  rcases h : getGeohash geohashField img with _ | g <;> simp [sideInd]

theorem countP_replace {α β : Type} [BEq α] [LawfulBEq α] {src : List (α × β)} {k : α}
    {w : β} (q : (α × β) → Bool) (img : β)
    (hnd : (src.map Prod.fst).Nodup) (hm : (k, w) ∈ src) :
    (src.map (fun e => if e.1 == k then (e.1, img) else e)).countP q
        + (if q (k, w) then 1 else 0)
      = src.countP q + (if q (k, img) then 1 else 0) := by
  induction src with
  | nil => simp at hm
  | cons e es ih =>
    rw [List.map_cons, List.nodup_cons] at hnd
    rcases hnd with ⟨hk1, hk2⟩
    rcases List.mem_cons.mp hm with he | he
    · cases he
      have hid : es.map (fun e => if e.1 == k then (e.1, img) else e) = es := by
        conv_rhs => rw [← List.map_id es]
        apply List.map_congr_left
        intro x hx
        have hxk : (x.1 == k) = false := by
          simp only [beq_eq_false_iff_ne, ne_eq]
          intro hxk
          exact hk1 (hxk ▸ List.mem_map.mpr ⟨x, hx, rfl⟩)
        simp [hxk]
      have hmap : (((k, w) :: es).map (fun e => if e.1 == k then (e.1, img) else e))
          = (k, img) :: es := by
        rw [List.map_cons, hid]
        congr 1
        simp
      rw [hmap, List.countP_cons, List.countP_cons]
      omega
    · have hkek : (e.1 == k) = false := by
        simp only [beq_eq_false_iff_ne, ne_eq]
        intro hek
        exact hk1 (hek ▸ List.mem_map.mpr ⟨(k, w), he, rfl⟩)
      rw [List.map_cons]
      rw [if_neg (by simp [hkek])]
      rw [List.countP_cons, List.countP_cons]
      have hrec := ih hk2 he
      omega

theorem countP_erase {α β : Type} [BEq α] [LawfulBEq α] {src : List (α × β)} {k : α}
    {w : β} (q : (α × β) → Bool)
    (hnd : (src.map Prod.fst).Nodup) (hm : (k, w) ∈ src) :
    (src.filter (fun e => !(e.1 == k))).countP q + (if q (k, w) then 1 else 0)
      = src.countP q := by
  induction src with
  | nil => simp at hm
  | cons e es ih =>
    rw [List.map_cons, List.nodup_cons] at hnd
    rcases hnd with ⟨hk1, hk2⟩
    rcases List.mem_cons.mp hm with he | he
    · cases he
      have hid : es.filter (fun e => !(e.1 == k)) = es := by
        apply List.filter_eq_self.mpr
        intro x hx
        simp only [Bool.not_eq_eq_eq_not, Bool.not_true, beq_eq_false_iff_ne, ne_eq]
        intro hxk
        exact hk1 (hxk ▸ List.mem_map.mpr ⟨x, hx, rfl⟩)
      have hfc : (((k, w) :: es).filter (fun e => !(e.1 == k))) = es := by
        rw [List.filter_cons]
        simp [hid]
      rw [hfc, List.countP_cons]
    · have hkek : (e.1 == k) = false := by
        simp only [beq_eq_false_iff_ne, ne_eq]
        intro hek
        exact hk1 (hek ▸ List.mem_map.mpr ⟨(k, w), he, rfl⟩)
      rw [List.filter_cons]
      rw [if_pos (by simp [hkek])]
      rw [List.countP_cons, List.countP_cons]
      have hrec := ih hk2 he
      omega

theorem cellCount_insert (geohashField : String)
    (src : List (String × List (String × GStr))) (k : String)
    (img : List (String × GStr)) (c : GStr) :
    (cellCount geohashField c.length c (src ++ [(k, img)]) : Int)
      = cellCount geohashField c.length c src + sideInd (getGeohash geohashField img) c := by
  unfold cellCount
  rw [List.countP_append]
  push_cast
  rw [← entryInd_sideInd geohashField c img]
  simp [List.countP_cons]

theorem cellCount_modify (geohashField : String)
    {src : List (String × List (String × GStr))} {k : String}
    {oldImg : List (String × GStr)} (img : List (String × GStr)) (c : GStr)
    (hnd : (src.map Prod.fst).Nodup) (hm : (k, oldImg) ∈ src) :
    (cellCount geohashField c.length c
        (src.map (fun e => if e.1 == k then (e.1, img) else e)) : Int)
      = cellCount geohashField c.length c src
          + (sideInd (getGeohash geohashField img) c
              - sideInd (getGeohash geohashField oldImg) c) := by
  unfold cellCount
  have h := @countP_replace String (List (String × GStr)) _ _ src k oldImg
    (fun e => match getGeohash geohashField e.2 with
      | some g => g.take c.length == c
      | none => false) img hnd hm
  rw [← entryInd_sideInd geohashField c img, ← entryInd_sideInd geohashField c oldImg]
  have h' : ((src.map (fun e => if e.1 == k then (e.1, img) else e)).countP
      (fun e => match getGeohash geohashField e.2 with
        | some g => g.take c.length == c
        | none => false) : Int)
      + (if (match getGeohash geohashField oldImg with
          | some g => g.take c.length == c
          | none => false) then (1 : Int) else 0)
      = (src.countP (fun e => match getGeohash geohashField e.2 with
          | some g => g.take c.length == c
          | none => false) : Int)
      + (if (match getGeohash geohashField img with
          | some g => g.take c.length == c
          | none => false) then (1 : Int) else 0) := by
    have hcast := congrArg (fun n : Nat => (n : Int)) h
    push_cast at hcast
    exact hcast
  linarith [h']

theorem cellCount_remove (geohashField : String)
    {src : List (String × List (String × GStr))} {k : String}
    {oldImg : List (String × GStr)} (c : GStr)
    (hnd : (src.map Prod.fst).Nodup) (hm : (k, oldImg) ∈ src) :
    (cellCount geohashField c.length c (src.filter (fun e => !(e.1 == k))) : Int)
      = cellCount geohashField c.length c src
          - sideInd (getGeohash geohashField oldImg) c := by
  unfold cellCount
  have h := @countP_erase String (List (String × GStr)) _ _ src k oldImg
    (fun e => match getGeohash geohashField e.2 with
      | some g => g.take c.length == c
      | none => false) hnd hm
  rw [← entryInd_sideInd geohashField c oldImg]
  have h' : ((src.filter (fun e => !(e.1 == k))).countP
      (fun e => match getGeohash geohashField e.2 with
        | some g => g.take c.length == c
        | none => false) : Int)
      + (if (match getGeohash geohashField oldImg with
          | some g => g.take c.length == c
          | none => false) then (1 : Int) else 0)
      = (src.countP (fun e => match getGeohash geohashField e.2 with
          | some g => g.take c.length == c
          | none => false) : Int) := by
    have hcast := congrArg (fun n : Nat => (n : Int)) h
    push_cast at hcast
    exact hcast
  linarith [h']

theorem wfImage_spec {geohashField : String} {steps : List Nat}
    {img : List (String × GStr)} (h : wfImage geohashField steps img = true) :
    ∀ g, getGeohash geohashField img = some g → g ≠ [] ∧ ∀ p ∈ steps, p ≤ g.length := by
  intro g hg
  unfold wfImage at h
  rw [hg] at h
  have h' : (!g.isEmpty && steps.all (fun p => decide (p ≤ g.length))) = true := h
  rw [Bool.and_eq_true] at h'
  constructor
  · intro hnil
    rw [hnil] at h'
    simp at h'
  · intro p hp
    have := List.all_eq_true.mp h'.2 p hp
    simpa using this

theorem keys_map_replace {α β : Type} [BEq α] (src : List (α × β)) (k : α) (img : β) :
    ((src.map (fun e => if e.1 == k then (e.1, img) else e)).map Prod.fst)
      = src.map Prod.fst := by
  rw [List.map_map]
  apply List.map_congr_left
  intro e _
  show (if e.1 == k then (e.1, img) else e).1 = e.1
  split <;> rfl

/-- One valid, well-formed write processed by the stream handler: the
handler succeeds and every tier-level cell count tracks the new source
table; tokens only grow by the op's token. -/
theorem opStep (geohashField : String) (cfg : StatisticsConfiguration)
    (hsteps : cfg.precisionSteps.Nodup) (op : TableOp)
    (src : List (String × List (String × GStr))) (stats : StatisticsState)
    (hv : validOp src op = true)
    (hw : wfOp geohashField cfg.precisionSteps op = true)
    (hsrcnd : (src.map Prod.fst).Nodup)
    (hsrcwf : ∀ e ∈ src, wfImage geohashField cfg.precisionSteps e.2 = true)
    (hrownd : (stats.rows.map Prod.fst).Nodup)
    (hrowlen : ∀ r ∈ stats.rows, r.1.length ∈ cfg.precisionSteps)
    (hconv : ∀ c : GStr, c.length ∈ cfg.precisionSteps →
        rowVal stats.rows c = (cellCount geohashField c.length c src : Int))
    (htok : opToken op ∉ stats.tokens) :
    ∃ stats',
      handleStreamRecord geohashField cfg (recordOfOp src op) stats = .ok stats'
      ∧ ((applySourceOp src op).map Prod.fst).Nodup
      ∧ (∀ e ∈ applySourceOp src op, wfImage geohashField cfg.precisionSteps e.2 = true)
      ∧ (stats'.rows.map Prod.fst).Nodup
      ∧ (∀ r ∈ stats'.rows, r.1.length ∈ cfg.precisionSteps)
      ∧ (∀ c : GStr, c.length ∈ cfg.precisionSteps →
          rowVal stats'.rows c
            = (cellCount geohashField c.length c (applySourceOp src op) : Int))
      ∧ (∀ t ∈ stats'.tokens, t = opToken op ∨ t ∈ stats.tokens) := by
  rcases op with ⟨eid, k, img⟩ | ⟨eid, k, img⟩ | ⟨eid, k⟩
  · -- insert
    have hold : ∀ g : GStr, (none : Option GStr) = some g →
        g ≠ [] ∧ ∀ p ∈ cfg.precisionSteps, p ≤ g.length :=
      fun g hg => Option.noConfusion hg
    have hnew : ∀ g, getGeohash geohashField img = some g →
        g ≠ [] ∧ ∀ p ∈ cfg.precisionSteps, p ≤ g.length := wfImage_spec hw
    have hb := @buildChanges_eq none (getGeohash geohashField img) cfg.precisionSteps
      hold hnew
    have hb' : buildChanges
        (recordGeohashes geohashField (recordOfOp src (.insertOp eid k img))).1
        (recordGeohashes geohashField (recordOfOp src (.insertOp eid k img))).2
        cfg.precisionSteps
        = .ok (cfg.precisionSteps.flatMap (fun p =>
            (specTierChanges none (getGeohash geohashField img) p).1),
          cfg.precisionSteps.flatMap (fun p =>
            (specTierChanges none (getGeohash geohashField img) p).2)) := hb
    have hrun : handleStreamRecord geohashField cfg (recordOfOp src (.insertOp eid k img)) stats
        = .ok (applyConditionalDeletes
            (cfg.precisionSteps.flatMap (fun p =>
              (specTierChanges none (getGeohash geohashField img) p).2))
            (if (cfg.precisionSteps.flatMap (fun p =>
                (specTierChanges none (getGeohash geohashField img) p).1)).isEmpty then stats
             else transactWriteItems ("event_id=" ++ eid)
               (cfg.precisionSteps.flatMap (fun p =>
                 (specTierChanges none (getGeohash geohashField img) p).1)) stats)) := by
      unfold handleStreamRecord
      rw [hb']
      rfl
    have hdelta : ∀ c : GStr, c.length ∈ cfg.precisionSteps →
        (cellCount geohashField c.length c (applySourceOp src (.insertOp eid k img)) : Int)
          = cellCount geohashField c.length c src
              + (sideInd (getGeohash geohashField img) c - sideInd none c) := by
      intro c _
      show (cellCount geohashField c.length c (src ++ [(k, img)]) : Int) = _
      rw [cellCount_insert geohashField src k img c]
      simp [sideInd]
    have hup := @statsUpdate cfg.precisionSteps hsteps none (getGeohash geohashField img)
      (fun g hg => absurd hg (by simp))
      (fun g hg => (hnew g hg).2)
      ("event_id=" ++ eid) stats
      (fun c => cellCount geohashField c.length c src)
      (fun c => cellCount geohashField c.length c (applySourceOp src (.insertOp eid k img)))
      hconv hdelta hrownd hrowlen htok
    rcases hup with ⟨⟨h1, h2⟩, h3, h4⟩
    refine ⟨_, hrun, ?_, ?_, h1, h2, h3, h4⟩
    · show ((src ++ [(k, img)]).map Prod.fst).Nodup
      rw [List.map_append]
      refine List.Nodup.append hsrcnd (List.nodup_singleton _) ?_
      intro a ha hb2
      have ha' : a = k := by simpa using hb2
      subst ha'
      have hnone : src.lookup a = none := Option.isNone_iff_eq_none.mp hv
      exact (lookup_eq_none_iff.mp hnone) ha
    · intro e he
      rcases List.mem_append.mp he with he | he
      · exact hsrcwf e he
      · have : e = (k, img) := by simpa using he
        rw [this]
        exact hw
  · -- modify
    have hsome : ∃ oldImg0, src.lookup k = some oldImg0 := by
      have hv' : (src.lookup k).isSome = true := hv
      exact Option.isSome_iff_exists.mp hv'
    rcases hsome with ⟨oldImg0, hlk⟩
    have hmem : (k, oldImg0) ∈ src := lookup_mem hlk
    have holdwf : wfImage geohashField cfg.precisionSteps oldImg0 = true :=
      hsrcwf (k, oldImg0) hmem
    have hold : ∀ g, getGeohash geohashField oldImg0 = some g →
        g ≠ [] ∧ ∀ p ∈ cfg.precisionSteps, p ≤ g.length := wfImage_spec holdwf
    have hnew : ∀ g, getGeohash geohashField img = some g →
        g ≠ [] ∧ ∀ p ∈ cfg.precisionSteps, p ≤ g.length := wfImage_spec hw
    have hb := @buildChanges_eq (getGeohash geohashField oldImg0)
      (getGeohash geohashField img) cfg.precisionSteps hold hnew
    have hrec1 : (recordGeohashes geohashField (recordOfOp src (.modifyOp eid k img))).1
        = getGeohash geohashField oldImg0 := by
      show getGeohash geohashField ((src.lookup k).getD []) = _
      rw [hlk]
      rfl
    have hb' : buildChanges
        (recordGeohashes geohashField (recordOfOp src (.modifyOp eid k img))).1
        (recordGeohashes geohashField (recordOfOp src (.modifyOp eid k img))).2
        cfg.precisionSteps
        = .ok (cfg.precisionSteps.flatMap (fun p =>
            (specTierChanges (getGeohash geohashField oldImg0)
              (getGeohash geohashField img) p).1),
          cfg.precisionSteps.flatMap (fun p =>
            (specTierChanges (getGeohash geohashField oldImg0)
              (getGeohash geohashField img) p).2)) := by
      rw [hrec1]
      exact hb
    have hrun : handleStreamRecord geohashField cfg
          (recordOfOp src (.modifyOp eid k img)) stats
        = .ok (applyConditionalDeletes
            (cfg.precisionSteps.flatMap (fun p =>
              (specTierChanges (getGeohash geohashField oldImg0)
                (getGeohash geohashField img) p).2))
            (if (cfg.precisionSteps.flatMap (fun p =>
                (specTierChanges (getGeohash geohashField oldImg0)
                  (getGeohash geohashField img) p).1)).isEmpty then stats
             else transactWriteItems ("event_id=" ++ eid)
               (cfg.precisionSteps.flatMap (fun p =>
                 (specTierChanges (getGeohash geohashField oldImg0)
                   (getGeohash geohashField img) p).1)) stats)) := by
      unfold handleStreamRecord
      rw [hb']
      rfl
    have hdelta : ∀ c : GStr, c.length ∈ cfg.precisionSteps →
        (cellCount geohashField c.length c (applySourceOp src (.modifyOp eid k img)) : Int)
          = cellCount geohashField c.length c src
              + (sideInd (getGeohash geohashField img) c
                  - sideInd (getGeohash geohashField oldImg0) c) := by
      intro c _
      show (cellCount geohashField c.length c
          (src.map (fun e => if e.1 == k then (e.1, img) else e)) : Int) = _
      exact cellCount_modify geohashField img c hsrcnd hmem
    have hup := @statsUpdate cfg.precisionSteps hsteps (getGeohash geohashField oldImg0)
      (getGeohash geohashField img)
      (fun g hg => (hold g hg).2)
      (fun g hg => (hnew g hg).2)
      ("event_id=" ++ eid) stats
      (fun c => cellCount geohashField c.length c src)
      (fun c => cellCount geohashField c.length c (applySourceOp src (.modifyOp eid k img)))
      hconv hdelta hrownd hrowlen htok
    rcases hup with ⟨⟨h1, h2⟩, h3, h4⟩
    refine ⟨_, hrun, ?_, ?_, h1, h2, h3, h4⟩
    · show (((src.map (fun e => if e.1 == k then (e.1, img) else e)).map Prod.fst)).Nodup
      rw [keys_map_replace]
      exact hsrcnd
    · intro e he
      rcases List.mem_map.mp he with ⟨e0, he0, hee⟩
      rw [← hee]
      by_cases hb0 : (e0.1 == k) = true
      · simp only [hb0, if_pos]
        exact hw
      · simp only [hb0, Bool.false_eq_true, if_neg, not_false_iff]
        exact hsrcwf e0 he0
  · -- remove
    have hsome : ∃ oldImg0, src.lookup k = some oldImg0 := by
      have hv' : (src.lookup k).isSome = true := hv
      exact Option.isSome_iff_exists.mp hv'
    rcases hsome with ⟨oldImg0, hlk⟩
    have hmem : (k, oldImg0) ∈ src := lookup_mem hlk
    have holdwf : wfImage geohashField cfg.precisionSteps oldImg0 = true :=
      hsrcwf (k, oldImg0) hmem
    have hold : ∀ g, getGeohash geohashField oldImg0 = some g →
        g ≠ [] ∧ ∀ p ∈ cfg.precisionSteps, p ≤ g.length := wfImage_spec holdwf
    have hnew : ∀ g : GStr, (none : Option GStr) = some g →
        g ≠ [] ∧ ∀ p ∈ cfg.precisionSteps, p ≤ g.length :=
      fun g hg => Option.noConfusion hg
    have hb := @buildChanges_eq (getGeohash geohashField oldImg0)
      none cfg.precisionSteps hold hnew
    have hrec1 : (recordGeohashes geohashField (recordOfOp src (.removeOp eid k))).1
        = getGeohash geohashField oldImg0 := by
      show getGeohash geohashField ((src.lookup k).getD []) = _
      rw [hlk]
      rfl
    have hb' : buildChanges
        (recordGeohashes geohashField (recordOfOp src (.removeOp eid k))).1
        (recordGeohashes geohashField (recordOfOp src (.removeOp eid k))).2
        cfg.precisionSteps
        = .ok (cfg.precisionSteps.flatMap (fun p =>
            (specTierChanges (getGeohash geohashField oldImg0) none p).1),
          cfg.precisionSteps.flatMap (fun p =>
            (specTierChanges (getGeohash geohashField oldImg0) none p).2)) := by
      rw [hrec1]
      exact hb
    have hrun : handleStreamRecord geohashField cfg
          (recordOfOp src (.removeOp eid k)) stats
        = .ok (applyConditionalDeletes
            (cfg.precisionSteps.flatMap (fun p =>
              (specTierChanges (getGeohash geohashField oldImg0) none p).2))
            (if (cfg.precisionSteps.flatMap (fun p =>
                (specTierChanges (getGeohash geohashField oldImg0) none p).1)).isEmpty
              then stats
             else transactWriteItems ("event_id=" ++ eid)
               (cfg.precisionSteps.flatMap (fun p =>
                 (specTierChanges (getGeohash geohashField oldImg0) none p).1)) stats)) := by
      unfold handleStreamRecord
      rw [hb']
      rfl
    have hdelta : ∀ c : GStr, c.length ∈ cfg.precisionSteps →
        (cellCount geohashField c.length c (applySourceOp src (.removeOp eid k)) : Int)
          = cellCount geohashField c.length c src
              + (sideInd none c - sideInd (getGeohash geohashField oldImg0) c) := by
      intro c _
      show (cellCount geohashField c.length c (src.filter (fun e => !(e.1 == k))) : Int) = _
      rw [cellCount_remove geohashField c hsrcnd hmem]
      simp [sideInd]
      ring
    have hup := @statsUpdate cfg.precisionSteps hsteps (getGeohash geohashField oldImg0)
      none
      (fun g hg => (hold g hg).2)
      (fun g hg => absurd hg (by simp))
      ("event_id=" ++ eid) stats
      (fun c => cellCount geohashField c.length c src)
      (fun c => cellCount geohashField c.length c (applySourceOp src (.removeOp eid k)))
      hconv hdelta hrownd hrowlen htok
    rcases hup with ⟨⟨h1, h2⟩, h3, h4⟩
    refine ⟨_, hrun, ?_, ?_, h1, h2, h3, h4⟩
    · show ((src.filter (fun e => !(e.1 == k))).map Prod.fst).Nodup
      exact ((List.filter_sublist _).map Prod.fst).nodup hsrcnd
    · intro e he
      exact hsrcwf e (List.mem_of_mem_filter he)

/-- Sequential invariant: a valid, well-formed, fresh-token op sequence
runs without error, and every tier-level cell count tracks the table. -/
theorem runOps_inv (geohashField : String) (cfg : StatisticsConfiguration)
    (hsteps : cfg.precisionSteps.Nodup) (ops : List TableOp)
    (src : List (String × List (String × GStr))) (stats : StatisticsState)
    (hvalid : validOps src ops = true)
    (hwf : ops.all (wfOp geohashField cfg.precisionSteps) = true)
    (htokd : (ops.map opToken).Nodup)
    (htokf : ∀ op ∈ ops, opToken op ∉ stats.tokens)
    (hsrcnd : (src.map Prod.fst).Nodup)
    (hsrcwf : ∀ e ∈ src, wfImage geohashField cfg.precisionSteps e.2 = true)
    (hrownd : (stats.rows.map Prod.fst).Nodup)
    (hrowlen : ∀ r ∈ stats.rows, r.1.length ∈ cfg.precisionSteps)
    (hconv : ∀ c : GStr, c.length ∈ cfg.precisionSteps →
        rowVal stats.rows c = (cellCount geohashField c.length c src : Int)) :
    ∃ src' stats',
      runOps geohashField cfg ops src stats = .ok (src', stats')
      ∧ (src'.map Prod.fst).Nodup
      ∧ (∀ e ∈ src', wfImage geohashField cfg.precisionSteps e.2 = true)
      ∧ (stats'.rows.map Prod.fst).Nodup
      ∧ (∀ r ∈ stats'.rows, r.1.length ∈ cfg.precisionSteps)
      ∧ (∀ c : GStr, c.length ∈ cfg.precisionSteps →
          rowVal stats'.rows c = (cellCount geohashField c.length c src' : Int)) := by
  induction ops generalizing src stats with
  | nil =>
    exact ⟨src, stats, rfl, hsrcnd, hsrcwf, hrownd, hrowlen, hconv⟩
  | cons op ops ih =>
    have hvalid' : validOp src op = true ∧ validOps (applySourceOp src op) ops = true := by
      have h0 : (validOp src op && validOps (applySourceOp src op) ops) = true := hvalid
      rw [Bool.and_eq_true] at h0
      exact h0
    have hwf' : wfOp geohashField cfg.precisionSteps op = true
        ∧ ops.all (wfOp geohashField cfg.precisionSteps) = true := by
      have h0 : (wfOp geohashField cfg.precisionSteps op
          && ops.all (wfOp geohashField cfg.precisionSteps)) = true := hwf
      rw [Bool.and_eq_true] at h0
      exact h0
    rw [List.map_cons, List.nodup_cons] at htokd
    rcases htokd with ⟨htd1, htd2⟩
    rcases opStep geohashField cfg hsteps op src stats hvalid'.1 hwf'.1 hsrcnd hsrcwf
      hrownd hrowlen hconv (htokf op (List.mem_cons_self op ops)) with
      ⟨stats1, hrun, hnd1, hwf1, hrnd1, hrlen1, hconv1, htok1⟩
    have htokf1 : ∀ op' ∈ ops, opToken op' ∉ stats1.tokens := by
      intro op' hop' hmem
      rcases htok1 _ hmem with he | he
      · exact htd1 (he ▸ List.mem_map.mpr ⟨op', hop', rfl⟩)
      · exact htokf op' (List.mem_cons_of_mem op hop') he
    rcases ih (applySourceOp src op) stats1 hvalid'.2 hwf'.2 htd2 htokf1
      hnd1 hwf1 hrnd1 hrlen1 hconv1 with ⟨src', stats', hrun', hprops⟩
    refine ⟨src', stats', ?_, hprops⟩
    simp only [runOps]
    rw [hrun]
    exact hrun'

theorem sum_map_add {α : Type} (K : List α) (f g : α → Int) :
    (K.map (fun c => f c + g c)).sum = (K.map f).sum + (K.map g).sum := by
  induction K with
  | nil => simp
  | cons c K ih =>
    simp only [List.map_cons, List.sum_cons, ih]
    ring

theorem sum_indicator_zero {x : GStr} {K : List GStr} (hx : x ∉ K) :
    (K.map (fun c => if x == c then (1 : Int) else 0)).sum = 0 := by
  induction K with
  | nil => simp
  | cons c K ih =>
    have hxc : ¬ x = c := fun h => hx (h ▸ List.mem_cons_self c K)
    have hb : (x == c) = false := by simpa using hxc
    simp only [List.map_cons, List.sum_cons, hb, Bool.false_eq_true, if_neg, not_false_iff]
    rw [ih (fun h => hx (List.mem_cons_of_mem c h))]
    ring

theorem sum_indicator_one {x : GStr} {K : List GStr} (hK : K.Nodup) (hx : x ∈ K) :
    (K.map (fun c => if x == c then (1 : Int) else 0)).sum = 1 := by
  induction K with
  | nil => simp at hx
  | cons c K ih =>
    rcases List.nodup_cons.mp hK with ⟨hc, hKnd⟩
    rcases List.mem_cons.mp hx with he | he
    · subst he
      simp only [List.map_cons, List.sum_cons, beq_self_eq_true, if_pos]
      rw [sum_indicator_zero hc]
      ring
    · have hxc : ¬ x = c := fun h => hc (h ▸ he)
      have hb : (x == c) = false := by simpa using hxc
      simp only [List.map_cons, List.sum_cons, hb, Bool.false_eq_true, if_neg,
        not_false_iff]
      rw [ih hKnd he]
      ring

theorem sum_cell_indicator (p : Nat) {K : List GStr} (hK : K.Nodup) (o : Option GStr)
    (hcov : ∀ g, o = some g → g.take p ∈ K) :
    (K.map (fun c => (if (match o with
        | some g => g.take p == c
        | none => false) then (1 : Int) else 0))).sum
      = (if o.isSome then (1 : Int) else 0) := by
  rcases o with _ | g
  · simp
  · have hcg : ∀ c ∈ K, (if (match (some g : Option GStr) with
        | some g0 => g0.take p == c
        | none => false) then (1 : Int) else 0)
        = (if g.take p == c then (1 : Int) else 0) := fun c _ => rfl
    rw [List.map_congr_left hcg, sum_indicator_one hK (hcov g rfl)]
    rfl

theorem countGeo_partition (geohashField : String) (p : Nat)
    (src : List (String × List (String × GStr))) (K : List GStr) (hK : K.Nodup)
    (hcov : ∀ e ∈ src, ∀ g, getGeohash geohashField e.2 = some g → g.take p ∈ K) :
    (K.map (fun c => (cellCount geohashField p c src : Int))).sum
      = (countGeo geohashField src : Int) := by
  induction src with
  | nil =>
    simp [cellCount, countGeo]
  | cons e es ih =>
    have hcons : ∀ c : GStr, (cellCount geohashField p c (e :: es) : Int)
        = cellCount geohashField p c es
          + (if (match getGeohash geohashField e.2 with
              | some g => g.take p == c
              | none => false) then (1 : Int) else 0) := by
      intro c
      unfold cellCount
      rw [List.countP_cons]
      push_cast
      rfl
    have hmaps : (K.map (fun c => (cellCount geohashField p c (e :: es) : Int))).sum
        = (K.map (fun c => (cellCount geohashField p c es : Int))).sum
          + (K.map (fun c => (if (match getGeohash geohashField e.2 with
              | some g => g.take p == c
              | none => false) then (1 : Int) else 0))).sum := by
      rw [← sum_map_add]
      congr 1
      apply List.map_congr_left
      intro c _
      exact hcons c
    rw [hmaps, ih (fun e' he' => hcov e' (List.mem_cons_of_mem e he'))]
    rw [sum_cell_indicator p hK (getGeohash geohashField e.2)
      (fun g hg => hcov e (List.mem_cons_self e es) g hg)]
    have hgeo : (countGeo geohashField (e :: es) : Int)
        = countGeo geohashField es + (if hasGeo geohashField e then (1 : Int) else 0) := by
      unfold countGeo
      rw [List.countP_cons]
      push_cast
      rfl
    rw [hgeo]
    rfl

/-- Derive the tier-sum identity from the per-cell invariant. -/
theorem tierSum_conservation (geohashField : String) {steps : List Nat} {p : Nat}
    (hp : p ∈ steps)
    {src : List (String × List (String × GStr))} {rows : List (GStr × Int)}
    (hsrcwf : ∀ e ∈ src, wfImage geohashField steps e.2 = true)
    (hnd : (rows.map Prod.fst).Nodup)
    (hconv : ∀ c : GStr, c.length ∈ steps →
        rowVal rows c = (cellCount geohashField c.length c src : Int)) :
    tierSum p rows = (countGeo geohashField src : Int) := by
  have hrowv : ∀ r ∈ rows.filter (fun r => r.1.length == p),
      r.2 = (cellCount geohashField p r.1 src : Int) := by
    intro r hr
    have hrm : r ∈ rows := List.mem_of_mem_filter hr
    have hrp : r.1.length = p := by
      have := List.of_mem_filter hr
      simpa using this
    have hl : rows.lookup r.1 = some r.2 := by
      rcases r with ⟨c, v⟩
      exact lookup_of_mem_nodup hnd hrm
    have := hconv r.1 (hrp ▸ hp)
    rw [rowVal, hl] at this
    rw [← hrp]
    exact this
  have htier : tierSum p rows
      = ((rows.filter (fun r => r.1.length == p)).map
          (fun r => (cellCount geohashField p r.1 src : Int))).sum := by
    unfold tierSum
    congr 1
    exact List.map_congr_left hrowv
  set K := (rows.filter (fun r => r.1.length == p)).map Prod.fst with hKdef
  have hKnd : K.Nodup := ((List.filter_sublist _).map Prod.fst).nodup hnd
  have hmm : ((rows.filter (fun r => r.1.length == p)).map
        (fun r => (cellCount geohashField p r.1 src : Int))).sum
      = (K.map (fun c => (cellCount geohashField p c src : Int))).sum := by
    rw [hKdef, List.map_map]
    rfl
  have hcov : ∀ e ∈ src, ∀ g, getGeohash geohashField e.2 = some g → g.take p ∈ K := by
    intro e he g hg
    have hwf := wfImage_spec (hsrcwf e he) g hg
    have hglen : (g.take p).length = p := length_take_of_le (hwf.2 p hp)
    by_contra hnk
    have hlookup : rows.lookup (g.take p) = none := by
      rcases hl : rows.lookup (g.take p) with _ | v
      · rfl
      · exfalso
        apply hnk
        rw [hKdef]
        refine List.mem_map.mpr ⟨(g.take p, v), ?_, rfl⟩
        refine List.mem_filter.mpr ⟨lookup_mem hl, ?_⟩
        simp [hglen]
    have hzero : rowVal rows (g.take p) = 0 := by
      rw [rowVal, hlookup]
      rfl
    have hcount := hconv (g.take p) (by rw [hglen]; exact hp)
    rw [hzero, hglen] at hcount
    have hpos : 0 < cellCount geohashField p (g.take p) src := by
      apply List.countP_pos_iff.mpr
      refine ⟨e, he, ?_⟩
      rw [hg]
      simp
    omega
  rw [htier, hmm, countGeo_partition geohashField p src K hKnd hcov]

/-- C2: starting from an empty source table and an empty statistics
table, after any valid well-formed sequence of insert/modify/remove
writes processed by the stream handler, the sum of `item_count` over all
counter rows of every configured tier equals the number of currently
existing source items that carry a geohash value. -/
theorem statistics_conservation (geohashField : String) (cfg : StatisticsConfiguration)
    (ops : List TableOp)
    (hsteps : cfg.precisionSteps.Nodup)
    (hvalid : validOps [] ops = true)
    (hwf : ops.all (wfOp geohashField cfg.precisionSteps) = true)
    (htok : (ops.map opToken).Nodup) :
    ∃ src stats,
      runOps geohashField cfg ops [] ⟨[], []⟩ = .ok (src, stats)
      ∧ ∀ p ∈ cfg.precisionSteps,
          tierSum p stats.rows = (countGeo geohashField src : Int) := by
  rcases runOps_inv geohashField cfg hsteps ops [] ⟨[], []⟩ hvalid hwf htok
      (fun op _ h => absurd h (List.not_mem_nil _))
      (by simp) (fun e he => absurd he (List.not_mem_nil e))
      (by simp) (fun r hr => absurd hr (List.not_mem_nil r))
      (fun c _ => by simp [rowVal, cellCount, List.lookup, countGeo]) with
    ⟨src, stats, hrun, hsrcnd, hsrcwf, hrownd, hrowlen, hconv⟩
  exact ⟨src, stats, hrun, fun p hp =>
    tierSum_conservation geohashField hp hsrcwf hrownd hconv⟩

/-- Witness for C2: a concrete run with tiers (1, 2) — insert an item at
geohash `ab`, move it to `ac`, insert an item without geo data, then
remove the first item. -/
theorem statistics_conservation_witness :
    ([1, 2] : List Nat).Nodup
    ∧ validOps []
        [TableOp.insertOp "e1" "k1" [("_geohash", ['a', 'b'])],
         TableOp.modifyOp "e2" "k1" [("_geohash", ['a', 'c'])],
         TableOp.insertOp "e3" "k2" [("other", ['x'])],
         TableOp.removeOp "e4" "k1"] = true
    ∧ ([TableOp.insertOp "e1" "k1" [("_geohash", ['a', 'b'])],
        TableOp.modifyOp "e2" "k1" [("_geohash", ['a', 'c'])],
        TableOp.insertOp "e3" "k2" [("other", ['x'])],
        TableOp.removeOp "e4" "k1"].all
          (wfOp "_geohash" (StatisticsConfiguration.mk [1, 2]).precisionSteps) = true)
    ∧ (([TableOp.insertOp "e1" "k1" [("_geohash", ['a', 'b'])],
         TableOp.modifyOp "e2" "k1" [("_geohash", ['a', 'c'])],
         TableOp.insertOp "e3" "k2" [("other", ['x'])],
         TableOp.removeOp "e4" "k1"].map opToken).Nodup)
    ∧ ∃ src stats,
        runOps "_geohash" (StatisticsConfiguration.mk [1, 2])
          [TableOp.insertOp "e1" "k1" [("_geohash", ['a', 'b'])],
           TableOp.modifyOp "e2" "k1" [("_geohash", ['a', 'c'])],
           TableOp.insertOp "e3" "k2" [("other", ['x'])],
           TableOp.removeOp "e4" "k1"] [] ⟨[], []⟩ = .ok (src, stats)
        ∧ ∀ p ∈ (StatisticsConfiguration.mk [1, 2]).precisionSteps,
            tierSum p stats.rows = (countGeo "_geohash" src : Int) :=
  ⟨by decide, by decide, by decide, by decide,
    statistics_conservation "_geohash" (StatisticsConfiguration.mk [1, 2])
      [TableOp.insertOp "e1" "k1" [("_geohash", ['a', 'b'])],
       TableOp.modifyOp "e2" "k1" [("_geohash", ['a', 'c'])],
       TableOp.insertOp "e3" "k2" [("other", ['x'])],
       TableOp.removeOp "e4" "k1"]
      (by decide) (by decide) (by decide) (by decide)⟩

/-! ## Item enricher (`enricher.py`)

Items are association lists from field name to attribute value; an
attribute value is either a string or the opaque position payload.  The
geohash encoder is the external `libgeohash.encode` capability. -/

/-- A DynamoDB attribute value, as far as the enricher cares: the two
derived fields hold strings, the position field holds the payload the
configured mapper understands. -/
inductive AttrValue (Pos : Type) where
  | strV (s : GStr)
  | posV (p : Pos)
deriving DecidableEq

/-- `GeoTableConfiguration` from `configuration.py`, restricted to the
fields the enricher reads.  `positionMapper` abstracts
`config.position_mapper`, `encode` is passed separately. -/
structure EnricherConfig (Pos : Type) where
  geohashPfxField : String
  geohashField : String
  positionField : String
  positionMapper : AttrValue Pos → Pos
  prefixLength : Nat
  precision : Nat

/-- The errors `enrich_item` can raise: a missing position field is a
Python `KeyError`; `_set_item_value`'s `ValueError` is the spec's
`FieldConflict`. -/
inductive EnrichErr
  | keyError
  | fieldConflict
deriving DecidableEq, Repr

/-- Python dict assignment `item[key] = value`: replace the existing
binding, or append a new one. -/
def dictSet {α β : Type} [BEq α] (l : List (α × β)) (key : α) (value : β) :
    List (α × β) :=
  if (l.lookup key).isSome then
    l.map (fun e => if e.1 == key then (e.1, value) else e)
  else l ++ [(key, value)]

/-- `GeoItemEnricher._set_item_value`. -/
def setItemValue {Pos : Type} (item : List (String × AttrValue Pos)) (key : String)
    (value : AttrValue Pos) (overwriteExisting : Bool) :
    Except EnrichErr (List (String × AttrValue Pos)) :=
  if !overwriteExisting && (item.lookup key).isSome then .error .fieldConflict
  else .ok (dictSet item key value)

/-- `GeoItemEnricher.enrich_item`.  The `deepcopy` is implicit: the
function is pure, so the input item is never mutated. -/
def enrichItem {Pos : Type} (encode : Pos → Nat → GStr) (cfg : EnricherConfig Pos)
    (item : List (String × AttrValue Pos)) (overwriteExisting : Bool) :
    Except EnrichErr (List (String × AttrValue Pos)) := do
  let positionValue ← match item.lookup cfg.positionField with
    | some v => Except.ok v
    | none => Except.error EnrichErr.keyError
  let position := cfg.positionMapper positionValue
  let geohash := encode position cfg.precision
  let e1 ← setItemValue item cfg.geohashField (.strV geohash) overwriteExisting
  let e2 ← setItemValue e1 cfg.geohashPfxField
    (.strV (geohash.take cfg.prefixLength)) overwriteExisting
  .ok e2

theorem lookup_map_setval {α β : Type} [DecidableEq α] [BEq α] [LawfulBEq α]
    (l : List (α × β)) (k : α) (v : β) (c : α) :
    (l.map (fun e => if e.1 == k then (e.1, v) else e)).lookup c
      = (l.lookup c).map (fun w => if c = k then v else w) := by
  induction l with
  | nil => simp [List.lookup]
  | cons e es ih =>
    rcases e with ⟨k0, v0⟩
    simp only [beq_iff_eq] at ih ⊢
    by_cases hk : k0 = k <;> by_cases hc : c = k0
    · subst hk
      subst hc
      simp [List.lookup_cons]
    · subst hk
      have hb : (c == k0) = false := by simpa using hc
      simp [List.lookup_cons, hb, ih]
    · subst hc
      simp [List.lookup_cons, hk]
    · have hb : (c == k0) = false := by simpa using hc
      simp [List.lookup_cons, hb, ih, hk]

theorem lookup_dictSet {α β : Type} [DecidableEq α] [BEq α] [LawfulBEq α]
    (l : List (α × β)) (k : α) (v : β) (c : α) :
    (dictSet l k v).lookup c = if c = k then some v else l.lookup c := by
  unfold dictSet
  by_cases hp : (l.lookup k).isSome
  · rw [if_pos hp, lookup_map_setval]
    by_cases hc : c = k
    · subst hc
      rcases hl : l.lookup c with _ | w
      · rw [hl] at hp
        simp at hp
      · simp
    · rw [if_neg hc]
      rcases l.lookup c with _ | w
      · simp
      · simp [hc]
  · rw [if_neg hp, lookup_append]
    by_cases hc : c = k
    · subst hc
      have hl : l.lookup c = none := by
        rcases h : l.lookup c with _ | w
        · rfl
        · rw [h] at hp
          simp at hp
      simp [hl, List.lookup_cons]
    · have hb : (c == k) = false := by simpa using hc
      rw [if_neg hc]
      rcases hl : l.lookup c with _ | w
      · simp [List.lookup_cons, hb]
      · simp

/-- C9: with overwrite disabled, enrichment fails with `FieldConflict`
exactly when one of the two derived fields is already present; whenever
it succeeds — and always when overwrite is enabled — the result carries
the geohash of the item's position at the configured precision and its
`prefix_length`-character truncation (the input item itself, being a
pure value, is untouched). -/
theorem enrichItem_spec {Pos : Type} (encode : Pos → Nat → GStr)
    (cfg : EnricherConfig Pos) (item : List (String × AttrValue Pos))
    (pv : AttrValue Pos) (hpos : item.lookup cfg.positionField = some pv)
    (hdist : cfg.geohashField ≠ cfg.geohashPfxField) :
    (enrichItem encode cfg item false = .error .fieldConflict
      ↔ ((item.lookup cfg.geohashField).isSome
          ∨ (item.lookup cfg.geohashPfxField).isSome))
    ∧ (∀ (ov : Bool) (e : List (String × AttrValue Pos)),
        enrichItem encode cfg item ov = .ok e →
          e.lookup cfg.geohashField
              = some (.strV (encode (cfg.positionMapper pv) cfg.precision))
          ∧ e.lookup cfg.geohashPfxField
              = some (.strV ((encode (cfg.positionMapper pv) cfg.precision).take
                  cfg.prefixLength)))
    ∧ ∃ e, enrichItem encode cfg item true = .ok e := by
  set gh := encode (cfg.positionMapper pv) cfg.precision with hgh
  set d1 := dictSet item cfg.geohashField (AttrValue.strV gh) with hd1
  have hmain : ∀ ov : Bool, enrichItem encode cfg item ov
      = Except.bind (setItemValue item cfg.geohashField (AttrValue.strV gh) ov)
          (fun e1 => Except.bind (setItemValue e1 cfg.geohashPfxField
            (AttrValue.strV (gh.take cfg.prefixLength)) ov)
            (fun e2 => Except.ok e2)) := by
    intro ov
    unfold enrichItem
    rw [hpos]
    rfl
  have hlk2 : d1.lookup cfg.geohashPfxField = item.lookup cfg.geohashPfxField := by
    rw [hd1, lookup_dictSet]
    rw [if_neg (fun h => hdist h.symm)]
  refine ⟨?_, ?_, ?_⟩
  · rw [hmain false]
    by_cases h1 : (item.lookup cfg.geohashField).isSome
    · have hs1 : setItemValue item cfg.geohashField (AttrValue.strV gh) false
          = .error .fieldConflict := by
        unfold setItemValue
        rw [if_pos (by simp [h1])]
      rw [hs1]
      constructor
      · intro _
        exact Or.inl h1
      · intro _
        rfl
    · have hs1 : setItemValue item cfg.geohashField (AttrValue.strV gh) false
          = .ok d1 := by
        unfold setItemValue
        rw [if_neg (by simp [h1]), hd1]
      rw [hs1]
      by_cases h2 : (item.lookup cfg.geohashPfxField).isSome
      · have hs2 : setItemValue d1 cfg.geohashPfxField
            (AttrValue.strV (gh.take cfg.prefixLength)) false
            = .error .fieldConflict := by
          unfold setItemValue
          rw [if_pos (by simp [hlk2, h2])]
        have hred : Except.bind (Except.ok d1)
            (fun e1 => Except.bind (setItemValue e1 cfg.geohashPfxField
              (AttrValue.strV (gh.take cfg.prefixLength)) false)
              (fun e2 => Except.ok e2))
            = (.error .fieldConflict : Except EnrichErr (List (String × AttrValue Pos))) := by
          show Except.bind (setItemValue d1 cfg.geohashPfxField
            (AttrValue.strV (gh.take cfg.prefixLength)) false)
            (fun e2 => Except.ok e2) = _
          rw [hs2]
          rfl
        rw [hred]
        constructor
        · intro _
          exact Or.inr h2
        · intro _
          rfl
      · have hs2 : setItemValue d1 cfg.geohashPfxField
            (AttrValue.strV (gh.take cfg.prefixLength)) false
            = .ok (dictSet d1 cfg.geohashPfxField
                (AttrValue.strV (gh.take cfg.prefixLength))) := by
          unfold setItemValue
          rw [if_neg (by simp [hlk2, h2])]
        have hred : Except.bind (Except.ok d1)
            (fun e1 => Except.bind (setItemValue e1 cfg.geohashPfxField
              (AttrValue.strV (gh.take cfg.prefixLength)) false)
              (fun e2 => Except.ok e2))
            = .ok (dictSet d1 cfg.geohashPfxField
                (AttrValue.strV (gh.take cfg.prefixLength))) := by
          show Except.bind (setItemValue d1 cfg.geohashPfxField
            (AttrValue.strV (gh.take cfg.prefixLength)) false)
            (fun e2 => Except.ok e2) = _
          rw [hs2]
          rfl
        rw [hred]
        constructor
        · intro h
          exact Except.noConfusion h
        · intro h
          rcases h with h | h
          · exact absurd h h1
          · exact absurd h h2
  · intro ov e he
    rw [hmain ov] at he
    rcases hs1 : setItemValue item cfg.geohashField (AttrValue.strV gh) ov
      with e1 | m1
    · rw [hs1] at he
      exact absurd he (fun h => Except.noConfusion h)
    · rw [hs1] at he
      have he' : Except.bind (setItemValue m1 cfg.geohashPfxField
          (AttrValue.strV (gh.take cfg.prefixLength)) ov)
          (fun e2 => Except.ok e2) = Except.ok e := he
      rcases hs2 : setItemValue m1 cfg.geohashPfxField
          (AttrValue.strV (gh.take cfg.prefixLength)) ov with e2 | m2
      · rw [hs2] at he'
        exact absurd he' (fun h => Except.noConfusion h)
      · rw [hs2] at he'
        have hem2 : e = m2 := by
          have h2 : (Except.ok m2 : Except EnrichErr _) = Except.ok e := he'
          exact (Except.ok.inj h2).symm
        subst hem2
        have hm1 : m1 = d1 := by
          unfold setItemValue at hs1
          by_cases hc : (!ov && (item.lookup cfg.geohashField).isSome) = true
          · rw [if_pos hc] at hs1
            exact absurd hs1 (fun h => Except.noConfusion h)
          · rw [if_neg hc] at hs1
            rw [hd1]
            exact (Except.ok.inj hs1).symm
        have hm2 : e = dictSet m1 cfg.geohashPfxField
            (AttrValue.strV (gh.take cfg.prefixLength)) := by
          unfold setItemValue at hs2
          by_cases hc : (!ov && (m1.lookup cfg.geohashPfxField).isSome) = true
          · rw [if_pos hc] at hs2
            exact absurd hs2 (fun h => Except.noConfusion h)
          · rw [if_neg hc] at hs2
            exact (Except.ok.inj hs2).symm
        subst hm2
        subst hm1
        constructor
        · rw [lookup_dictSet, if_neg hdist, hd1, lookup_dictSet, if_pos rfl]
        · rw [lookup_dictSet, if_pos rfl]
  · rw [hmain true]
    have hs1 : setItemValue item cfg.geohashField (AttrValue.strV gh) true
        = .ok d1 := by
      unfold setItemValue
      rw [if_neg (by simp), hd1]
    have hs2 : setItemValue d1 cfg.geohashPfxField
        (AttrValue.strV (gh.take cfg.prefixLength)) true
        = .ok (dictSet d1 cfg.geohashPfxField
            (AttrValue.strV (gh.take cfg.prefixLength))) := by
      unfold setItemValue
      rw [if_neg (by simp)]
    rw [hs1]
    refine ⟨dictSet d1 cfg.geohashPfxField (AttrValue.strV (gh.take cfg.prefixLength)), ?_⟩
    show Except.bind (setItemValue d1 cfg.geohashPfxField
      (AttrValue.strV (gh.take cfg.prefixLength)) true) (fun e2 => Except.ok e2) = _
    rw [hs2]
    rfl

/-- Witness for C9: a one-field item over `Pos := Unit`, with a trivial
encoder producing geohash `gg` at precision 2 and prefix `g`. -/
theorem enrichItem_spec_witness :
    ([(("position" : String), AttrValue.posV ())].lookup "position"
        = some (AttrValue.posV ())
      ∧ ("_geohash" : String) ≠ "_geohash_prefix")
    ∧ ((enrichItem (fun _ n => List.replicate n 'g')
          ⟨"_geohash_prefix", "_geohash", "position", fun _ => (), 1, 2⟩
          [("position", AttrValue.posV ())] false = .error .fieldConflict
        ↔ (([(("position" : String), AttrValue.posV ())].lookup "_geohash").isSome
            ∨ ([(("position" : String), AttrValue.posV ())].lookup
                "_geohash_prefix").isSome))
      ∧ (∀ (ov : Bool) (e : List (String × AttrValue Unit)),
          enrichItem (fun _ n => List.replicate n 'g')
            ⟨"_geohash_prefix", "_geohash", "position", fun _ => (), 1, 2⟩
            [("position", AttrValue.posV ())] ov = .ok e →
            e.lookup "_geohash" = some (.strV (List.replicate 2 'g'))
            ∧ e.lookup "_geohash_prefix"
                = some (.strV ((List.replicate 2 'g').take 1)))
      ∧ ∃ e, enrichItem (fun _ n => List.replicate n 'g')
          ⟨"_geohash_prefix", "_geohash", "position", fun _ => (), 1, 2⟩
          [("position", AttrValue.posV ())] true = .ok e) :=
  ⟨⟨rfl, by decide⟩,
    enrichItem_spec (fun _ n => List.replicate n 'g')
      ⟨"_geohash_prefix", "_geohash", "position", fun _ => (), 1, 2⟩
      [("position", AttrValue.posV ())] (AttrValue.posV ()) rfl (by decide)⟩

/-! ## Geo table (`table.py`)

The DynamoDB geo index is modelled as a list of enriched items held in
index order (partitioned by `_geohash_prefix`, sorted by `_geohash`,
ties broken by the primary key).  The external `libgeohash`/`shapely`
capabilities are an abstract `GeoLib` parameter:
`rasterAt poly p` is `libgeohash.polygon_to_geohash(poly, precision=p)`
and `contains poly pos` is `poly.contains(pos.to_shapely_point())`. -/

/-- `GeoTableConfiguration` from `configuration.py`, restricted to the
fields the query path reads. -/
structure GeoTableConfiguration where
  prefixLength : Nat
  precision : Nat

/-- Abstract geometry capabilities used by `GeoTable`. -/
structure GeoLib (Poly Pos : Type) where
  rasterAt : Poly → Nat → List GStr
  contains : Poly → Pos → Bool

/-- `GeoTable.MAX_PARTITIONS_TO_QUERY`. -/
def MAX_PARTITIONS_TO_QUERY : Nat := 256

/-- `GeoTable.QUERY_OPTIMIZER_MIN_HASHES`. -/
def QUERY_OPTIMIZER_MIN_HASHES : Nat := 8

/-- `GeoTable.QUERY_OPTIMIZER_MAX_HASHES`. -/
def QUERY_OPTIMIZER_MAX_HASHES : Nat := 64

/-- The exceptions `GeoTable.query` can raise on the polygon path, plus
`fuelExhausted`, a modelling artifact of the fueled pagination loops
(proved unreachable when the fuel exceeds the table size). -/
inductive GeoQueryErr
  | queryTooLarge
  | indexError
  | resumeItemNotFound
  | fuelExhausted
deriving DecidableEq, Repr

/-- The `for precision in range(prefix_length + 1, precision + 1)` loop
of `GeoTable._raster_polygon`: refine while the finer raster stays at or
under `QUERY_OPTIMIZER_MAX_HASHES`, and stop as soon as the kept raster
reaches `QUERY_OPTIMIZER_MIN_HASHES`. -/
def rasterLoop {Poly Pos : Type} (lib : GeoLib Poly Pos) (poly : Poly) :
    List GStr → List Nat → List GStr
  | hashes, [] => hashes
  | hashes, p :: ps =>
    let current := lib.rasterAt poly p
    if current.length ≤ QUERY_OPTIMIZER_MAX_HASHES then
      if QUERY_OPTIMIZER_MIN_HASHES ≤ current.length then current
      else rasterLoop lib poly current ps
    else hashes

/-- `GeoTable._raster_polygon`. -/
def rasterPolygon {Poly Pos : Type} (lib : GeoLib Poly Pos)
    (cfg : GeoTableConfiguration) (poly : Poly) : Except GeoQueryErr (List GStr) :=
  let hashes := lib.rasterAt poly cfg.prefixLength
  if MAX_PARTITIONS_TO_QUERY < hashes.length then .error .queryTooLarge
  else if QUERY_OPTIMIZER_MIN_HASHES < hashes.length then .ok hashes
  else .ok (rasterLoop lib poly hashes
    (List.range' (cfg.prefixLength + 1) (cfg.precision - cfg.prefixLength)))

/-- An enriched item of the source table: primary key, the two derived
geohash fields and the position payload. -/
structure Item (Pos : Type) where
  pk : Nat
  geohash : GStr
  geohashPfx : GStr
  pos : Pos
deriving DecidableEq

/-- An index key of the geohash GSI: sort key `_geohash`, ties broken by
the primary key (DynamoDB scans duplicates in a fixed order). -/
structure IKey where
  gh : GStr
  pk : Nat
deriving DecidableEq, Repr

/-- The index key of an item. -/
def ikey {Pos : Type} (it : Item Pos) : IKey := ⟨it.geohash, it.pk⟩

/-- Strict index order on `IKey`. -/
def ikLt (a b : IKey) : Bool :=
  gLt a.gh b.gh || (a.gh == b.gh && a.pk < b.pk)

/-- The `KeyConditions` of `GeoTable._query_partition`:
`_geohash_prefix EQ geohash[0:prefix_length]` and
`_geohash BEGINS_WITH geohash`. -/
def matchesPartition {Pos : Type} (cfg : GeoTableConfiguration) (g : GStr)
    (it : Item Pos) : Bool :=
  it.geohashPfx == g.take cfg.prefixLength && g.isPrefixOf it.geohash

/-- The items a partition query scans, in index order. -/
def candidates {Pos : Type} (cfg : GeoTableConfiguration)
    (stored : List (Item Pos)) (g : GStr) : List (Item Pos) :=
  stored.filter (matchesPartition cfg g)

/-- The suffix of the scan strictly after an `ExclusiveStartKey`. -/
def afterKey {Pos : Type} (k : IKey) (l : List (Item Pos)) : List (Item Pos) :=
  l.filter (fun it => ikLt k (ikey it))

/-- The portion of a partition's scan a `query` call with the given
`ExclusiveStartKey` covers. -/
def scanStream {Pos : Type} (cfg : GeoTableConfiguration)
    (stored : List (Item Pos)) (g : GStr) (esk : Option IKey) : List (Item Pos) :=
  match esk with
  | none => candidates cfg stored g
  | some k => afterKey k (candidates cfg stored g)

/-- `GeoTable._query_partition`: one DynamoDB `query` call with `Limit`
and optional `ExclusiveStartKey`; `LastEvaluatedKey` is returned exactly
when the scan stopped at the limit. -/
def queryPartition {Pos : Type} (cfg : GeoTableConfiguration)
    (stored : List (Item Pos)) (g : GStr) (m : Nat) (esk : Option IKey) :
    List (Item Pos) × Option IKey :=
  ((scanStream cfg stored g esk).take m,
    if (scanStream cfg stored g esk).length < m then none
    else (((scanStream cfg stored g esk).take m).getLast?).map ikey)

/-- The `while len(items) < limit + 1` loop of `GeoTable.query` for one
raster cell, fueled (`none` = out of fuel): repeatedly query the
partition for the missing items, filter by the polygon, and stop on a
missing `LastEvaluatedKey` (resetting it to `None`) or a full page. -/
def cellLoop {Poly Pos : Type} (lib : GeoLib Poly Pos) (cfg : GeoTableConfiguration)
    (stored : List (Item Pos)) (poly : Poly) (g : GStr) (limit : Nat) :
    Nat → List (Item Pos) → Option IKey → Option (List (Item Pos) × Option IKey)
  | 0, _, _ => none
  | fuel + 1, items, lek =>
    if limit + 1 ≤ items.length then some (items, lek)
    else
      match queryPartition cfg stored g (limit + 1 - items.length) lek with
      | (newItems, none) =>
        some (items ++ newItems.filter (fun it => lib.contains poly it.pos), none)
      | (newItems, some k) =>
        cellLoop lib cfg stored poly g limit fuel
          (items ++ newItems.filter (fun it => lib.contains poly it.pos)) (some k)

/-- The `for geohash_to_query in geohashes` loop of `GeoTable.query`:
the `last_evaluated_key` variable persists across cells. -/
def cellsLoop {Poly Pos : Type} (lib : GeoLib Poly Pos) (cfg : GeoTableConfiguration)
    (stored : List (Item Pos)) (poly : Poly) (limit fuel : Nat) :
    List GStr → List (Item Pos) → Option IKey → Option (List (Item Pos) × Option IKey)
  | [], items, lek => some (items, lek)
  | g :: gs, items, lek =>
    match cellLoop lib cfg stored poly g limit fuel items lek with
    | none => none
    | some (items', lek') => cellsLoop lib cfg stored poly limit fuel gs items' lek'

/-- `QueryResult` from `model.py`: one page and the cursor (the primary
key of `items[limit - 1]`). -/
structure GeoQueryResult (Pos : Type) where
  items : List (Item Pos)
  lastEvaluatedKey : Option Nat
deriving DecidableEq

/-- The tail of `GeoTable.query` after the geohash list is fixed: run
the loops from an empty item list, truncate to `limit` and compute the
returned cursor. -/
def finishQuery {Poly Pos : Type} (lib : GeoLib Poly Pos) (cfg : GeoTableConfiguration)
    (stored : List (Item Pos)) (poly : Poly) (geohashes : List GStr) (limit : Nat)
    (startKey : Option IKey) : Except GeoQueryErr (GeoQueryResult Pos) :=
  match cellsLoop lib cfg stored poly limit (stored.length + 1) geohashes [] startKey with
  | none => .error .fuelExhausted
  | some (items, _) =>
    .ok ⟨items.take limit,
      if limit + 1 ≤ items.length then (items.get? (limit - 1)).map Item.pk else none⟩

/-- `GeoTable.query` once the sorted cell list is computed: read
`len(geohashes[0])` (an `IndexError` on an empty raster), resolve the
`exclusive_start_key` (a `ValueError` when the item does not exist),
restrict the cells to those `>= last_geohash`, and run the pagination
loops. -/
def queryWithCells {Poly Pos : Type} (lib : GeoLib Poly Pos) (cfg : GeoTableConfiguration)
    (stored : List (Item Pos)) (limit : Nat) (poly : Poly) (esk : Option Nat)
    (geohashes : List GStr) : Except GeoQueryErr (GeoQueryResult Pos) :=
  match geohashes with
  | [] => .error .indexError
  | g0 :: _ =>
    match esk with
    | none => finishQuery lib cfg stored poly geohashes limit none
    | some pk =>
      match stored.find? (fun it => it.pk == pk) with
      | none => .error .resumeItemNotFound
      | some c =>
        finishQuery lib cfg stored poly
          (geohashes.filter (fun g => !gLt g (c.geohash.take g0.length)))
          limit (some (ikey c))

/-- `GeoTable.query` on the polygon path: raster the polygon, sort the
cells, and hand over to `queryWithCells`. -/
def query {Poly Pos : Type} (lib : GeoLib Poly Pos) (cfg : GeoTableConfiguration)
    (stored : List (Item Pos)) (limit : Nat) (poly : Poly) (esk : Option Nat) :
    Except GeoQueryErr (GeoQueryResult Pos) :=
  match rasterPolygon lib cfg poly with
  | .error e => .error e
  | .ok raster => queryWithCells lib cfg stored limit poly esk (pySorted raster)

/-- Successive calls to `query`, each resuming from the previous call's
returned cursor until the cursor is empty, with the item lists
concatenated (fueled). -/
def collectPages {Poly Pos : Type} (lib : GeoLib Poly Pos) (cfg : GeoTableConfiguration)
    (stored : List (Item Pos)) (limit : Nat) (poly : Poly) :
    Nat → Option Nat → Except GeoQueryErr (List (Item Pos))
  | 0, _ => .error .fuelExhausted
  | fuel + 1, esk =>
    match query lib cfg stored limit poly esk with
    | .error e => .error e
    | .ok r =>
      match r.lastEvaluatedKey with
      | none => .ok r.items
      | some pk =>
        match collectPages lib cfg stored limit poly fuel (some pk) with
        | .error e => .error e
        | .ok rest => .ok (r.items ++ rest)

/-! ## Statistics table query (`statistics.py`, `StatisticsTable`)

`StatisticsTable.query` rasters the polygon over the configured
precision tiers and batch-fetches the counter rows for the resulting
cells; we model it up to the point where the cell list is fixed, since
`len(hashes)` raises `TypeError` first when `_raster_polygon` returned
`None`.  `nrec poly p` is `_number_of_recursions(polygon, precision=p)`. -/

/-- `StatisticsTable.QUERY_OPTIMIZER_MAX_HASHES`. -/
def STATS_QUERY_OPTIMIZER_MAX_HASHES : Nat := 200

/-- `StatisticsTable.MAX_HASHES_TO_QUERY`. -/
def MAX_HASHES_TO_QUERY : Nat := 1000

/-- `StatisticsTable.MAX_NUMBER_OF_RECURSIONS`. -/
def MAX_NUMBER_OF_RECURSIONS : Nat := 20

/-- Abstract geometry capabilities used by `StatisticsTable`. -/
structure StatsLib (Poly : Type) where
  rasterAt : Poly → Nat → List GStr
  nrec : Poly → Nat → Nat

/-- The exceptions `StatisticsTable.query` can raise. -/
inductive StatsQueryErr
  | queryTooLarge
  | typeError
deriving DecidableEq, Repr

/-- Python's `sorted` on a list of naturals. -/
def pySortedNat (l : List Nat) : List Nat :=
  l.mergeSort (fun a b => decide (a ≤ b))

/-- The `for precision in sorted(precision_steps)` loop of
`StatisticsTable._raster_polygon`, with the running `hashes` variable
(initially Python `None`). -/
def statsRasterLoop {Poly : Type} (lib : StatsLib Poly) (poly : Poly) :
    List Nat → Option (List GStr) → Except StatsQueryErr (Option (List GStr))
  | [], hashes => .ok hashes
  | p :: ps, hashes =>
    if MAX_NUMBER_OF_RECURSIONS < lib.nrec poly p then .ok hashes
    else
      let current := lib.rasterAt poly p
      match hashes with
      | none =>
        if current.length ≤ MAX_HASHES_TO_QUERY then
          statsRasterLoop lib poly ps (some current)
        else .error .queryTooLarge
      | some h =>
        if current.length ≤ STATS_QUERY_OPTIMIZER_MAX_HASHES then
          statsRasterLoop lib poly ps (some current)
        else .ok (some h)

/-- `StatisticsTable._raster_polygon`. -/
def statsRasterPolygon {Poly : Type} (lib : StatsLib Poly)
    (cfg : StatisticsConfiguration) (poly : Poly) :
    Except StatsQueryErr (Option (List GStr)) :=
  statsRasterLoop lib poly (pySortedNat cfg.precisionSteps) none

/-- `StatisticsTable.query`, up to the fixed cell list: `len(hashes)`
raises `TypeError` when the rasterization returned `None`. -/
def statsQuery {Poly : Type} (lib : StatsLib Poly) (cfg : StatisticsConfiguration)
    (poly : Poly) : Except StatsQueryErr (List GStr) :=
  match statsRasterPolygon lib cfg poly with
  | .error e => .error e
  | .ok none => .error .typeError
  | .ok (some hashes) => .ok hashes

theorem rasterLoop_result {Poly Pos : Type} (lib : GeoLib Poly Pos) (poly : Poly)
    (hashes : List GStr) (steps : List Nat) :
    rasterLoop lib poly hashes steps = hashes
    ∨ ∃ q ∈ steps, rasterLoop lib poly hashes steps = lib.rasterAt poly q
        ∧ (lib.rasterAt poly q).length ≤ QUERY_OPTIMIZER_MAX_HASHES := by
  induction steps generalizing hashes with
  | nil => exact Or.inl rfl
  | cons p ps ih =>
    by_cases h64 : (lib.rasterAt poly p).length ≤ QUERY_OPTIMIZER_MAX_HASHES
    · by_cases h8 : QUERY_OPTIMIZER_MIN_HASHES ≤ (lib.rasterAt poly p).length
      · exact Or.inr ⟨p, List.mem_cons_self p ps, by simp [rasterLoop, h64, h8], h64⟩
      · rcases ih (lib.rasterAt poly p) with h | ⟨q, hq, heq, hle⟩
        · refine Or.inr ⟨p, List.mem_cons_self p ps, ?_, h64⟩
          simp only [rasterLoop, if_pos h64, if_neg h8]
          exact h
        · refine Or.inr ⟨q, List.mem_cons_of_mem p hq, ?_, hle⟩
          simp only [rasterLoop, if_pos h64, if_neg h8]
          exact heq
    · refine Or.inl ?_
      simp [rasterLoop, h64]

/-- The geometry capability of the refinement counterexample: one cell at
precision 1, two cells at any finer precision. -/
def rasterLibSmall : GeoLib Unit Unit :=
  ⟨fun _ p => if p = 1 then [['a']] else [['a', 'a'], ['a', 'b']], fun _ _ => true⟩

/-- C5 counterexample: a polygon whose raster at `prefix_length` has a
single cell — "already small (below a low threshold)", which the spec
says is used directly without refining — is nevertheless refined to the
two cells of the next precision: the code returns directly only when the
count EXCEEDS the low threshold, and refines when it is small. -/
theorem rasterPolygon_small_raster_refined :
    (rasterLibSmall.rasterAt () 1).length < QUERY_OPTIMIZER_MIN_HASHES
    ∧ rasterPolygon rasterLibSmall ⟨1, 2⟩ () = .ok [['a', 'a'], ['a', 'b']]
    ∧ rasterPolygon rasterLibSmall ⟨1, 2⟩ () ≠ .ok [['a']] :=
  ⟨by decide, rfl, fun h => by
    have h' := Except.ok.inj h
    exact absurd h' (by decide)⟩

/-- C5 (amended): `GeoTable._raster_polygon` fails with the
`QueryTooLarge` `ValueError` exactly when the raster at `prefix_length`
exceeds `MAX_PARTITIONS_TO_QUERY`; when that count is at most the
ceiling but EXCEEDS the low threshold `QUERY_OPTIMIZER_MIN_HASHES` the
cell set is returned directly without refining; when it is at most the
low threshold the precision is raised one step at a time (up to
`precision`), and the result is either the original raster or the raster
of some finer precision whose count is within
`QUERY_OPTIMIZER_MAX_HASHES`. -/
theorem rasterPolygon_spec {Poly Pos : Type} (lib : GeoLib Poly Pos)
    (cfg : GeoTableConfiguration) (poly : Poly) :
    (∀ e, rasterPolygon lib cfg poly = .error e
        ↔ (e = .queryTooLarge
            ∧ MAX_PARTITIONS_TO_QUERY < (lib.rasterAt poly cfg.prefixLength).length))
    ∧ ((lib.rasterAt poly cfg.prefixLength).length ≤ MAX_PARTITIONS_TO_QUERY →
        QUERY_OPTIMIZER_MIN_HASHES < (lib.rasterAt poly cfg.prefixLength).length →
        rasterPolygon lib cfg poly = .ok (lib.rasterAt poly cfg.prefixLength))
    ∧ ((lib.rasterAt poly cfg.prefixLength).length ≤ QUERY_OPTIMIZER_MIN_HASHES →
        rasterPolygon lib cfg poly = .ok (lib.rasterAt poly cfg.prefixLength)
        ∨ ∃ q, cfg.prefixLength + 1 ≤ q ∧ q ≤ cfg.precision
            ∧ rasterPolygon lib cfg poly = .ok (lib.rasterAt poly q)
            ∧ (lib.rasterAt poly q).length ≤ QUERY_OPTIMIZER_MAX_HASHES) := by
  refine ⟨?_, ?_, ?_⟩
  · intro e
    unfold rasterPolygon
    by_cases hbig : MAX_PARTITIONS_TO_QUERY < (lib.rasterAt poly cfg.prefixLength).length
    · rw [if_pos hbig]
      constructor
      · intro h
        exact ⟨(Except.error.inj h).symm, hbig⟩
      · intro h
        rw [h.1]
    · rw [if_neg hbig]
      constructor
      · intro h
        by_cases hmin : QUERY_OPTIMIZER_MIN_HASHES < (lib.rasterAt poly cfg.prefixLength).length
        · rw [if_pos hmin] at h
          exact absurd h (fun h => Except.noConfusion h)
        · rw [if_neg hmin] at h
          exact absurd h (fun h => Except.noConfusion h)
      · intro h
        exact absurd h.2 hbig
  · intro hceil hmin
    unfold rasterPolygon
    rw [if_neg (by omega), if_pos hmin]
  · intro hsmall
    have hceil : ¬ MAX_PARTITIONS_TO_QUERY < (lib.rasterAt poly cfg.prefixLength).length := by
      have : QUERY_OPTIMIZER_MIN_HASHES < MAX_PARTITIONS_TO_QUERY := by decide
      omega
    have hmin : ¬ QUERY_OPTIMIZER_MIN_HASHES < (lib.rasterAt poly cfg.prefixLength).length := by
      omega
    have hq : rasterPolygon lib cfg poly
        = .ok (rasterLoop lib poly (lib.rasterAt poly cfg.prefixLength)
            (List.range' (cfg.prefixLength + 1) (cfg.precision - cfg.prefixLength))) := by
      unfold rasterPolygon
      rw [if_neg hceil, if_neg hmin]
    rcases rasterLoop_result lib poly (lib.rasterAt poly cfg.prefixLength)
        (List.range' (cfg.prefixLength + 1) (cfg.precision - cfg.prefixLength))
      with h | ⟨q, hqmem, heq, hle⟩
    · left
      rw [hq, h]
    · right
      have hbounds := List.mem_range'_1.mp hqmem
      exact ⟨q, hbounds.1, by omega, by rw [hq, heq], hle⟩

/-- The geometry capability of the C5 witness: nine cells at every
precision, so the optimizer returns the prefix raster directly. -/
def rasterLibNine : GeoLib Unit Unit :=
  ⟨fun _ _ => [['a'], ['b'], ['c'], ['d'], ['e'], ['f'], ['g'], ['h'], ['i']],
    fun _ _ => true⟩

/-- Witness for C5: a raster of nine cells at `prefix_length` is over
the low threshold and under the ceiling, so it is returned directly. -/
theorem rasterPolygon_spec_witness :
    ((rasterLibNine.rasterAt () 1).length ≤ MAX_PARTITIONS_TO_QUERY
      ∧ QUERY_OPTIMIZER_MIN_HASHES < (rasterLibNine.rasterAt () 1).length)
    ∧ rasterPolygon rasterLibNine ⟨1, 2⟩ () = .ok (rasterLibNine.rasterAt () 1) :=
  ⟨⟨by decide, by decide⟩,
    (rasterPolygon_spec rasterLibNine ⟨1, 2⟩ ()).2.1 (by decide) (by decide)⟩

theorem statsRasterLoop_some {Poly : Type} (lib : StatsLib Poly) (poly : Poly)
    (steps : List Nat) (h : List GStr) :
    ∃ r, statsRasterLoop lib poly steps (some h) = .ok (some r)
      ∧ (r = h ∨ ∃ s ∈ steps, r = lib.rasterAt poly s
          ∧ lib.nrec poly s ≤ MAX_NUMBER_OF_RECURSIONS) := by
  induction steps generalizing h with
  | nil => exact ⟨h, rfl, Or.inl rfl⟩
  | cons p ps ih =>
    by_cases hcap : MAX_NUMBER_OF_RECURSIONS < lib.nrec poly p
    · exact ⟨h, by simp [statsRasterLoop, hcap], Or.inl rfl⟩
    · by_cases hsz : (lib.rasterAt poly p).length ≤ STATS_QUERY_OPTIMIZER_MAX_HASHES
      · rcases ih (lib.rasterAt poly p) with ⟨r, hr, hcases⟩
        refine ⟨r, ?_, ?_⟩
        · simp only [statsRasterLoop, if_neg hcap]
          simp only [if_pos hsz]
          exact hr
        · rcases hcases with h1 | ⟨s, hs, h2, h3⟩
          · exact Or.inr ⟨p, List.mem_cons_self p ps, by rw [h1], by omega⟩
          · exact Or.inr ⟨s, List.mem_cons_of_mem p hs, h2, h3⟩
      · exact ⟨h, by simp [statsRasterLoop, hcap, hsz], Or.inl rfl⟩

/-- The geometry capability of the depth-cap counterexample: the coarse
tier estimates 21 recursions, the fine tier is cheap and small. -/
def statsLibCapped : StatsLib Unit :=
  ⟨fun _ p => if p = 2 then [['a']] else [], fun _ p => if p = 1 then 21 else 0⟩

/-- C6 counterexample: with tiers `[1, 2]` where tier 1 exceeds the
depth cap but tier 2 is cheap and within every ceiling, the spec says
tier 1 is skipped and tier 2 accepted; the code instead abandons
rasterization entirely (`break`, not `continue`), returns `None`, and
`query` then crashes with a `TypeError` — a failure mode the claim says
cannot happen. -/
theorem statsQuery_depth_cap_abandons :
    MAX_NUMBER_OF_RECURSIONS < statsLibCapped.nrec () 1
    ∧ statsLibCapped.nrec () 2 ≤ MAX_NUMBER_OF_RECURSIONS
    ∧ (statsLibCapped.rasterAt () 2).length ≤ STATS_QUERY_OPTIMIZER_MAX_HASHES
    ∧ statsQuery statsLibCapped ⟨[1, 2]⟩ () = .error .typeError
    ∧ statsQuery statsLibCapped ⟨[1, 2]⟩ () ≠ .ok (statsLibCapped.rasterAt () 2) := by
  have hs : pySortedNat [1, 2] = [1, 2] := List.mergeSort_of_sorted (by decide)
  have hq : statsQuery statsLibCapped ⟨[1, 2]⟩ () = .error .typeError := by
    unfold statsQuery statsRasterPolygon
    rw [show pySortedNat (StatisticsConfiguration.mk [1, 2]).precisionSteps = [1, 2] from hs]
    rfl
  exact ⟨by decide, by decide, by decide, hq, by
    rw [hq]
    exact fun h => Except.noConfusion h⟩

/-- C6 (amended): `StatisticsTable.query` walks the tiers in ascending
order, but a tier over the depth cap ends the walk (`break`) rather
than being skipped.  It fails with the `QueryTooLarge` `ValueError` iff
the coarsest tier is under the depth cap and its exact cell count
exceeds `MAX_HASHES_TO_QUERY`; it fails with a `TypeError` (so it CAN
fail another way) iff there are no tiers or the coarsest tier is over
the depth cap; any successful cell list is the raster of some
configured tier that is under the depth cap. -/
theorem statsQuery_spec {Poly : Type} (lib : StatsLib Poly)
    (cfg : StatisticsConfiguration) (poly : Poly) :
    (statsQuery lib cfg poly = .error .queryTooLarge
      ↔ ∃ s0 rest, pySortedNat cfg.precisionSteps = s0 :: rest
          ∧ lib.nrec poly s0 ≤ MAX_NUMBER_OF_RECURSIONS
          ∧ MAX_HASHES_TO_QUERY < (lib.rasterAt poly s0).length)
    ∧ (statsQuery lib cfg poly = .error .typeError
      ↔ (pySortedNat cfg.precisionSteps = []
          ∨ ∃ s0 rest, pySortedNat cfg.precisionSteps = s0 :: rest
              ∧ MAX_NUMBER_OF_RECURSIONS < lib.nrec poly s0))
    ∧ (∀ hashes, statsQuery lib cfg poly = .ok hashes →
        ∃ s ∈ cfg.precisionSteps, hashes = lib.rasterAt poly s
          ∧ lib.nrec poly s ≤ MAX_NUMBER_OF_RECURSIONS) := by
  have hperm : (pySortedNat cfg.precisionSteps).Perm cfg.precisionSteps :=
    List.mergeSort_perm _ _
  rcases hss : pySortedNat cfg.precisionSteps with _ | ⟨s0, rest⟩
  · have hq : statsQuery lib cfg poly = .error .typeError := by
      unfold statsQuery statsRasterPolygon
      rw [hss]
      rfl
    refine ⟨?_, ?_, ?_⟩
    · rw [hq]
      constructor
      · intro h
        exact absurd (Except.error.inj h) (by decide)
      · rintro ⟨s0, rest, habs, -, -⟩
        exact List.noConfusion habs
    · exact ⟨fun _ => Or.inl rfl, fun _ => hq⟩
    · intro hashes h
      rw [hq] at h
      exact absurd h (fun h => Except.noConfusion h)
  · by_cases hcap : MAX_NUMBER_OF_RECURSIONS < lib.nrec poly s0
    · have hq : statsQuery lib cfg poly = .error .typeError := by
        unfold statsQuery statsRasterPolygon
        rw [hss]
        simp [statsRasterLoop, hcap]
      refine ⟨?_, ?_, ?_⟩
      · rw [hq]
        constructor
        · intro h
          exact absurd (Except.error.inj h) (by decide)
        · rintro ⟨s0', rest', heq, hle, -⟩
          obtain ⟨h1, -⟩ := List.cons.inj heq
          rw [← h1] at hle
          omega
      · exact ⟨fun _ => Or.inr ⟨s0, rest, rfl, hcap⟩, fun _ => hq⟩
      · intro hashes h
        rw [hq] at h
        exact absurd h (fun h => Except.noConfusion h)
    · by_cases hbig : MAX_HASHES_TO_QUERY < (lib.rasterAt poly s0).length
      · have hq : statsQuery lib cfg poly = .error .queryTooLarge := by
          unfold statsQuery statsRasterPolygon
          rw [hss]
          have hn : ¬ (lib.rasterAt poly s0).length ≤ MAX_HASHES_TO_QUERY := by omega
          simp [statsRasterLoop, hcap, hn]
        refine ⟨⟨fun _ => ⟨s0, rest, rfl, by omega, hbig⟩, fun _ => hq⟩, ?_, ?_⟩
        · rw [hq]
          constructor
          · intro h
            exact absurd (Except.error.inj h) (by decide)
          · rintro (habs | ⟨s0', rest', heq, hcap'⟩)
            · exact List.noConfusion habs
            · obtain ⟨h1, -⟩ := List.cons.inj heq
              rw [← h1] at hcap'
              exact absurd hcap' hcap
        · intro hashes h
          rw [hq] at h
          exact absurd h (fun h => Except.noConfusion h)
      · rcases statsRasterLoop_some lib poly rest (lib.rasterAt poly s0)
          with ⟨r, hr, hcases⟩
        have hq : statsQuery lib cfg poly = .ok r := by
          unfold statsQuery statsRasterPolygon
          rw [hss]
          have hle : (lib.rasterAt poly s0).length ≤ MAX_HASHES_TO_QUERY := by omega
          simp [statsRasterLoop, hcap, hle, hr]
        have hmem0 : s0 ∈ cfg.precisionSteps := by
          refine hperm.subset ?_
          rw [hss]
          exact List.mem_cons_self s0 rest
        refine ⟨?_, ?_, ?_⟩
        · rw [hq]
          constructor
          · intro h
            exact absurd h (fun h => Except.noConfusion h)
          · rintro ⟨s0', rest', heq, -, hbig'⟩
            obtain ⟨h1, -⟩ := List.cons.inj heq
            rw [← h1] at hbig'
            omega
        · rw [hq]
          constructor
          · intro h
            exact absurd h (fun h => Except.noConfusion h)
          · rintro (habs | ⟨s0', rest', heq, hcap'⟩)
            · exact List.noConfusion habs
            · obtain ⟨h1, -⟩ := List.cons.inj heq
              rw [← h1] at hcap'
              exact absurd hcap' hcap
        · intro hashes h
          rw [hq] at h
          obtain rfl : r = hashes := Except.ok.inj h
          rcases hcases with h1 | ⟨s, hs, h2, h3⟩
          · exact ⟨s0, hmem0, h1, by omega⟩
          · refine ⟨s, hperm.subset ?_, h2, h3⟩
            rw [hss]
            exact List.mem_cons_of_mem s0 hs

/-- The geometry capability of the C6 witness: a single cheap tier with
1001 cells, over the absolute ceiling. -/
def statsLibBig : StatsLib Unit :=
  ⟨fun _ _ => (List.range 1001).map (fun n => [Char.ofNat n]), fun _ _ => 0⟩

/-- Witness for C6: with one tier of 1001 cells under the depth cap,
the query fails with `QueryTooLarge`. -/
theorem statsQuery_spec_witness :
    (statsLibBig.nrec () 1 ≤ MAX_NUMBER_OF_RECURSIONS
      ∧ MAX_HASHES_TO_QUERY < (statsLibBig.rasterAt () 1).length)
    ∧ statsQuery statsLibBig ⟨[1]⟩ () = .error .queryTooLarge :=
  have hlen : MAX_HASHES_TO_QUERY < (statsLibBig.rasterAt () 1).length := by
    have h : (statsLibBig.rasterAt () 1).length = 1001 := by
      simp [statsLibBig]
    rw [h]
    decide
  ⟨⟨by decide, hlen⟩,
    (statsQuery_spec statsLibBig ⟨[1]⟩ ()).1.mpr
      ⟨1, [], List.mergeSort_of_sorted (by decide), by decide, hlen⟩⟩

/-- C7: a polygon whose rasterization produces zero cells does NOT
yield an empty page — `query_precision = len(geohashes[0])` raises an
`IndexError` before any querying happens, whatever is stored and
whatever the limit or start key. -/
theorem query_empty_raster_index_error {Poly Pos : Type} (lib : GeoLib Poly Pos)
    (cfg : GeoTableConfiguration) (stored : List (Item Pos)) (limit : Nat)
    (poly : Poly) (esk : Option Nat)
    (h : rasterPolygon lib cfg poly = .ok []) :
    query lib cfg stored limit poly esk = .error .indexError := by
  unfold query
  rw [h]
  show queryWithCells lib cfg stored limit poly esk (pySorted []) = _
  rw [show pySorted ([] : List GStr) = [] from List.mergeSort_of_sorted (by simp)]
  rfl

/-- A geometry capability whose rasterization is always empty. -/
def emptyRasterLib : GeoLib Unit Unit :=
  ⟨fun _ _ => [], fun _ _ => true⟩

/-- Witness for C7: the concrete empty-raster query raises. -/
theorem query_empty_raster_index_error_witness :
    rasterPolygon emptyRasterLib ⟨1, 2⟩ () = .ok []
    ∧ query emptyRasterLib ⟨1, 2⟩ [] 5 () none = .error .indexError :=
  ⟨rfl, query_empty_raster_index_error emptyRasterLib ⟨1, 2⟩ [] 5 () none rfl⟩

/-! ## Pagination correctness of `GeoTable.query` (claim C1)

The stream of items a polygon query scans is the concatenation, cell by
sorted cell, of each cell's partition scan; the page logic takes
filtered items from that stream.  The lemmas below characterise each
layer of `query` against that stream. -/

theorem ikLt_irrefl (a : IKey) : ikLt a a = false := by
  simp [ikLt, gLt_irrefl]

theorem ikLt_asymm {a b : IKey} (h : ikLt a b = true) : ikLt b a = false := by
  unfold ikLt at h ⊢
  rcases a with ⟨ag, ap⟩
  rcases b with ⟨bg, bp⟩
  simp only [Bool.or_eq_true, Bool.and_eq_true, beq_iff_eq, decide_eq_true_eq] at h
  rcases h with h | ⟨hgh, hpk⟩
  · have h1 := gLt_asymm h
    have h2 : ¬ bg = ag := by
      intro he
      subst he
      simp [gLt_irrefl] at h
    simp [h1, h2]
  · subst hgh
    simp [gLt_irrefl]
    omega

theorem ikLt_trans {a b c : IKey} (hab : ikLt a b = true) (hbc : ikLt b c = true) :
    ikLt a c = true := by
  unfold ikLt at hab hbc ⊢
  rcases a with ⟨ag, ap⟩
  rcases b with ⟨bg, bp⟩
  rcases c with ⟨cg, cp⟩
  simp only [Bool.or_eq_true, Bool.and_eq_true, beq_iff_eq, decide_eq_true_eq]
    at hab hbc ⊢
  rcases hab with h1 | ⟨h1, h1p⟩ <;> rcases hbc with h2 | ⟨h2, h2p⟩
  · exact Or.inl (gLt_trans h1 h2)
  · subst h2
    exact Or.inl h1
  · subst h1
    exact Or.inl h2
  · subst h1
    subst h2
    exact Or.inr ⟨rfl, by omega⟩

/-- `get_item` by primary key: with distinct primary keys, `find?`
returns the stored item itself. -/
theorem find_pk {Pos : Type} {stored : List (Item Pos)} {c : Item Pos}
    (hpk : (stored.map Item.pk).Nodup) (hc : c ∈ stored) :
    stored.find? (fun it => it.pk == c.pk) = some c := by
  induction stored with
  | nil => cases hc
  | cons x xs ih =>
    rw [List.map_cons, List.nodup_cons] at hpk
    rcases List.mem_cons.mp hc with rfl | hmem
    · simp [List.find?_cons]
    · have hne : x.pk ≠ c.pk := by
        intro he
        exact hpk.1 (he ▸ List.mem_map_of_mem Item.pk hmem)
      have hb : (x.pk == c.pk) = false := by simp [hne]
      rw [List.find?_cons, hb]
      exact ih hpk.2 hmem

/-- An element that occurs only once splits its list uniquely. -/
theorem cons_decomp_unique {α : Type} {c : α} :
    ∀ {u u' v v' : List α}, u ++ c :: v = u' ++ c :: v' →
      c ∉ u → c ∉ u' → u = u' ∧ v = v' := by
  intro u
  induction u with
  | nil =>
    intro u' v v' h hc hc'
    cases u' with
    | nil =>
      refine ⟨rfl, ?_⟩
      simpa using h
    | cons y ys =>
      exfalso
      rw [List.nil_append, List.cons_append] at h
      have hy : c = y := (List.cons.inj h).1
      exact hc' (hy ▸ List.mem_cons_self y ys)
  | cons x xs ih =>
    intro u' v v' h hc hc'
    cases u' with
    | nil =>
      exfalso
      rw [List.nil_append, List.cons_append] at h
      have hy : x = c := (List.cons.inj h).1
      exact hc (hy ▸ List.mem_cons_self x xs)
    | cons y ys =>
      rw [List.cons_append, List.cons_append] at h
      obtain ⟨hxy, htail⟩ := List.cons.inj h
      have hrec := ih htail (fun hm => hc (List.mem_cons_of_mem x hm))
        (fun hm => hc' (List.mem_cons_of_mem y hm))
      exact ⟨by rw [hxy, hrec.1], hrec.2⟩

/-- Filtering a strictly `ikLt`-sorted list to the keys strictly after
the key of a member keeps exactly the suffix after that member. -/
theorem afterKey_of_sorted {Pos : Type} {C X Y : List (Item Pos)} {c : Item Pos}
    (hsorted : C.Pairwise (fun a b => ikLt (ikey a) (ikey b) = true))
    (hdec : C = X ++ c :: Y) :
    afterKey (ikey c) C = Y := by
  subst hdec
  rw [List.pairwise_append] at hsorted
  obtain ⟨-, hcy, hcross⟩ := hsorted
  rw [List.pairwise_cons] at hcy
  unfold afterKey
  rw [List.filter_append, List.filter_cons]
  have hx : X.filter (fun it => ikLt (ikey c) (ikey it)) = [] := by
    rw [List.filter_eq_nil_iff]
    intro x hx
    have h1 := hcross x hx c (List.mem_cons_self c Y)
    simp [ikLt_asymm h1]
  rw [hx, List.nil_append, if_neg (by simp [ikLt_irrefl])]
  rw [List.filter_eq_self.mpr]
  intro y hy
  exact hcy.1 y hy

/-- Filtering a strictly `gLt`-sorted cell list to the cells `>=` a
member keeps exactly that member and the cells after it. -/
theorem cells_filter_ge {gs A B : List GStr} {g : GStr}
    (hsorted : gs.Pairwise (fun a b => gLt a b = true))
    (hdec : gs = A ++ g :: B) :
    gs.filter (fun x => !gLt x g) = g :: B := by
  subst hdec
  rw [List.pairwise_append] at hsorted
  obtain ⟨-, hgb, hcross⟩ := hsorted
  rw [List.pairwise_cons] at hgb
  rw [List.filter_append, List.filter_cons]
  have hx : A.filter (fun x => !gLt x g) = [] := by
    rw [List.filter_eq_nil_iff]
    intro a ha
    have h1 := hcross a ha g (List.mem_cons_self g B)
    simp [h1]
  rw [hx, List.nil_append, if_pos (by simp [gLt_irrefl])]
  congr 1
  rw [List.filter_eq_self.mpr]
  intro b hb
  simp [gLt_asymm (hgb.1 b hb)]

/-- A filter by a disjunction of disjoint tests splits, up to
permutation, into the two filters. -/
theorem filter_or_perm {α : Type} (p r : α → Bool) :
    ∀ (l : List α), (∀ x ∈ l, ¬(p x = true ∧ r x = true)) →
      (l.filter (fun x => p x || r x)).Perm (l.filter p ++ l.filter r) := by
  intro l
  induction l with
  | nil => intro _; simp
  | cons x xs ih =>
    intro hdisj
    have hxs := fun y hy => hdisj y (List.mem_cons_of_mem x hy)
    have hx := hdisj x (List.mem_cons_self x xs)
    rcases hp : p x with _ | _
    · rcases hr : r x with _ | _
      · simp only [List.filter_cons, hp, hr]
        simpa using ih hxs
      · simp only [List.filter_cons, hp, hr]
        simp only [Bool.false_or, Bool.or_true, if_pos rfl, if_neg]
        refine ((ih hxs).cons x).trans ?_
        exact List.perm_middle.symm
    · have hr : r x = false := by
        rcases hrr : r x with _ | _
        · rfl
        · exact absurd ⟨hp, hrr⟩ hx
      simp only [List.filter_cons, hp, hr]
      simp only [Bool.true_or, if_pos rfl]
      exact (ih hxs).cons x

/-- Concatenating, over a duplicate-free key list, the sublists of `l`
keyed to each key is a permutation of the elements of `l` whose key is
in the list. -/
theorem flatten_filter_groups {α β : Type} [BEq β] [LawfulBEq β] (f : α → β) (l : List α) :
    ∀ (ks : List β), ks.Nodup →
      ((ks.map (fun k => l.filter (fun x => f x == k))).flatten).Perm
        (l.filter (fun x => ks.contains (f x))) := by
  intro ks
  induction ks with
  | nil =>
    intro _
    simp
  | cons k ks ih =>
    intro hnd
    rw [List.nodup_cons] at hnd
    rw [List.map_cons, List.flatten_cons]
    have hsplit := filter_or_perm (fun x => f x == k) (fun x => ks.contains (f x)) l
      (by
        intro x _ ⟨h1, h2⟩
        rw [beq_iff_eq] at h1
        have h2' : f x ∈ ks := by simpa using h2
        exact hnd.1 (h1 ▸ h2'))
    have hcongr : l.filter (fun x => (k :: ks).contains (f x))
        = l.filter (fun x => f x == k || ks.contains (f x)) := by
      apply List.filter_congr
      intro x _
      rw [List.contains_cons]
    rw [hcongr]
    exact (List.Perm.append (List.Perm.refl _) (ih hnd.2)).trans hsplit.symm

theorem bool_eq_of_iff {a b : Bool} (h : a = true ↔ b = true) : a = b := by
  rcases a <;> rcases b <;> simp_all

/-- For an enriched item and a cell of the raster precision, the
partition key conditions test exactly that the cell is the item's
geohash truncated to the raster precision. -/
theorem matches_iff {Pos : Type} (cfg : GeoTableConfiguration) {q : Nat} {g : GStr}
    {it : Item Pos}
    (hpfx : it.geohashPfx = it.geohash.take cfg.prefixLength)
    (hgq : g.length = q) (hple : cfg.prefixLength ≤ q) :
    (matchesPartition cfg g it = true ↔ it.geohash.take q = g) := by
  unfold matchesPartition
  rw [Bool.and_eq_true]
  constructor
  · rintro ⟨-, h2⟩
    have hpre : g <+: it.geohash := List.isPrefixOf_iff_prefix.mp h2
    have h3 := List.prefix_iff_eq_take.mp hpre
    rw [hgq] at h3
    exact h3.symm
  · intro h
    constructor
    · rw [beq_iff_eq, hpfx, ← h, List.take_take]
      congr 1
      omega
    · rw [List.isPrefixOf_iff_prefix, ← h]
      exact List.take_prefix q it.geohash

/-- Under the enrichment invariant, a cell's candidate scan is the
filter of the stored items whose truncated geohash is that cell. -/
theorem candidates_takeq {Pos : Type} (cfg : GeoTableConfiguration)
    (stored : List (Item Pos)) {q : Nat} {g : GStr}
    (henrich : ∀ it ∈ stored, it.geohashPfx = it.geohash.take cfg.prefixLength)
    (hgq : g.length = q) (hple : cfg.prefixLength ≤ q) :
    candidates cfg stored g = stored.filter (fun it => it.geohash.take q == g) := by
  unfold candidates
  apply List.filter_congr
  intro it hit
  apply bool_eq_of_iff
  rw [beq_iff_eq]
  exact matches_iff cfg (henrich it hit) hgq hple

/-- One run of the `while` loop of `GeoTable.query` for a single cell:
starting from the suffix of the partition scan the `last_evaluated_key`
points at, it extends `items` with the next filtered items of the scan,
up to the quota `limit + 1`, and reports `None` exactly when the scan
was exhausted before the quota. -/
theorem cellLoop_eq {Poly Pos : Type} (lib : GeoLib Poly Pos)
    (cfg : GeoTableConfiguration) (stored : List (Item Pos)) (poly : Poly)
    (g : GStr) (limit : Nat)
    (hsorted : (candidates cfg stored g).Pairwise
      (fun a b => ikLt (ikey a) (ikey b) = true)) :
    ∀ (fuel : Nat) (j : Nat) (items : List (Item Pos)) (lek : Option IKey),
      ((candidates cfg stored g).drop j).length < fuel →
      ((lek = none ∧ j = 0)
        ∨ ∃ k, lek = some k
            ∧ afterKey k (candidates cfg stored g) = (candidates cfg stored g).drop j) →
      ∃ lek', cellLoop lib cfg stored poly g limit fuel items lek
          = some (items
              ++ (((candidates cfg stored g).drop j).filter
                    (fun it => lib.contains poly it.pos)).take (limit + 1 - items.length),
              lek')
        ∧ ((((candidates cfg stored g).drop j).filter
              (fun it => lib.contains poly it.pos)).length < limit + 1 - items.length
            → lek' = none) := by
  intro fuel
  induction fuel with
  | zero =>
    intro j items lek hf
    exact absurd hf (Nat.not_lt_zero _)
  | succ fuel ih =>
    intro j items lek hf hlek
    have hcand : scanStream cfg stored g lek = (candidates cfg stored g).drop j := by
      rcases hlek with ⟨rfl, rfl⟩ | ⟨k, rfl, h2⟩
      · show candidates cfg stored g = (candidates cfg stored g).drop 0
        rw [List.drop_zero]
      · show afterKey k (candidates cfg stored g) = (candidates cfg stored g).drop j
        exact h2
    by_cases hfull : limit + 1 ≤ items.length
    · refine ⟨lek, ?_, fun habs => absurd habs (by omega)⟩
      simp only [cellLoop, if_pos hfull]
      have hneed : limit + 1 - items.length = 0 := by omega
      rw [hneed, List.take_zero, List.append_nil]
    · have hres : queryPartition cfg stored g (limit + 1 - items.length) lek
          = (((candidates cfg stored g).drop j).take (limit + 1 - items.length),
             if ((candidates cfg stored g).drop j).length < limit + 1 - items.length
             then none
             else ((((candidates cfg stored g).drop j).take
                 (limit + 1 - items.length)).getLast?).map ikey) := by
        unfold queryPartition
        rw [hcand]
      by_cases hshort :
          ((candidates cfg stored g).drop j).length < limit + 1 - items.length
      · rw [if_pos hshort] at hres
        refine ⟨none, ?_, fun _ => rfl⟩
        simp only [cellLoop, if_neg hfull]
        rw [hres]
        have htake : ((candidates cfg stored g).drop j).take (limit + 1 - items.length)
            = (candidates cfg stored g).drop j := List.take_of_length_le (by omega)
        rw [htake]
        rw [List.take_of_length_le
          (le_of_lt (lt_of_le_of_lt (List.length_filter_le _ _) hshort))]
      · rw [if_neg hshort] at hres
        have hmle : limit + 1 - items.length
            ≤ ((candidates cfg stored g).drop j).length := by omega
        have hm1 : 1 ≤ limit + 1 - items.length := by omega
        have hidx : limit + 1 - items.length - 1
            < ((candidates cfg stored g).drop j).length := by omega
        have hgl : (((candidates cfg stored g).drop j).take
              (limit + 1 - items.length)).getLast?
            = some ((candidates cfg stored g).drop j)[limit + 1 - items.length - 1] := by
          rw [List.getLast?_eq_getElem?, List.length_take]
          have hlt : (limit + 1 - items.length) ⊓
              ((candidates cfg stored g).drop j).length
              = limit + 1 - items.length := min_eq_left hmle
          rw [hlt, List.getElem?_take_of_lt (by omega), List.getElem?_eq_getElem hidx]
        rw [hgl] at hres
        have hidxC : j + (limit + 1 - items.length - 1)
            < (candidates cfg stored g).length := by
          rw [List.length_drop] at hidx
          omega
        have hdC : ((candidates cfg stored g).drop j)[limit + 1 - items.length - 1]
            = (candidates cfg stored g)[j + (limit + 1 - items.length - 1)] := by
          have h1 : ((candidates cfg stored g).drop j)[limit + 1 - items.length - 1]?
              = (candidates cfg stored g)[j + (limit + 1 - items.length - 1)]? :=
            List.getElem?_drop _ _ _
          rw [List.getElem?_eq_getElem hidx, List.getElem?_eq_getElem hidxC] at h1
          exact Option.some.inj h1
        have hdecomp : candidates cfg stored g
            = (candidates cfg stored g).take (j + (limit + 1 - items.length - 1))
              ++ (candidates cfg stored g)[j + (limit + 1 - items.length - 1)]
              :: (candidates cfg stored g).drop (j + (limit + 1 - items.length)) := by
          have h1 := List.drop_eq_getElem_cons hidxC
          have h2 : j + (limit + 1 - items.length - 1) + 1
              = j + (limit + 1 - items.length) := by omega
          rw [h2] at h1
          rw [← h1, List.take_append_drop]
        have hafter : afterKey
            (ikey ((candidates cfg stored g)[j + (limit + 1 - items.length - 1)]))
              (candidates cfg stored g)
            = (candidates cfg stored g).drop (j + (limit + 1 - items.length)) :=
          afterKey_of_sorted hsorted hdecomp
        have hfuel' : ((candidates cfg stored g).drop
            (j + (limit + 1 - items.length))).length < fuel := by
          rw [List.length_drop] at hf ⊢
          omega
        obtain ⟨lek', hrec, hrecnone⟩ := ih (j + (limit + 1 - items.length))
          (items ++ (((candidates cfg stored g).drop j).take
              (limit + 1 - items.length)).filter (fun it => lib.contains poly it.pos))
          (some (ikey ((candidates cfg stored g)[j + (limit + 1 - items.length - 1)])))
          hfuel' (Or.inr ⟨_, rfl, hafter⟩)
        have hsplit : ((candidates cfg stored g).drop j).filter
              (fun it => lib.contains poly it.pos)
            = (((candidates cfg stored g).drop j).take
                  (limit + 1 - items.length)).filter
                (fun it => lib.contains poly it.pos)
              ++ ((candidates cfg stored g).drop
                  (j + (limit + 1 - items.length))).filter
                (fun it => lib.contains poly it.pos) := by
          rw [← List.filter_append, ← List.drop_drop, List.take_append_drop]
        have hplen : ((((candidates cfg stored g).drop j).take
            (limit + 1 - items.length)).filter
              (fun it => lib.contains poly it.pos)).length
            ≤ limit + 1 - items.length := by
          refine le_trans (List.length_filter_le _ _) ?_
          rw [List.length_take]
          omega
        rw [Option.map_some'] at hres
        rw [hdC] at hres
        refine ⟨lek', ?_, ?_⟩
        · simp only [cellLoop, if_neg hfull]
          rw [hres]
          show cellLoop lib cfg stored poly g limit fuel
            (items ++ (((candidates cfg stored g).drop j).take
                (limit + 1 - items.length)).filter
              (fun it => lib.contains poly it.pos))
            (some (ikey
              ((candidates cfg stored g)[j + (limit + 1 - items.length - 1)]))) = _
          rw [hrec]
          have harith : limit + 1
              - (items ++ ((((candidates cfg stored g).drop j).take
                  (limit + 1 - items.length)).filter
                    (fun it => lib.contains poly it.pos))).length
              = (limit + 1 - items.length)
                - ((((candidates cfg stored g).drop j).take
                    (limit + 1 - items.length)).filter
                      (fun it => lib.contains poly it.pos)).length := by
            rw [List.length_append]
            omega
          rw [harith, hsplit, List.take_append_eq_append_take,
            List.take_of_length_le hplen, ← List.append_assoc]
        · intro hshortF
          apply hrecnone
          have hlensplit := congrArg List.length hsplit
          rw [List.length_append] at hlensplit
          rw [List.length_append]
          omega

/-- Once the page quota is reached, the remaining cells are skipped. -/
theorem cellsLoop_full {Poly Pos : Type} (lib : GeoLib Poly Pos)
    (cfg : GeoTableConfiguration) (stored : List (Item Pos)) (poly : Poly)
    (limit fuel : Nat) (hfuel : 1 ≤ fuel) :
    ∀ (gs : List GStr) (items : List (Item Pos)) (lek : Option IKey),
      limit + 1 ≤ items.length →
      cellsLoop lib cfg stored poly limit fuel gs items lek = some (items, lek) := by
  intro gs
  induction gs with
  | nil =>
    intro items lek _
    rfl
  | cons g gs ih =>
    intro items lek hfull
    obtain ⟨f, rfl⟩ : ∃ f, fuel = f + 1 := ⟨fuel - 1, by omega⟩
    have hc : cellLoop lib cfg stored poly g limit (f + 1) items lek
        = some (items, lek) := by
      simp only [cellLoop, if_pos hfull]
    simp only [cellsLoop]
    rw [hc]
    exact ih items lek hfull

/-- The cell loop over fresh cells: it extends `items` with the next
filtered items of the concatenated partition scans, up to the quota. -/
theorem cellsLoop_none {Poly Pos : Type} (lib : GeoLib Poly Pos)
    (cfg : GeoTableConfiguration) (stored : List (Item Pos)) (poly : Poly)
    (limit fuel : Nat)
    (hsorted : stored.Pairwise (fun a b => ikLt (ikey a) (ikey b) = true))
    (hfuel : stored.length < fuel) :
    ∀ (gs : List GStr) (items : List (Item Pos)),
      items.length ≤ limit + 1 →
      ∃ lk, cellsLoop lib cfg stored poly limit fuel gs items none
        = some (items
            ++ (((gs.map (candidates cfg stored)).flatten).filter
                  (fun it => lib.contains poly it.pos)).take (limit + 1 - items.length),
            lk) := by
  intro gs
  induction gs with
  | nil =>
    intro items _
    refine ⟨none, ?_⟩
    simp [cellsLoop]
  | cons g gs ih =>
    intro items hitems
    have hcandlen : (candidates cfg stored g).length < fuel :=
      lt_of_le_of_lt (List.length_filter_le _ _) hfuel
    obtain ⟨lek₁, hcell, hcellnone⟩ := cellLoop_eq lib cfg stored poly g limit
      (hsorted.filter _) fuel 0 items none
      (by rw [List.drop_zero]; exact hcandlen) (Or.inl ⟨rfl, rfl⟩)
    rw [List.drop_zero] at hcell hcellnone
    have hflat : (((g :: gs).map (candidates cfg stored)).flatten).filter
          (fun it => lib.contains poly it.pos)
        = (candidates cfg stored g).filter (fun it => lib.contains poly it.pos)
          ++ ((gs.map (candidates cfg stored)).flatten).filter
              (fun it => lib.contains poly it.pos) := by
      rw [List.map_cons, List.flatten_cons, List.filter_append]
    by_cases hFshort : ((candidates cfg stored g).filter
        (fun it => lib.contains poly it.pos)).length < limit + 1 - items.length
    · have hlek₁ : lek₁ = none := hcellnone hFshort
      subst hlek₁
      have htk : ((candidates cfg stored g).filter
            (fun it => lib.contains poly it.pos)).take (limit + 1 - items.length)
          = (candidates cfg stored g).filter (fun it => lib.contains poly it.pos) :=
        List.take_of_length_le (by omega)
      rw [htk] at hcell
      obtain ⟨lk, hrest⟩ := ih
        (items ++ (candidates cfg stored g).filter (fun it => lib.contains poly it.pos))
        (by rw [List.length_append]; omega)
      refine ⟨lk, ?_⟩
      simp only [cellsLoop]
      rw [hcell]
      show cellsLoop lib cfg stored poly limit fuel gs
        (items ++ (candidates cfg stored g).filter
          (fun it => lib.contains poly it.pos)) none = _
      rw [hrest, hflat, List.take_append_eq_append_take,
        List.take_of_length_le (le_of_lt hFshort), ← List.append_assoc]
      have harith : limit + 1
          - (items ++ (candidates cfg stored g).filter
              (fun it => lib.contains poly it.pos)).length
          = (limit + 1 - items.length)
            - ((candidates cfg stored g).filter
                (fun it => lib.contains poly it.pos)).length := by
        rw [List.length_append]
        omega
      rw [harith]
    · have hlen : (items ++ ((candidates cfg stored g).filter
          (fun it => lib.contains poly it.pos)).take
            (limit + 1 - items.length)).length = limit + 1 := by
        rw [List.length_append, List.length_take]
        omega
      refine ⟨lek₁, ?_⟩
      simp only [cellsLoop]
      rw [hcell]
      show cellsLoop lib cfg stored poly limit fuel gs
        (items ++ ((candidates cfg stored g).filter
          (fun it => lib.contains poly it.pos)).take
            (limit + 1 - items.length)) lek₁ = _
      rw [cellsLoop_full lib cfg stored poly limit fuel (by omega) gs _ lek₁
        (by rw [hlen])]
      rw [hflat, List.take_append_eq_append_take]
      have hz : (limit + 1 - items.length)
          - ((candidates cfg stored g).filter
              (fun it => lib.contains poly it.pos)).length = 0 := by omega
      rw [hz, List.take_zero, List.append_nil]

/-- The cell loop on resumption: the first cell's scan starts at the
suffix the `ExclusiveStartKey` points at. -/
theorem cellsLoop_resume {Poly Pos : Type} (lib : GeoLib Poly Pos)
    (cfg : GeoTableConfiguration) (stored : List (Item Pos)) (poly : Poly)
    (limit fuel : Nat)
    (hsorted : stored.Pairwise (fun a b => ikLt (ikey a) (ikey b) = true))
    (hfuel : stored.length < fuel)
    (g : GStr) (gs : List GStr) (j : Nat) (k : IKey)
    (hafter : afterKey k (candidates cfg stored g)
      = (candidates cfg stored g).drop j) :
    ∃ lk, cellsLoop lib cfg stored poly limit fuel (g :: gs) [] (some k)
      = some (((((candidates cfg stored g).drop j
              ++ (gs.map (candidates cfg stored)).flatten).filter
            (fun it => lib.contains poly it.pos)).take (limit + 1)),
          lk) := by
  have hcandlen : ((candidates cfg stored g).drop j).length < fuel := by
    have h1 : (candidates cfg stored g).length < fuel :=
      lt_of_le_of_lt (List.length_filter_le _ _) hfuel
    rw [List.length_drop]
    omega
  obtain ⟨lek₁, hcell, hcellnone⟩ := cellLoop_eq lib cfg stored poly g limit
    (hsorted.filter _) fuel j [] (some k) hcandlen (Or.inr ⟨k, rfl, hafter⟩)
  simp only [List.nil_append, List.length_nil, Nat.sub_zero] at hcell hcellnone
  have hflat : (((candidates cfg stored g).drop j
        ++ (gs.map (candidates cfg stored)).flatten).filter
          (fun it => lib.contains poly it.pos))
      = ((candidates cfg stored g).drop j).filter
          (fun it => lib.contains poly it.pos)
        ++ ((gs.map (candidates cfg stored)).flatten).filter
            (fun it => lib.contains poly it.pos) := List.filter_append _ _
  by_cases hFshort : (((candidates cfg stored g).drop j).filter
      (fun it => lib.contains poly it.pos)).length < limit + 1
  · have hlek₁ : lek₁ = none := hcellnone hFshort
    subst hlek₁
    have htk : (((candidates cfg stored g).drop j).filter
          (fun it => lib.contains poly it.pos)).take (limit + 1)
        = ((candidates cfg stored g).drop j).filter
            (fun it => lib.contains poly it.pos) :=
      List.take_of_length_le (by omega)
    rw [htk] at hcell
    obtain ⟨lk, hrest⟩ := cellsLoop_none lib cfg stored poly limit fuel hsorted hfuel gs
      (((candidates cfg stored g).drop j).filter (fun it => lib.contains poly it.pos))
      (by omega)
    refine ⟨lk, ?_⟩
    simp only [cellsLoop]
    rw [hcell]
    show cellsLoop lib cfg stored poly limit fuel gs
      (((candidates cfg stored g).drop j).filter
        (fun it => lib.contains poly it.pos)) none = _
    rw [hrest, hflat, List.take_append_eq_append_take,
      List.take_of_length_le (le_of_lt hFshort)]
  · have hlen : ((((candidates cfg stored g).drop j).filter
        (fun it => lib.contains poly it.pos)).take (limit + 1)).length
        = limit + 1 := by
      rw [List.length_take]
      omega
    refine ⟨lek₁, ?_⟩
    simp only [cellsLoop]
    rw [hcell]
    show cellsLoop lib cfg stored poly limit fuel gs
      ((((candidates cfg stored g).drop j).filter
        (fun it => lib.contains poly it.pos)).take (limit + 1)) lek₁ = _
    rw [cellsLoop_full lib cfg stored poly limit fuel (by omega) gs _ lek₁
      (by rw [hlen])]
    rw [hflat, List.take_append_eq_append_take]
    have hz : limit + 1 - (((candidates cfg stored g).drop j).filter
        (fun it => lib.contains poly it.pos)).length = 0 := by omega
    rw [hz, List.take_zero, List.append_nil]

/-- `sorted` on a duplicate-free list of strings is strictly
increasing. -/
theorem pySorted_strict (l : List GStr) (hnd : l.Nodup) :
    (pySorted l).Pairwise (fun a b => gLt a b = true) := by
  have h1 := pySorted_pairwise l
  have h2 : (pySorted l).Nodup := ((pySorted_perm l).nodup_iff).mpr hnd
  have h3 := List.Pairwise.and h1 h2
  refine h3.imp ?_
  rintro a b ⟨hab, hne⟩
  rcases hg : gLt a b with _ | _
  · exact absurd (gLt_connex hg hab) hne
  · rfl

/-- The page assembly of `GeoTable.query`: truncate the collected items
to `limit` and return the primary key of `items[limit - 1]` as cursor
when the quota was reached. -/
theorem finishQuery_of_loop {Poly Pos : Type} (lib : GeoLib Poly Pos)
    (cfg : GeoTableConfiguration) (stored : List (Item Pos)) (poly : Poly)
    (gs : List GStr) (limit : Nat) (startKey : Option IKey)
    (F : List (Item Pos)) (lk : Option IKey)
    (hloop : cellsLoop lib cfg stored poly limit (stored.length + 1) gs [] startKey
      = some (F.take (limit + 1), lk)) :
    finishQuery lib cfg stored poly gs limit startKey
      = .ok ⟨F.take limit,
          if limit + 1 ≤ F.length then (F[limit - 1]?).map Item.pk else none⟩ := by
  unfold finishQuery
  rw [hloop]
  show (Except.ok (GeoQueryResult.mk ((F.take (limit + 1)).take limit)
      (if limit + 1 ≤ (F.take (limit + 1)).length
       then ((F.take (limit + 1)).get? (limit - 1)).map Item.pk else none))
    : Except GeoQueryErr (GeoQueryResult Pos)) = _
  have h1 : (F.take (limit + 1)).take limit = F.take limit := by
    rw [List.take_take]
    congr 1
    omega
  by_cases hlen : limit + 1 ≤ F.length
  · have h2 : (F.take (limit + 1)).length = limit + 1 := by
      rw [List.length_take]
      omega
    rw [h1, h2, if_pos (le_refl _), if_pos hlen, List.get?_eq_getElem?,
      List.getElem?_take_of_lt (by omega)]
  · have h2 : ¬ limit + 1 ≤ (F.take (limit + 1)).length := by
      rw [List.length_take]
      omega
    rw [h1, if_neg h2, if_neg hlen]

/-- The concatenated partition scans of a duplicate-free cell list are
a permutation of the stored items whose truncated geohash is one of the
cells. -/
theorem stream_perm {Pos : Type} (cfg : GeoTableConfiguration)
    (stored : List (Item Pos)) (q : Nat) (gs : List GStr)
    (henrich : ∀ it ∈ stored, it.geohashPfx = it.geohash.take cfg.prefixLength)
    (hgsq : ∀ g ∈ gs, g.length = q) (hple : cfg.prefixLength ≤ q)
    (hgsnodup : gs.Nodup) :
    ((gs.map (candidates cfg stored)).flatten).Perm
      (stored.filter (fun it => gs.contains (it.geohash.take q))) := by
  have hmap : gs.map (candidates cfg stored)
      = gs.map (fun g => stored.filter (fun it => it.geohash.take q == g)) :=
    List.map_congr_left
      (fun g hg => candidates_takeq cfg stored henrich (hgsq g hg) hple)
  rw [hmap]
  exact flatten_filter_groups _ stored gs hgsnodup

/-- The filtered stream is a permutation of the stored items inside the
polygon, given the raster covers every stored item inside it. -/
theorem filtered_stream_perm {Poly Pos : Type} (lib : GeoLib Poly Pos)
    (cfg : GeoTableConfiguration) (stored : List (Item Pos)) (poly : Poly)
    (q : Nat) (gs : List GStr)
    (henrich : ∀ it ∈ stored, it.geohashPfx = it.geohash.take cfg.prefixLength)
    (hgsq : ∀ g ∈ gs, g.length = q) (hple : cfg.prefixLength ≤ q)
    (hgsnodup : gs.Nodup)
    (hcovgs : ∀ it ∈ stored, lib.contains poly it.pos = true →
      it.geohash.take q ∈ gs) :
    (((gs.map (candidates cfg stored)).flatten).filter
        (fun it => lib.contains poly it.pos)).Perm
      (stored.filter (fun it => lib.contains poly it.pos)) := by
  refine ((stream_perm cfg stored q gs henrich hgsq hple hgsnodup).filter _).trans ?_
  rw [List.filter_filter]
  have heq : stored.filter
      (fun it => lib.contains poly it.pos && gs.contains (it.geohash.take q))
      = stored.filter (fun it => lib.contains poly it.pos) := by
    apply List.filter_congr
    intro it hit
    rcases hp : lib.contains poly it.pos with _ | _
    · rw [Bool.false_and]
    · rw [Bool.true_and]
      simpa using hcovgs it hit hp
  rw [heq]

/-- A fresh polygon query returns the first `limit` filtered items of
the stream, with the primary key of the `limit`-th as cursor when at
least `limit + 1` exist. -/
theorem query_none_eq {Poly Pos : Type} (lib : GeoLib Poly Pos)
    (cfg : GeoTableConfiguration) (stored : List (Item Pos)) (poly : Poly)
    (limit : Nat) (raster : List GStr)
    (hraster : rasterPolygon lib cfg poly = .ok raster)
    (hne : raster ≠ [])
    (hsorted : stored.Pairwise (fun a b => ikLt (ikey a) (ikey b) = true)) :
    query lib cfg stored limit poly none
      = .ok ⟨((((pySorted raster).map (candidates cfg stored)).flatten).filter
            (fun it => lib.contains poly it.pos)).take limit,
          if limit + 1 ≤ ((((pySorted raster).map (candidates cfg stored)).flatten).filter
              (fun it => lib.contains poly it.pos)).length
          then (((((pySorted raster).map (candidates cfg stored)).flatten).filter
              (fun it => lib.contains poly it.pos))[limit - 1]?).map Item.pk
          else none⟩ := by
  unfold query
  rw [hraster]
  show queryWithCells lib cfg stored limit poly none (pySorted raster) = _
  rcases hgs : pySorted raster with _ | ⟨g0, rest⟩
  · exfalso
    have hlen := (pySorted_perm raster).length_eq
    rw [hgs] at hlen
    exact hne (List.eq_nil_of_length_eq_zero hlen.symm)
  · simp only [queryWithCells]
    obtain ⟨lk, hloop⟩ := cellsLoop_none lib cfg stored poly limit
      (stored.length + 1) hsorted (by omega) (g0 :: rest) [] (by simp)
    simp only [List.nil_append, List.length_nil, Nat.sub_zero] at hloop
    exact finishQuery_of_loop lib cfg stored poly (g0 :: rest) limit none _ lk hloop

/-- A resumed polygon query: when the filtered stream splits as
`F₁ ++ c :: F₂` and the cursor is `c`'s primary key, the call returns
the first `limit` items of `F₂` and the cursor into `F₂`. -/
theorem query_resumed_eq {Poly Pos : Type} (lib : GeoLib Poly Pos)
    (cfg : GeoTableConfiguration) (stored : List (Item Pos)) (poly : Poly)
    (limit : Nat) (q : Nat) (raster : List GStr)
    (hraster : rasterPolygon lib cfg poly = .ok raster)
    (hq : ∀ g ∈ raster, g.length = q)
    (hnodup : raster.Nodup)
    (hple : cfg.prefixLength ≤ q)
    (henrich : ∀ it ∈ stored, it.geohashPfx = it.geohash.take cfg.prefixLength)
    (hsorted : stored.Pairwise (fun a b => ikLt (ikey a) (ikey b) = true))
    (hpk : (stored.map Item.pk).Nodup)
    (F₁ F₂ : List (Item Pos)) (c : Item Pos)
    (hdec : (((pySorted raster).map (candidates cfg stored)).flatten).filter
        (fun it => lib.contains poly it.pos) = F₁ ++ c :: F₂) :
    query lib cfg stored limit poly (some c.pk)
      = .ok ⟨F₂.take limit,
          if limit + 1 ≤ F₂.length then (F₂[limit - 1]?).map Item.pk else none⟩ := by
  have hgsperm := pySorted_perm raster
  have hgsnodup : (pySorted raster).Nodup := hgsperm.nodup_iff.mpr hnodup
  have hgsq : ∀ g ∈ pySorted raster, g.length = q :=
    fun g hg => hq g (hgsperm.subset hg)
  have hstrict := pySorted_strict raster hnodup
  have hcF : c ∈ (((pySorted raster).map (candidates cfg stored)).flatten).filter
      (fun it => lib.contains poly it.pos) := by
    rw [hdec]
    exact List.mem_append.mpr (Or.inr (List.mem_cons_self c F₂))
  have hcS := (List.mem_filter.mp hcF).1
  have hcP := (List.mem_filter.mp hcF).2
  obtain ⟨lcell, hlcell, hclcell⟩ := List.mem_flatten.mp hcS
  obtain ⟨gc, hgc, rfl⟩ := List.mem_map.mp hlcell
  have hcstored : c ∈ stored := (List.mem_filter.mp hclcell).1
  have hcmatch : matchesPartition cfg gc c = true := (List.mem_filter.mp hclcell).2
  have hgcq : gc.length = q := hgsq gc hgc
  have hcg : c.geohash.take q = gc :=
    (matches_iff cfg (henrich c hcstored) hgcq hple).mp hcmatch
  obtain ⟨A, B, hAB⟩ := List.append_of_mem hgc
  obtain ⟨X, Y, hXY⟩ := List.append_of_mem hclcell
  have hcandsorted : (candidates cfg stored gc).Pairwise
      (fun a b => ikLt (ikey a) (ikey b) = true) := hsorted.filter _
  have hafter0 : afterKey (ikey c) (candidates cfg stored gc) = Y :=
    afterKey_of_sorted hcandsorted hXY
  have hdropj : (candidates cfg stored gc).drop (X.length + 1) = Y := by
    rw [hXY, show X ++ c :: Y = (X ++ [c]) ++ Y from by
        rw [List.append_assoc]
        rfl,
      show X.length + 1 = (X ++ [c]).length from by
        rw [List.length_append]
        rfl]
    exact List.drop_left _ _
  have hafter : afterKey (ikey c) (candidates cfg stored gc)
      = (candidates cfg stored gc).drop (X.length + 1) := by
    rw [hafter0, hdropj]
  obtain ⟨lk, hloop⟩ := cellsLoop_resume lib cfg stored poly limit
    (stored.length + 1) hsorted (by omega) gc B (X.length + 1) (ikey c) hafter
  rw [hdropj] at hloop
  have hfin := finishQuery_of_loop lib cfg stored poly (gc :: B) limit
    (some (ikey c))
    ((Y ++ (B.map (candidates cfg stored)).flatten).filter
      (fun it => lib.contains poly it.pos)) lk hloop
  -- identify F₂ with the filtered tail stream
  have hSdecomp : (((A ++ gc :: B).map (candidates cfg stored)).flatten)
      = ((A.map (candidates cfg stored)).flatten ++ X)
        ++ c :: (Y ++ (B.map (candidates cfg stored)).flatten) := by
    rw [List.map_append, List.flatten_append, List.map_cons, List.flatten_cons, hXY]
    simp [List.append_assoc]
  have hFdecomp : ((((A ++ gc :: B).map (candidates cfg stored)).flatten).filter
        (fun it => lib.contains poly it.pos))
      = (((A.map (candidates cfg stored)).flatten ++ X).filter
          (fun it => lib.contains poly it.pos))
        ++ c :: ((Y ++ (B.map (candidates cfg stored)).flatten).filter
            (fun it => lib.contains poly it.pos)) := by
    rw [hSdecomp, List.filter_append,
      @List.filter_cons_of_pos (Item Pos) (fun it => lib.contains poly it.pos) c
        (Y ++ (B.map (candidates cfg stored)).flatten) hcP]
  have hSnodup : ((((A ++ gc :: B).map (candidates cfg stored)).flatten)).Nodup := by
    refine ((stream_perm cfg stored q (A ++ gc :: B) henrich ?_ hple ?_).nodup_iff).mpr
      ((List.Nodup.of_map _ hpk).filter _)
    · rw [← hAB]
      exact hgsq
    · rw [← hAB]
      exact hgsnodup
  have hFnodup : (((((A ++ gc :: B).map (candidates cfg stored)).flatten)).filter
      (fun it => lib.contains poly it.pos)).Nodup := hSnodup.filter _
  have hdec' : ((((A ++ gc :: B).map (candidates cfg stored)).flatten).filter
      (fun it => lib.contains poly it.pos)) = F₁ ++ c :: F₂ := by
    rw [← hAB]
    exact hdec
  have hcomb : (((A.map (candidates cfg stored)).flatten ++ X).filter
        (fun it => lib.contains poly it.pos))
      ++ c :: ((Y ++ (B.map (candidates cfg stored)).flatten).filter
          (fun it => lib.contains poly it.pos)) = F₁ ++ c :: F₂ := by
    rw [← hFdecomp]
    exact hdec'
  have hnotin1 : c ∉ (((A.map (candidates cfg stored)).flatten ++ X).filter
      (fun it => lib.contains poly it.pos)) := by
    rw [hFdecomp] at hFnodup
    rw [List.nodup_append] at hFnodup
    exact fun hc => hFnodup.2.2 hc (List.mem_cons_self c _)
  have hnotin2 : c ∉ F₁ := by
    rw [hdec'] at hFnodup
    rw [List.nodup_append] at hFnodup
    exact fun hc => hFnodup.2.2 hc (List.mem_cons_self c _)
  obtain ⟨-, hF₂⟩ := cons_decomp_unique hcomb hnotin1 hnotin2
  -- run the query
  unfold query
  rw [hraster]
  show queryWithCells lib cfg stored limit poly (some c.pk) (pySorted raster) = _
  rw [hAB]
  have hstrict' : (A ++ gc :: B).Pairwise (fun a b => gLt a b = true) := by
    rw [← hAB]
    exact hstrict
  rcases A with _ | ⟨a0, arest⟩
  · simp only [List.nil_append] at hstrict' hdec' ⊢
    simp only [queryWithCells]
    rw [find_pk hpk hcstored]
    show finishQuery lib cfg stored poly
      ((gc :: B).filter (fun g => !gLt g (c.geohash.take gc.length))) limit
      (some (ikey c)) = _
    rw [hgcq, hcg]
    have hcf : (gc :: B).filter (fun x => !gLt x gc) = gc :: B :=
      cells_filter_ge hstrict' (show gc :: B = [] ++ gc :: B from rfl)
    rw [hcf, hfin, hF₂]
  · simp only [queryWithCells, List.cons_append]
    rw [find_pk hpk hcstored]
    show finishQuery lib cfg stored poly
      ((a0 :: (arest ++ gc :: B)).filter
        (fun g => !gLt g (c.geohash.take a0.length))) limit
      (some (ikey c)) = _
    have ha0q : a0.length = q := by
      apply hgsq
      rw [hAB]
      exact List.mem_cons_self a0 _
    rw [ha0q, hcg]
    have hcf : (a0 :: (arest ++ gc :: B)).filter (fun x => !gLt x gc) = gc :: B :=
      cells_filter_ge (by rw [← List.cons_append]; exact hstrict')
        (show a0 :: (arest ++ gc :: B) = (a0 :: arest) ++ gc :: B from rfl)
    rw [hcf, hfin, hF₂]

/-- Following cursors from inside the stream delivers exactly the rest
of the stream. -/
theorem collectPages_of_query_resume {Poly Pos : Type} (lib : GeoLib Poly Pos)
    (cfg : GeoTableConfiguration) (stored : List (Item Pos)) (limit : Nat)
    (poly : Poly) (F : List (Item Pos)) (hlim : 1 ≤ limit)
    (hres : ∀ (F₁ F₂ : List (Item Pos)) (c : Item Pos), F = F₁ ++ c :: F₂ →
      query lib cfg stored limit poly (some c.pk)
        = .ok ⟨F₂.take limit,
            if limit + 1 ≤ F₂.length then (F₂[limit - 1]?).map Item.pk else none⟩) :
    ∀ (fuel : Nat) (F₁ F₂ : List (Item Pos)) (c : Item Pos),
      F = F₁ ++ c :: F₂ → F₂.length < fuel →
      collectPages lib cfg stored limit poly fuel (some c.pk) = .ok F₂ := by
  intro fuel
  induction fuel with
  | zero =>
    intro F₁ F₂ c _ h
    exact absurd h (Nat.not_lt_zero _)
  | succ fuel ih =>
    intro F₁ F₂ c hdec hfl
    simp only [collectPages]
    rw [hres F₁ F₂ c hdec]
    by_cases hlen2 : limit + 1 ≤ F₂.length
    · rw [if_pos hlen2]
      have hidx : limit - 1 < F₂.length := by omega
      rw [List.getElem?_eq_getElem hidx, Option.map_some']
      have hsplit : F₂ = F₂.take (limit - 1) ++ F₂[limit - 1] :: F₂.drop limit := by
        have h1 := List.drop_eq_getElem_cons hidx
        have h2 : limit - 1 + 1 = limit := by omega
        rw [h2] at h1
        rw [← h1, List.take_append_drop]
      have hdec2 : F = (F₁ ++ c :: F₂.take (limit - 1))
          ++ F₂[limit - 1] :: F₂.drop limit := by
        rw [hdec]
        conv_lhs => rw [hsplit]
        simp [List.append_assoc]
      have hrec := ih (F₁ ++ c :: F₂.take (limit - 1)) (F₂.drop limit)
        F₂[limit - 1] hdec2 (by rw [List.length_drop]; omega)
      show (match collectPages lib cfg stored limit poly fuel
          (some F₂[limit - 1].pk) with
        | Except.error e => Except.error e
        | Except.ok rest => Except.ok (F₂.take limit ++ rest)) = Except.ok F₂
      rw [hrec]
      show Except.ok (F₂.take limit ++ F₂.drop limit) = Except.ok F₂
      rw [List.take_append_drop]
    · rw [if_neg hlen2]
      show Except.ok (F₂.take limit) = Except.ok F₂
      rw [List.take_of_length_le (by omega)]

/-- Following cursors from the first page delivers the whole stream. -/
theorem collectPages_of_query {Poly Pos : Type} (lib : GeoLib Poly Pos)
    (cfg : GeoTableConfiguration) (stored : List (Item Pos)) (limit : Nat)
    (poly : Poly) (F : List (Item Pos)) (hlim : 1 ≤ limit)
    (hq0 : query lib cfg stored limit poly none
      = .ok ⟨F.take limit,
          if limit + 1 ≤ F.length then (F[limit - 1]?).map Item.pk else none⟩)
    (hres : ∀ (F₁ F₂ : List (Item Pos)) (c : Item Pos), F = F₁ ++ c :: F₂ →
      query lib cfg stored limit poly (some c.pk)
        = .ok ⟨F₂.take limit,
            if limit + 1 ≤ F₂.length then (F₂[limit - 1]?).map Item.pk else none⟩) :
    ∀ (fuel : Nat), F.length < fuel →
      collectPages lib cfg stored limit poly fuel none = .ok F := by
  intro fuel hfl
  obtain ⟨f, rfl⟩ : ∃ f, fuel = f + 1 := ⟨fuel - 1, by omega⟩
  simp only [collectPages]
  rw [hq0]
  by_cases hlen : limit + 1 ≤ F.length
  · rw [if_pos hlen]
    have hidx : limit - 1 < F.length := by omega
    rw [List.getElem?_eq_getElem hidx, Option.map_some']
    have hsplit : F = F.take (limit - 1) ++ F[limit - 1] :: F.drop limit := by
      have h1 := List.drop_eq_getElem_cons hidx
      have h2 : limit - 1 + 1 = limit := by omega
      rw [h2] at h1
      rw [← h1, List.take_append_drop]
    have hrec := collectPages_of_query_resume lib cfg stored limit poly F hlim hres
      f (F.take (limit - 1)) (F.drop limit) F[limit - 1] hsplit
      (by rw [List.length_drop]; omega)
    show (match collectPages lib cfg stored limit poly f
        (some F[limit - 1].pk) with
      | Except.error e => Except.error e
      | Except.ok rest => Except.ok (F.take limit ++ rest)) = Except.ok F
    rw [hrec]
    show Except.ok (F.take limit ++ F.drop limit) = Except.ok F
    rw [List.take_append_drop]
  · rw [if_neg hlen]
    show Except.ok (F.take limit) = Except.ok F
    rw [List.take_of_length_le (by omega)]

/-- C1: for every stored set of enriched items (index-sorted, distinct
primary keys, derived fields consistent), every polygon whose raster is
a nonempty duplicate-free list of equal-length cells covering the
stored items inside the polygon, and every `limit >= 1`, concatenating
the pages of `GeoTable.query` — each call resuming from the previous
call's cursor until the cursor is empty — succeeds and yields exactly
the stored items whose position lies inside the polygon, each once,
independently of `limit`. -/
theorem query_pagination_complete {Poly Pos : Type} (lib : GeoLib Poly Pos)
    (cfg : GeoTableConfiguration) (stored : List (Item Pos)) (poly : Poly)
    (limit q : Nat) (raster : List GStr)
    (hlim : 1 ≤ limit)
    (hraster : rasterPolygon lib cfg poly = .ok raster)
    (hq : ∀ g ∈ raster, g.length = q)
    (hnodup : raster.Nodup)
    (hne : raster ≠ [])
    (hple : cfg.prefixLength ≤ q)
    (henrich : ∀ it ∈ stored, it.geohashPfx = it.geohash.take cfg.prefixLength)
    (hsorted : stored.Pairwise (fun a b => ikLt (ikey a) (ikey b) = true))
    (hpk : (stored.map Item.pk).Nodup)
    (hcov : ∀ it ∈ stored, lib.contains poly it.pos = true →
      it.geohash.take q ∈ raster) :
    ∃ out, collectPages lib cfg stored limit poly (stored.length + 1) none = .ok out
      ∧ out.Perm (stored.filter (fun it => lib.contains poly it.pos))
      ∧ out.Nodup := by
  have hgsperm := pySorted_perm raster
  have hgsnodup : (pySorted raster).Nodup := hgsperm.nodup_iff.mpr hnodup
  have hgsq : ∀ g ∈ pySorted raster, g.length = q :=
    fun g hg => hq g (hgsperm.subset hg)
  have hcovgs : ∀ it ∈ stored, lib.contains poly it.pos = true →
      it.geohash.take q ∈ pySorted raster :=
    fun it h hp => (hgsperm.mem_iff).mpr (hcov it h hp)
  have hFperm := filtered_stream_perm lib cfg stored poly q (pySorted raster)
    henrich hgsq hple hgsnodup hcovgs
  have hFnodup : ((((pySorted raster).map (candidates cfg stored)).flatten).filter
      (fun it => lib.contains poly it.pos)).Nodup :=
    (hFperm.nodup_iff).mpr ((List.Nodup.of_map _ hpk).filter _)
  have hFlen : ((((pySorted raster).map (candidates cfg stored)).flatten).filter
      (fun it => lib.contains poly it.pos)).length ≤ stored.length := by
    rw [hFperm.length_eq]
    exact List.length_filter_le _ _
  refine ⟨_, ?_, hFperm, hFnodup⟩
  exact collectPages_of_query lib cfg stored limit poly _ hlim
    (query_none_eq lib cfg stored poly limit raster hraster hne hsorted)
    (fun F₁ F₂ c hdec => query_resumed_eq lib cfg stored poly limit q raster
      hraster hq hnodup hple henrich hsorted hpk F₁ F₂ c hdec)
    (stored.length + 1) (by omega)

/-- The geometry capability of the C1 witness: one coarse cell, two fine
cells, and a polygon containing the positions `0` and `1`. -/
def geoLibPaged : GeoLib Unit Nat :=
  ⟨fun _ p => if p = 1 then [['a']] else [['a', 'a'], ['a', 'b']],
    fun _ pos => decide (pos ≤ 1)⟩

/-- Witness for C1: three stored items over two cells, `limit = 1`, so
the pages are collected across a resumed call. -/
theorem query_pagination_complete_witness :
    (1 ≤ 1
      ∧ rasterPolygon geoLibPaged ⟨1, 2⟩ () = .ok [['a', 'a'], ['a', 'b']]
      ∧ (∀ g ∈ [['a', 'a'], ['a', 'b']], List.length g = 2)
      ∧ ([['a', 'a'], ['a', 'b']] : List GStr).Nodup
      ∧ ([['a', 'a'], ['a', 'b']] : List GStr) ≠ []
      ∧ (1 : Nat) ≤ 2
      ∧ (∀ it ∈ [Item.mk 0 ['a', 'a'] ['a'] 0, Item.mk 1 ['a', 'b'] ['a'] 5,
            Item.mk 2 ['a', 'b'] ['a'] 1],
          it.geohashPfx = it.geohash.take 1)
      ∧ ([Item.mk 0 ['a', 'a'] ['a'] 0, Item.mk 1 ['a', 'b'] ['a'] 5,
            Item.mk 2 ['a', 'b'] ['a'] 1].Pairwise
          (fun a b => ikLt (ikey a) (ikey b) = true))
      ∧ ([Item.mk 0 ['a', 'a'] ['a'] 0, Item.mk 1 ['a', 'b'] ['a'] 5,
            Item.mk 2 ['a', 'b'] ['a'] 1].map Item.pk).Nodup
      ∧ (∀ it ∈ [Item.mk 0 ['a', 'a'] ['a'] 0, Item.mk 1 ['a', 'b'] ['a'] 5,
            Item.mk 2 ['a', 'b'] ['a'] 1],
          geoLibPaged.contains () it.pos = true →
            it.geohash.take 2 ∈ [['a', 'a'], ['a', 'b']]))
    ∧ ∃ out, collectPages geoLibPaged ⟨1, 2⟩
          [Item.mk 0 ['a', 'a'] ['a'] 0, Item.mk 1 ['a', 'b'] ['a'] 5,
            Item.mk 2 ['a', 'b'] ['a'] 1] 1 () 4 none = .ok out
        ∧ out.Perm ([Item.mk 0 ['a', 'a'] ['a'] 0, Item.mk 1 ['a', 'b'] ['a'] 5,
            Item.mk 2 ['a', 'b'] ['a'] 1].filter
              (fun it => geoLibPaged.contains () it.pos))
        ∧ out.Nodup :=
  ⟨⟨by decide, rfl, by decide, by decide, by decide, by decide, by decide,
      by decide, by decide, by decide⟩,
    query_pagination_complete geoLibPaged ⟨1, 2⟩
      [Item.mk 0 ['a', 'a'] ['a'] 0, Item.mk 1 ['a', 'b'] ['a'] 5,
        Item.mk 2 ['a', 'b'] ['a'] 1] () 1 2 [['a', 'a'], ['a', 'b']]
      (by decide) rfl (by decide) (by decide) (by decide) (by decide)
      (by decide) (by decide) (by decide) (by decide)⟩

end DynamodbGeo
